import Mathlib

/-!
# Shrinkwrap synchronizer (`cvmfs/export_plugin/fs_traversal.cc`)

A shallow embedding of the synchronisation engine.  The C++ code works on two
backends given as tables of function pointers (`struct fs_traversal`), on a few
process-wide globals and on the statistics object.  Here

* a backend operation is a function on the backend context and `errno`
  (`Op`), so every call may both read and change them;
* the mutable process state is the record `World`; it also carries `trace`,
  the log of the calls the embedded code has made, in program order;
* loops and recursions whose length is decided by a backend take fuel and
  return `Res`; undefined behaviour of the C++ code is a `Fault`.
-/

namespace shrinkwrap

/-! ## Results -/

/-- Ways in which an embedded function yields no value. -/
inductive Fault where
  | out_of_fuel
  | null_deref
  | out_of_bounds
  | buffer_overrun
  deriving DecidableEq, Repr

/-- Result of an embedded function. -/
abbrev Res (α : Type) := Except Fault α

/-! ## Strings and `stat` modes -/

/-- Comparison of two NUL-terminated strings, character by character. -/
def strcmp_chars : List Char → List Char → Int
  | [], [] => 0
  | [], _ :: _ => -1
  | _ :: _, [] => 1
  | a :: as, b :: bs =>
    if a = b then strcmp_chars as bs else (a.toNat : Int) - (b.toNat : Int)

/-- C library `strcmp`: zero for equal strings, otherwise the sign of the
first difference. -/
def strcmp (a b : String) : Int := strcmp_chars a.data b.data

/-- `strcmp` applied to two `char *` that may be `NULL`: dereferencing `NULL`
is undefined behaviour. -/
def strcmp_ptr (a b : Option String) : Res Int :=
  match a, b with
  | some x, some y => .ok (strcmp x y)
  | _, _ => .error Fault.null_deref

/-- Comparator handed to `qsort` (`strcmp_list`), as an order. -/
def strcmp_list (a b : String) : Prop := strcmp a b ≤ 0

instance strcmp_list_decidable : DecidableRel strcmp_list :=
  fun a b => inferInstanceAs (Decidable (strcmp a b ≤ 0))

/-- The array after `qsort(buf, len, sizeof(char *), strcmp_list)`. -/
def qsort (buf : List String) : List String := List.insertionSort strcmp_list buf

/-- Mask of the file-type bits of `st_mode` (`sys/stat.h`). -/
def S_IFMT : Nat := 0o170000
/-- File type: regular file. -/
def S_IFREG : Nat := 0o100000
/-- File type: directory. -/
def S_IFDIR : Nat := 0o040000
/-- File type: symbolic link. -/
def S_IFLNK : Nat := 0o120000
/-- The `errno` value "file exists" (`errno.h`). -/
def EEXIST : Int := 17

/-- Macro `S_ISLNK`. -/
def S_ISLNK (m : Nat) : Bool := (m &&& S_IFMT) == S_IFLNK
/-- Macro `S_ISREG`. -/
def S_ISREG (m : Nat) : Bool := (m &&& S_IFMT) == S_IFREG
/-- Macro `S_ISDIR`. -/
def S_ISDIR (m : Nat) : Bool := (m &&& S_IFMT) == S_IFDIR

/-! ## Data model -/

/-- Modelled from the spec: `struct cvmfs_attr` is declared in `libcvmfs.h`,
which is not among the sources.  The fields are the ones
`fs_traversal.cc` reads, plus the extended attributes. -/
structure cvmfs_attr where
  version : Nat
  size : Nat
  st_ino : Nat
  st_mode : Nat
  st_uid : Nat
  st_gid : Nat
  st_size : Int
  cvm_checksum : Option String
  cvm_symlink : Option String
  cvm_name : Option String
  cvm_xattrs : Option (List (String × String))
  deriving DecidableEq, Repr

/-- Class `FileCopy`: a copy job; both identifiers `NULL` is the
termination job. -/
structure FileCopy where
  src : Option String
  dest : Option String
  deriving DecidableEq, Repr

/-- Method `FileCopy::IsTerminateJob`. -/
def FileCopy.IsTerminateJob (j : FileCopy) : Bool := j.src.isNone && j.dest.isNone

/-- Class `RecDir`: a directory still to be synchronised. -/
structure RecDir where
  dir : Option String
  recursive : Bool
  deriving DecidableEq, Repr

/-- Method `RecDir::IsTerminateJob`. -/
def RecDir.IsTerminateJob (d : RecDir) : Bool := d.dir.isNone

/-- Class `FsckLock`: the inodes already claimed (`locks_`). -/
structure FsckLock where
  locks_ : List Nat
  deriving DecidableEq, Repr

/-- Method `FsckLock::AddLock`: insert the inode if absent and tell whether it
was absent. -/
def FsckLock.AddLock (l : FsckLock) (inode : Nat) : Bool × FsckLock :=
  if l.locks_.count inode = 0 then (true, ⟨inode :: l.locks_⟩) else (false, l)

/-- Names of the counters registered by `GetSyncStatTemplate`
(`SHRINKWRAP_STAT_...`). -/
inductive Stat where
  | BYTE_COUNT
  | FILE_COUNT
  | SRC_ENTRIES
  | DEST_ENTRIES
  | DEDUPED_FILES
  | DEDUPED_BYTES
  deriving DecidableEq, Repr

/-- Modelled from the spec: `perf::Statistics` is not among the sources; the
object gives the value of each registered counter (`Lookup`). -/
abbrev Statistics := Stat → Int

/-- Modelled from the spec: `SpecTree` (`spec_tree.h`) is not among the
sources.  `IsMatching` tells whether a path is included; `ListDir` gives the
children the spec enumerates, or `none` for `SPEC_READ_FS`. -/
structure SpecTree where
  IsMatching : String → Bool
  ListDir : String → Option (List String)

/-- The two context cells a `context_` pointer can refer to. -/
inductive Slot where
  | src
  | dest
  deriving DecidableEq, Repr

/-- A backend operation: it gets the backend context and `errno` and gives its
result with the new context and `errno`. -/
abbrev Op (C : Type) (α : Type) := C → Int → α × C × Int

/-- The capability table `struct fs_traversal` as `fs_traversal.cc` uses it
(the declaration it includes, `libcvmfs.h`, is not among the sources; the
header `fs_traversal_interface.h` in the sources is an older draft).  File
handles are addresses; the handle operations act on the context of the backend
that made the handle.  Return values are the C `int`s, `0` for success;
`touch` returns `0` when it has created the pool entry. -/
structure fs_traversal (C : Type) where
  context_ : Slot
  list_dir : String → Op C (Option (List String))
  get_stat : String → cvmfs_attr → Bool → Op C (Int × cvmfs_attr)
  is_hash_consistent : cvmfs_attr → Op C Bool
  get_identifier : cvmfs_attr → Op C (Option String)
  touch : cvmfs_attr → Op C Int
  do_link : String → Option String → Op C Int
  do_unlink : String → Op C Int
  do_rmdir : String → Op C Int
  do_mkdir : String → cvmfs_attr → Op C Int
  set_meta : String → cvmfs_attr → Op C Int
  do_symlink : String → Option String → cvmfs_attr → Op C Int
  get_handle : Option String → Op C Nat
  do_fopen : Nat → Nat → Op C Int
  do_fread : Nat → Nat → Op C (Int × List Nat)
  do_fwrite : Nat → List Nat → Op C Int
  do_fclose : Nat → Op C Int
  do_ffree : Nat → Op C Unit
  garbage_collector : Op C Int

/-- A call made by the embedded code, with its arguments and its result; for
`list_dir` the result is the listing as `Sync` walks it, after `qsort`. -/
inductive Call where
  | list_dir (fs : Slot) (dir : String) (sorted : Option (List String))
  | get_stat (fs : Slot) (entry : String) (ret : Int) (st : cvmfs_attr)
  | getNext (is_src : Bool) (dir : String) (entry : String) (st : cvmfs_attr)
  | cvmfs_attr_cmp (src dest : cvmfs_attr) (result : Bool)
  | is_hash_consistent (st : cvmfs_attr) (result : Bool)
  | AddLock (inode : Nat) (result : Bool)
  | touch (st : cvmfs_attr) (ret : Int)
  | copyFile (src_name dest_name : Option String)
  | WritePipe (job : FileCopy)
  | do_link (path : String) (identifier : Option String) (ret : Int)
  | do_mkdir (path : String) (st : cvmfs_attr) (ret : Int)
  | set_meta (path : String) (st : cvmfs_attr) (ret : Int)
  | do_symlink (path : String) (target : Option String) (st : cvmfs_attr) (ret : Int)
  | do_unlink (path : String) (ret : Int)
  | do_rmdir (path : String) (ret : Int)
  deriving DecidableEq, Repr

/-- The mutable state of the process: the two backend contexts, `errno`, the
statistics, the globals `dirs_`, `fsck_lock`, `copy_queue` and the pipe
`pipe_chunks`, and the log of calls made so far. -/
structure World (C : Type) where
  src_ctx : C
  dest_ctx : C
  errno : Int
  pstats : Statistics
  dirs_ : List RecDir
  fsck_lock : FsckLock
  copy_queue : Int
  pipe_chunks : List FileCopy
  trace : List Call

/-- Globals that a run only reads, and constants of missing headers:
`spec_tree_`, `num_parallel_`, the macro `COPY_BUFFER_SIZE` and the record
`cvmfs_attr_init()` returns. -/
structure Config where
  spec_tree_ : SpecTree
  num_parallel_ : Nat
  COPY_BUFFER_SIZE : Nat
  cvmfs_attr_init : cvmfs_attr

section Embedding

variable {C : Type}

/-- Read a context cell. -/
def World.ctx (w : World C) : Slot → C
  | Slot.src => w.src_ctx
  | Slot.dest => w.dest_ctx

/-- Write a context cell. -/
def World.setCtx (w : World C) (p : Slot) (c : C) : World C :=
  match p with
  | Slot.src => { w with src_ctx := c }
  | Slot.dest => { w with dest_ctx := c }

/-- Call a backend operation on the context cell `p`. -/
def World.call {α : Type} (w : World C) (p : Slot) (op : Op C α) : α × World C :=
  let r := op (w.ctx p) w.errno
  (r.1, { (w.setCtx p r.2.1) with errno := r.2.2 })

/-- Append a call to the log. -/
def World.log (w : World C) (e : Call) : World C :=
  { w with trace := w.trace ++ [e] }

/-- Counter method `Xadd` on the counter `c` of the statistics. -/
def World.Xadd (w : World C) (c : Stat) (n : Int) : World C :=
  { w with pstats := fun c' => if c' = c then w.pstats c + n else w.pstats c' }

/-- Assignment to `errno`. -/
def World.set_errno (w : World C) (e : Int) : World C :=
  { w with errno := e }

/-- The global `fsck_lock` after `AddLock(inode)`. -/
def World.add_lock (w : World C) (inode : Nat) : World C :=
  { w with fsck_lock := (w.fsck_lock.AddLock inode).2 }

/-- A job is written to the pipe. -/
def World.write_pipe (w : World C) (job : FileCopy) : World C :=
  { w with pipe_chunks := w.pipe_chunks ++ [job] }

/-- The atomic `copy_queue` is changed by `n`. -/
def World.queue_add (w : World C) (n : Int) : World C :=
  { w with copy_queue := w.copy_queue + n }

/-- Method `push_back` on `dirs_`. -/
def World.push_dir (w : World C) (d : RecDir) : World C :=
  { w with dirs_ := w.dirs_ ++ [d] }

/-- Method `pop_back` on `dirs_`. -/
def World.pop_dir (w : World C) : World C :=
  { w with dirs_ := w.dirs_.dropLast }

/-- Computations of the embedded program: they read and change the process
state and may end in a fault. -/
abbrev M (C : Type) := StateT (World C) (Except Fault)

/-- Call a backend operation on the context cell `p`. -/
def call {α : Type} (p : Slot) (op : Op C α) : M C α :=
  fun w => .ok (w.call p op)

/-- Append a call to the log. -/
def log (e : Call) : M C Unit :=
  fun w => .ok ((), w.log e)

/-- Counter method `Xadd` (`Inc` is `Xadd 1`). -/
def Xadd (c : Stat) (n : Int) : M C Unit :=
  fun w => .ok ((), w.Xadd c n)

/-- Assignment to `errno`. -/
def set_errno (e : Int) : M C Unit :=
  fun w => .ok ((), w.set_errno e)

/-- Undefined behaviour or exhausted fuel. -/
def fault {α : Type} (f : Fault) : M C α :=
  fun _ => .error f

/-- Function `cvmfs_attr_cmp`. -/
def cvmfs_attr_cmp (src dest : Option cvmfs_attr) (dest_fs : fs_traversal C)
    (w : World C) : Res (Bool × World C) :=
  match src with
  | none => .ok (false, w)
  | some src =>
  match dest with
  | none => .ok (false, w)
  | some dest =>
  if src.version ≠ dest.version then .ok (false, w) else
  if src.size ≠ dest.size then .ok (false, w) else
  if (!S_ISLNK src.st_mode && src.st_mode != dest.st_mode)
      || ((S_IFMT &&& src.st_mode) != (S_IFMT &&& dest.st_mode)) then .ok (false, w) else
  if !S_ISLNK src.st_mode && src.st_uid != dest.st_uid then .ok (false, w) else
  if !S_ISLNK src.st_mode && src.st_gid != dest.st_gid then .ok (false, w) else
  -- CVMFS related content
  let checksum : Bool × World C :=
    match S_ISREG src.st_mode, src.cvm_checksum with
    | true, some sc =>
      match dest.cvm_checksum with
      | some dc => (strcmp sc dc != 0, w)
      | none =>
        let r := w.call dest_fs.context_ (dest_fs.is_hash_consistent src)
        (!r.1, r.2.log (Call.is_hash_consistent src r.1))
    | _, _ => (false, w)
  if checksum.1 then .ok (false, checksum.2) else
  let w := checksum.2
  let symlink : Res Bool :=
    if S_ISLNK src.st_mode then
      match strcmp_ptr src.cvm_name dest.cvm_name with
      | .error f => .error f
      | .ok c => .ok (c != 0)
    else
      .ok ((!S_ISLNK src.st_mode && S_ISLNK dest.st_mode)
            || (S_ISLNK src.st_mode && !S_ISLNK dest.st_mode))
  match symlink with
  | .error f => .error f
  | .ok true => .ok (false, w)
  | .ok false =>
  match src.cvm_name, dest.cvm_name with
  | some sn, some dn => if strcmp sn dn != 0 then .ok (false, w) else .ok (true, w)
  | none, some _ => .ok (false, w)
  | some _, none => .ok (false, w)
  | none, none => .ok (true, w)

/-- Function `copyFile`, the read/write loop: `bytes_transferred` so far is
`n`; the result is the final count, or `none` when a read or a write failed.
A read that delivers more than the buffer holds overruns it. -/
def copyFile_loop (cfg : Config) (src_fs dest_fs : fs_traversal C) (src dest : Nat) :
    Nat → Nat → M C (Option Nat)
  | 0, _ => fault Fault.out_of_fuel
  | fuel + 1, n => do
    let r ← call src_fs.context_ (src_fs.do_fread src cfg.COPY_BUFFER_SIZE)
    if r.1 ≠ 0 then pure none
    else if cfg.COPY_BUFFER_SIZE < r.2.length then fault Fault.buffer_overrun
    else do
      let q ← call dest_fs.context_ (dest_fs.do_fwrite dest r.2)
      if q ≠ 0 then pure none
      else if r.2.length < cfg.COPY_BUFFER_SIZE then pure (some (n + r.2.length))
      else copyFile_loop cfg src_fs dest_fs src dest fuel (n + r.2.length)

/-- Function `copyFile`. -/
def copyFile (cfg : Config) (fuel : Nat) (src_fs : fs_traversal C) (src_name : Option String)
    (dest_fs : fs_traversal C) (dest_name : Option String) : M C Bool := do
  log (Call.copyFile src_name dest_name)
  let src ← call src_fs.context_ (src_fs.get_handle src_name)
  let dest ← call dest_fs.context_ (dest_fs.get_handle dest_name)
  let retval ← call src_fs.context_ (src_fs.do_fopen src 1)
  if retval ≠ 0 then pure false
  else do
    let retval ← call dest_fs.context_ (dest_fs.do_fopen dest 2)
    if retval ≠ 0 then pure false
    else do
      let copied ← copyFile_loop cfg src_fs dest_fs src dest fuel 0
      match copied with
      | none => pure false
      | some bytes_transferred => do
        Xadd Stat.BYTE_COUNT bytes_transferred
        let retval ← call src_fs.context_ (src_fs.do_fclose src)
        if retval ≠ 0 then pure false
        else do
          call src_fs.context_ (src_fs.do_ffree src)
          let retval ← call dest_fs.context_ (dest_fs.do_fclose dest)
          if retval ≠ 0 then pure false
          else do
            call dest_fs.context_ (dest_fs.do_ffree dest)
            pure true

/-- Function `get_full_path`. -/
def get_full_path (dir entry : String) : String := dir ++ "/" ++ entry

/-- Function `updateStat`: the new `*st` and whether `get_stat` returned 0. -/
def updateStat (cfg : Config) (fs : fs_traversal C) (entry : String) (get_hash : Bool) :
    M C (Bool × cvmfs_attr) := do
  let r ← call fs.context_ (fs.get_stat entry cfg.cvmfs_attr_init get_hash)
  log (Call.get_stat fs.context_ entry r.1 r.2)
  pure (r.1 == 0, r.2)

/-- What `getNext` leaves behind: its return value and the new `*entry`,
`*iter` and `*st`. -/
structure GetNext where
  found : Bool
  entry : Option String
  iter : Int
  st : cvmfs_attr
  deriving DecidableEq, Repr

/-- Function `getNext`.  `dir_list` is the NULL-terminated array (or `NULL`);
reading behind its terminator is out of bounds.  The fuel counts the calls of
the function on itself. -/
def getNext (cfg : Config) (fs : fs_traversal C) (dir : String)
    (dir_list : Option (List String)) (get_hash is_src : Bool) :
    Nat → Int → cvmfs_attr → M C GetNext
  | 0, _, _ => fault Fault.out_of_fuel
  | fuel + 1, iter, st =>
    let location := (iter + 1).toNat
    match dir_list with
    | none => pure ⟨false, none, location, st⟩
    | some list =>
      if list.length < location then fault Fault.out_of_bounds
      else
        match list.get? location with
        | none => pure ⟨false, none, location, st⟩
        | some name =>
          if is_src && !cfg.spec_tree_.IsMatching (get_full_path dir name) then
            getNext cfg fs dir dir_list get_hash is_src fuel location st
          else do
            let r ← updateStat cfg fs (get_full_path dir name) get_hash
            if !r.1 then
              getNext cfg fs dir dir_list get_hash is_src fuel location r.2
            else do
              Xadd (if is_src then Stat.SRC_ENTRIES else Stat.DEST_ENTRIES) 1
              log (Call.getNext is_src dir (get_full_path dir name) r.2)
              pure ⟨true, some (get_full_path dir name), location, r.2⟩

/-- Function `list_src_dir`: the listing of the spec tree, or the sorted
listing of the source backend when the spec tree says `SPEC_READ_FS`. -/
def list_src_dir (cfg : Config) (src : fs_traversal C) (dir : String) :
    M C (Option (List String)) :=
  match cfg.spec_tree_.ListDir dir with
  | some buf => pure (some buf)
  | none => do
    let buf ← call src.context_ (src.list_dir dir)
    log (Call.list_dir src.context_ dir (buf.map qsort))
    pure (buf.map qsort)

/-- Method `FsckLock::AddLock` on the global `fsck_lock`. -/
def AddLock (inode : Nat) : M C Bool :=
  fun w => .ok ((w.fsck_lock.AddLock inode).1,
    (w.add_lock inode).log (Call.AddLock inode (w.fsck_lock.AddLock inode).1))

/-- Function `should_write_anyway`. -/
def should_write_anyway (dest : fs_traversal C) (_src_st dest_st : cvmfs_attr) : M C Bool := do
  let consistent ← call dest.context_ (dest.is_hash_consistent dest_st)
  log (Call.is_hash_consistent dest_st consistent)
  if !consistent then AddLock dest_st.st_ino
  else pure false

/-- Function `WritePipe` on the write end of `pipe_chunks`. -/
def WritePipe (job : FileCopy) : M C Unit :=
  fun w => .ok ((), (w.write_pipe job).log (Call.WritePipe job))

/-- Increment and decrement of the atomic `copy_queue`. -/
def copy_queue_add (n : Int) : M C Unit :=
  fun w => .ok ((), w.queue_add n)

/-- Function `handle_file`, the condition of its `if`:
`!dest->touch(...) || (dest_st->cvm_checksum != NULL && should_write_anyway(...))`. -/
def handle_file_condition (dest : fs_traversal C) (src_st dest_st : cvmfs_attr) : M C Bool := do
  -- Touch is atomic, if it fails something else will write file
  let touched ← call dest.context_ (dest.touch src_st)
  log (Call.touch src_st touched)
  if touched = 0 then pure true
  else if dest_st.cvm_checksum.isSome then should_write_anyway dest src_st dest_st
  else pure false

/-- Function `handle_file`, the branch that copies: the job goes to the workers
when `num_parallel_` is set, otherwise the file is copied in place; the value
is `result`.  (`malloc`/`free` are not modelled; `strdup` of a `NULL`
identifier is a fault.) -/
def handle_file_copy (cfg : Config) (fuel : Nat) (src : fs_traversal C) (src_st : cvmfs_attr)
    (dest : fs_traversal C) (dest_data : Option String) : M C Bool := do
  let src_ident ← call dest.context_ (src.get_identifier src_st)
  if cfg.num_parallel_ ≠ 0 then
    match dest_data with
    | none => fault Fault.null_deref
    | some d => do
      WritePipe ⟨src_ident, some d⟩
      copy_queue_add 1
      pure true
  else do
    let copied ← copyFile cfg fuel src src_ident dest dest_data
    (if copied then pure () else set_errno 0)
    Xadd Stat.FILE_COUNT 1
    pure copied

/-- Function `handle_file`, its end: the link is made when `result` is still
`true`. -/
def handle_file_link (dest : fs_traversal C) (entry : String) (dest_data : Option String)
    (result : Bool) : M C Bool := do
  if result then do
    let linked ← call dest.context_ (dest.do_link entry dest_data)
    log (Call.do_link entry dest_data linked)
    if linked ≠ 0 then do
      set_errno 0
      pure false
    else pure true
  else pure false

/-- Function `handle_file`. -/
def handle_file (cfg : Config) (fuel : Nat) (src : fs_traversal C) (src_st : cvmfs_attr)
    (dest : fs_traversal C) (dest_st : cvmfs_attr) (entry : String) : M C Bool := do
  let dest_data ← call dest.context_ (dest.get_identifier src_st)
  let copy ← handle_file_condition dest src_st dest_st
  let result ←
    if copy then handle_file_copy cfg fuel src src_st dest dest_data
    else do
      Xadd Stat.DEDUPED_FILES 1
      Xadd Stat.DEDUPED_BYTES src_st.st_size
      pure true
  handle_file_link dest entry dest_data result

/-- The current value of `errno`. -/
def get_errno : M C Int :=
  fun w => .ok (w.errno, w)

/-- Function `handle_dir`. -/
def handle_dir (_src : fs_traversal C) (src_st : cvmfs_attr) (dest : fs_traversal C)
    (_dest_st : cvmfs_attr) (entry : String) : M C Bool := do
  let made ← call dest.context_ (dest.do_mkdir entry src_st)
  log (Call.do_mkdir entry src_st made)
  if made ≠ 0 then do
    let errno ← get_errno
    if errno = EEXIST then do
      set_errno 0
      let set ← call dest.context_ (dest.set_meta entry src_st)
      log (Call.set_meta entry src_st set)
      if set ≠ 0 then pure false else pure true
    else pure false
  else pure true

/-- Function `add_dir_for_sync`. -/
def add_dir_for_sync (dir : String) (recursive : Bool) : M C Unit :=
  fun w => .ok ((), w.push_dir ⟨some dir, recursive⟩)

/-- Local variables of `Sync` that live across the iterations of its loop. -/
structure SyncLocals where
  cmp : Int
  src_entry : Option String
  src_iter : Int
  src_st : cvmfs_attr
  dest_entry : Option String
  dest_iter : Int
  dest_st : cvmfs_attr
  deriving DecidableEq, Repr

/-- How one pass through the body of the loop of `Sync` ends: with the next
iteration, or with the return of the function (`break` returns `true`). -/
inductive LoopStep where
  | next (l : SyncLocals)
  | done (result : Bool)
  deriving DecidableEq, Repr

/-- Function `Sync`, the test at the head of the branch `cmp <= 0`: the
entries have the same name, `cvmfs_attr_cmp` accepts them and the destination
records no hash or a consistent one. -/
def Sync_equivalent (dest : fs_traversal C) (l : SyncLocals) : M C Bool := do
  if l.cmp = 0 then do
    let equal ← (cvmfs_attr_cmp (some l.src_st) (some l.dest_st) dest : M C Bool)
    log (Call.cvmfs_attr_cmp l.src_st l.dest_st equal)
    if equal then
      match l.dest_st.cvm_checksum with
      | none => pure true
      | some _ => do
        let consistent ← call dest.context_ (dest.is_hash_consistent l.dest_st)
        log (Call.is_hash_consistent l.dest_st consistent)
        pure consistent
    else pure false
  else pure false

/-- Function `Sync`, the branch `cmp <= 0` of the loop body: the source entry
`src_entry` is compared with the destination and brought up to date. -/
def Sync_src (cfg : Config) (fuel : Nat) (src dest : fs_traversal C) (recursive : Bool)
    (l : SyncLocals) (src_entry : String) : M C LoopStep := do
  -- Compares stats to see if they are equivalent
  let equivalent ← Sync_equivalent dest l
  if equivalent then do
    (if S_ISDIR l.src_st.st_mode && recursive then add_dir_for_sync src_entry recursive
     else pure ())
    pure (LoopStep.next l)
  -- If not equal, bring dest up-to-date
  else if l.src_st.st_mode &&& S_IFMT = S_IFREG then do
    let ok ← handle_file cfg fuel src l.src_st dest l.dest_st src_entry
    if !ok then pure (LoopStep.done false) else pure (LoopStep.next l)
  else if l.src_st.st_mode &&& S_IFMT = S_IFDIR then do
    let ok ← handle_dir src l.src_st dest l.dest_st src_entry
    if !ok then pure (LoopStep.done false)
    else do
      (if recursive then add_dir_for_sync src_entry recursive else pure ())
      pure (LoopStep.next l)
  else if l.src_st.st_mode &&& S_IFMT = S_IFLNK then do
    let ret ← call dest.context_ (dest.do_symlink src_entry l.src_st.cvm_symlink l.src_st)
    log (Call.do_symlink src_entry l.src_st.cvm_symlink l.src_st ret)
    if ret ≠ 0 then pure (LoopStep.done false) else pure (LoopStep.next l)
  else pure (LoopStep.done false)

/-- Function `Sync`, the branch `cmp > 0` of the loop body: the destination
entry `dest_entry` is missing from the source.  `nested` is the call of `Sync`
on a directory; its return value is not looked at. -/
def Sync_dest (dest : fs_traversal C) (nested : String → M C Bool)
    (l : SyncLocals) (dest_entry : String) : M C LoopStep := do
  if l.dest_st.st_mode &&& S_IFMT = S_IFREG ∨ l.dest_st.st_mode &&& S_IFMT = S_IFLNK then do
    let ret ← call dest.context_ (dest.do_unlink dest_entry)
    log (Call.do_unlink dest_entry ret)
    if ret ≠ 0 then pure (LoopStep.done false) else pure (LoopStep.next l)
  else if l.dest_st.st_mode &&& S_IFMT = S_IFDIR then do
    let _ ← nested dest_entry
    let ret ← call dest.context_ (dest.do_rmdir dest_entry)
    log (Call.do_rmdir dest_entry ret)
    if ret ≠ 0 then pure (LoopStep.done false) else pure (LoopStep.next l)
  else pure (LoopStep.done false)

/-- Calls of `getNext` on itself that a listing can cause at most. -/
def list_fuel (dir_list : Option (List String)) : Nat :=
  match dir_list with
  | none => 1
  | some list => list.length + 1

/-- Function `Sync`, the head of the loop body: the source iterator is
advanced when `cmp <= 0`. -/
def Sync_next_src (cfg : Config) (src : fs_traversal C) (dir : String)
    (src_dir : Option (List String)) (l : SyncLocals) : M C SyncLocals := do
  if l.cmp ≤ 0 then do
    let g ← getNext cfg src dir src_dir true true (list_fuel src_dir) l.src_iter l.src_st
    pure { l with src_entry := g.entry, src_iter := g.iter, src_st := g.st }
  else pure l

/-- Function `Sync`, the head of the loop body: the destination iterator is
advanced when `cmp >= 0`. -/
def Sync_next_dest (cfg : Config) (dest : fs_traversal C) (dir : String) (do_fsck : Bool)
    (dest_dir : Option (List String)) (l : SyncLocals) : M C SyncLocals := do
  if l.cmp ≥ 0 then do
    let g ← getNext cfg dest dir dest_dir do_fsck false (list_fuel dest_dir)
      l.dest_iter l.dest_st
    pure { l with dest_entry := g.entry, dest_iter := g.iter, dest_st := g.st }
  else do
    -- A destination entry was added
    Xadd Stat.DEST_ENTRIES 1
    pure l

/-- Function `Sync`, one pass through the body of `while (1)`. -/
def Sync_body (cfg : Config) (fuel : Nat) (src dest : fs_traversal C) (dir : String)
    (recursive do_fsck : Bool) (src_dir dest_dir : Option (List String))
    (nested : String → M C Bool) (l : SyncLocals) : M C LoopStep := do
  let l ← Sync_next_src cfg src dir src_dir l
  let l ← Sync_next_dest cfg dest dir do_fsck dest_dir l
  match l.src_entry, l.dest_entry with
  | none, none => pure (LoopStep.done true)
  | none, some dest_entry => Sync_dest dest nested { l with cmp := 1 } dest_entry
  | some src_entry, none => Sync_src cfg fuel src dest recursive { l with cmp := -1 } src_entry
  | some src_entry, some dest_entry =>
    if strcmp src_entry dest_entry ≤ 0 then
      Sync_src cfg fuel src dest recursive { l with cmp := strcmp src_entry dest_entry }
        src_entry
    else
      Sync_dest dest nested { l with cmp := strcmp src_entry dest_entry } dest_entry

/-- Function `Sync`, the loop `while (1)`; `n` bounds the number of passes. -/
def Sync_loop (body : SyncLocals → M C LoopStep) : Nat → SyncLocals → M C Bool
  | 0, _ => fault Fault.out_of_fuel
  | n + 1, l => do
    let step ← body l
    match step with
    | LoopStep.done result => pure result
    | LoopStep.next l => Sync_loop body n l

/-- Passes through the loop of `Sync` that two listings can cause at most:
every pass but the last moves an iterator. -/
def loop_fuel (src_dir dest_dir : Option (List String)) : Nat :=
  list_fuel src_dir + list_fuel dest_dir

/-- Function `Sync`.  The fuel bounds the depth of the calls of `Sync` on
itself and the length of a copy. -/
def Sync (cfg : Config) (src dest : fs_traversal C) :
    Nat → String → Bool → Bool → M C Bool
  | 0, _, _, _ => fault Fault.out_of_fuel
  | fuel + 1, dir, recursive, do_fsck => do
    let src_dir ← list_src_dir cfg src dir
    let dest_dir ← call dest.context_ (dest.list_dir dir)
    log (Call.list_dir dest.context_ dir (dest_dir.map qsort))
    Sync_loop
      (Sync_body cfg fuel src dest dir recursive do_fsck src_dir (dest_dir.map qsort)
        (fun dest_entry => Sync cfg src dest fuel dest_entry true false))
      (loop_fuel src_dir (dest_dir.map qsort))
      ⟨0, none, -1, cfg.cvmfs_attr_init, none, -1, cfg.cvmfs_attr_init⟩

/-- Method `pop_back` on `dirs_` after `back`: the last frame, if any. -/
def dirs_pop : M C (Option RecDir) :=
  fun w => .ok (w.dirs_.getLast?, w.pop_dir)

/-- Function `SyncFull`, the loop over the stack `dirs_`. -/
def SyncFull_loop (cfg : Config) (src dest : fs_traversal C) (do_fsck : Bool) :
    Nat → M C Bool
  | 0 => fault Fault.out_of_fuel
  | fuel + 1 => do
    let back ← dirs_pop
    match back with
    | none => pure true
    | some next_dir =>
      match next_dir.dir with
      | none => pure true
      | some dir => do
        let ok ← Sync cfg src dest fuel dir next_dir.recursive do_fsck
        if !ok then pure false
        else SyncFull_loop cfg src dest do_fsck fuel

/-- Function `SyncFull`. -/
def SyncFull (cfg : Config) (fuel : Nat) (src dest : fs_traversal C) (do_fsck : Bool) :
    M C Bool := do
  let seed : M C Unit := fun w =>
    .ok ((), if w.dirs_.isEmpty then w.push_dir ⟨some "", true⟩ else w)
  seed
  SyncFull_loop cfg src dest do_fsck fuel

end Embedding

/-! ## A small in-memory backend

Used to run the embedding on concrete trees.  A context holds the user-visible
paths with their attributes, the pool entries by identifier, and the inodes
whose stored bytes no longer fit their fingerprint. -/

/-- Context of the in-memory backend. -/
structure Toy where
  nodes : List (String × cvmfs_attr)
  pool : List (String × cvmfs_attr)
  damaged : List Nat
  deriving DecidableEq, Repr

/-- The rest of `path` behind the characters `dir`, if it starts with them. -/
def strip_dir : List Char → List Char → Option (List Char)
  | [], rest => some rest
  | _ :: _, [] => none
  | a :: as, b :: bs => if a = b then strip_dir as bs else none

/-- The name of `path` inside the directory `dir`, if it lies directly in it. -/
def child_name (dir path : String) : Option String :=
  match strip_dir (dir ++ "/").data path.data with
  | some rest => if rest = [] ∨ '/' ∈ rest then none else some ⟨rest⟩
  | none => none

/-- The in-memory backend on the context cell `slot`.  The identifier of a
file is its fingerprint; `get_stat` hands out the fingerprint only when asked
for the hash. -/
def toy_fs (slot : Slot) : fs_traversal Toy where
  context_ := slot
  list_dir := fun dir c e => (some (c.nodes.filterMap (fun n => child_name dir n.1)), c, e)
  get_stat := fun path st get_hash c e =>
    match c.nodes.lookup path with
    | some a => ((0, if get_hash then a else { a with cvm_checksum := none }), c, e)
    | none => ((-1, st), c, 2)
  is_hash_consistent := fun a c e => (decide (a.st_ino ∉ c.damaged), c, e)
  get_identifier := fun a c e => (a.cvm_checksum, c, e)
  touch := fun a c e =>
    match a.cvm_checksum with
    | none => (-1, c, 22)
    | some h =>
      if (c.pool.lookup h).isSome then (-1, c, EEXIST)
      else (0, { c with pool := c.pool ++ [(h, a)] }, e)
  do_link := fun path identifier c e =>
    match identifier.bind c.pool.lookup with
    | none => (-1, c, 2)
    | some a => (0, { c with nodes := (c.nodes.filter (fun n => n.1 != path)) ++ [(path, a)] }, e)
  do_unlink := fun path c e =>
    if (c.nodes.lookup path).isSome then
      (0, { c with nodes := c.nodes.filter (fun n => n.1 != path) }, e)
    else (-1, c, 2)
  do_rmdir := fun path c e =>
    if (c.nodes.lookup path).isSome ∧ c.nodes.filterMap (fun n => child_name path n.1) = [] then
      (0, { c with nodes := c.nodes.filter (fun n => n.1 != path) }, e)
    else (-1, c, 39)
  do_mkdir := fun path a c e =>
    if (c.nodes.lookup path).isSome then (-1, c, EEXIST)
    else (0, { c with nodes := c.nodes ++ [(path, a)] }, e)
  set_meta := fun path a c e =>
    if (c.nodes.lookup path).isSome then
      (0, { c with nodes := c.nodes.map (fun n => if n.1 = path then (path, a) else n) }, e)
    else (-1, c, 2)
  do_symlink := fun path _ a c e =>
    (0, { c with nodes := (c.nodes.filter (fun n => n.1 != path)) ++ [(path, a)] }, e)
  get_handle := fun _ c e => (0, c, e)
  do_fopen := fun _ _ c e => (0, c, e)
  do_fread := fun _ _ c e => ((0, []), c, e)
  do_fwrite := fun _ _ c e => (0, c, e)
  do_fclose := fun _ c e => (0, c, e)
  do_ffree := fun _ c e => ((), c, e)
  garbage_collector := fun c e => (0, c, e)

/-- A record as `cvmfs_attr_init` returns it. -/
def attr0 : cvmfs_attr := ⟨1, 0, 0, 0, 0, 0, 0, none, none, none, none⟩

/-- Attributes of a regular file with the given inode, size and fingerprint. -/
def reg_attr (ino : Nat) (size : Int) (hash : String) : cvmfs_attr :=
  { attr0 with st_ino := ino, st_mode := 0o100644, st_size := size, cvm_checksum := some hash }

/-- Attributes of a directory. -/
def dir_attr (ino : Nat) : cvmfs_attr :=
  { attr0 with st_ino := ino, st_mode := 0o040755 }

/-- Attributes of a symbolic link with the given logical name and target. -/
def lnk_attr (ino : Nat) (name target : String) : cvmfs_attr :=
  { attr0 with st_ino := ino, st_mode := 0o120777, cvm_symlink := some target,
               cvm_name := some name }

/-- A source with the files `/a` and `/b` of the same content `h1`. -/
def toy_twins : Toy :=
  ⟨[("/a", reg_attr 1 5 "h1"), ("/b", reg_attr 2 5 "h1")], [], []⟩

/-- A destination in which `/a` and `/b` are two damaged files (inodes 11 and
12) recorded with the fingerprint `h1`, whose pool entry exists. -/
def toy_damaged : Toy :=
  ⟨[("/a", reg_attr 11 5 "h1"), ("/b", reg_attr 12 5 "h1")], [("h1", reg_attr 1 5 "h1")],
   [11, 12]⟩

/-- The wildcard spec tree `SpecTree('*')`: every path matches and every
listing is left to the backend. -/
def spec_all : SpecTree := ⟨fun _ => true, fun _ => none⟩

/-- Configuration with the wildcard spec tree and `parallel` workers. -/
def toy_cfg (parallel : Nat) : Config := ⟨spec_all, parallel, 4, attr0⟩

/-- The process state before a run on the given source and destination. -/
def toy_world (src dest : Toy) : World Toy :=
  ⟨src, dest, 0, fun _ => 0, [], ⟨[]⟩, 0, [], []⟩

/-- One run of `Sync` in fsck mode, without workers, from `toy_twins` onto
`toy_damaged`. -/
def toy_fsck_run : Res (Bool × World Toy) :=
  Sync (toy_cfg 0) (toy_fs Slot.src) (toy_fs Slot.dest) 2 "" true true
    (toy_world toy_twins toy_damaged)

/-- One run of `Sync`, without workers, from `toy_twins` onto an empty
destination. -/
def toy_twins_run : Res (Bool × World Toy) :=
  Sync (toy_cfg 0) (toy_fs Slot.src) (toy_fs Slot.dest) 2 "" true false
    (toy_world toy_twins ⟨[], [], []⟩)

/-- A destination with the directory `/d` and the files `/d/x` and `/d/y`. -/
def toy_subtree : Toy :=
  ⟨[("/d", dir_attr 20), ("/d/x", reg_attr 21 1 "hx"), ("/d/y", reg_attr 22 1 "hy")], [], []⟩

/-- One run of `Sync` from an empty source onto `toy_subtree`. -/
def toy_prune_run : Res (Bool × World Toy) :=
  Sync (toy_cfg 0) (toy_fs Slot.src) (toy_fs Slot.dest) 2 "" true false
    (toy_world ⟨[], [], []⟩ toy_subtree)

/-- The state a run ends in, or the start state if it yields none. -/
def Res.world {C : Type} (w : World C) : Res (Bool × World C) → World C
  | .ok (_, w') => w'
  | .error _ => w

/-- The return value of a run, if it has one. -/
def Res.result {C : Type} : Res (Bool × World C) → Option Bool
  | .ok (b, _) => some b
  | .error _ => none

/-! ## Predicates of the specification -/

/-- What the comparator asks of a source record that is not a symlink and a
destination record, following the specification: equal version, size, mode,
owner and group, the same logical name or none on both sides, and, for a
regular file with a fingerprint, the same recorded fingerprint or, where the
destination records none, the backend's word `consistent`. -/
def attrs_agree (s d : cvmfs_attr) (consistent : Bool) : Prop :=
  s.version = d.version ∧ s.size = d.size ∧ s.st_mode = d.st_mode ∧
  s.st_uid = d.st_uid ∧ s.st_gid = d.st_gid ∧ s.cvm_name = d.cvm_name ∧
  (S_ISREG s.st_mode = true → ∀ sc, s.cvm_checksum = some sc →
    d.cvm_checksum = some sc ∨ (d.cvm_checksum = none ∧ consistent = true))

section Specification

variable {C : Type}

/-- Every result of the computation `x` from the state `w` satisfies `Q`. -/
def post {α : Type} (x : M C α) (w : World C) (Q : α → World C → Prop) : Prop :=
  ∀ a w', x w = .ok (a, w') → Q a w'

/-- The part of the state that backend calls cannot reach is the same. -/
def World.frame (w w' : World C) : Prop :=
  w'.pstats = w.pstats ∧ w'.dirs_ = w.dirs_ ∧ w'.fsck_lock = w.fsck_lock ∧
  w'.copy_queue = w.copy_queue ∧ w'.pipe_chunks = w.pipe_chunks ∧ w'.trace = w.trace

/-- What `copyFile` does to the state outside the backends: it logs its call
and may add to the byte counter. -/
def copyFile_post (src_name dest_name : Option String) (w w' : World C) : Prop :=
  w'.trace = w.trace ++ [Call.copyFile src_name dest_name] ∧
  w'.dirs_ = w.dirs_ ∧ w'.fsck_lock = w.fsck_lock ∧ w'.copy_queue = w.copy_queue ∧
  w'.pipe_chunks = w.pipe_chunks ∧ ∀ c, c ≠ Stat.BYTE_COUNT → w'.pstats c = w.pstats c

/-- The rule of the specification for when `handle_file` has to copy, in the
state `w` in which `touch` is called: `touch` reports the pool entry newly
created, or the destination attributes carry a fingerprint,
`is_hash_consistent` rejects them and the inode is not yet in the fsck lock
set. -/
def copy_required (dest : fs_traversal C) (src_st dest_st : cvmfs_attr) (w : World C) : Bool :=
  (w.call dest.context_ (dest.touch src_st)).1 == 0 ||
    (dest_st.cvm_checksum.isSome
      && !((w.call dest.context_ (dest.touch src_st)).2.call dest.context_
            (dest.is_hash_consistent dest_st)).1
      && decide (dest_st.st_ino ∉ w.fsck_lock.locks_))

/-- The calls `handle_file` logs while it decides whether to copy. -/
def condition_events (dest : fs_traversal C) (src_st dest_st : cvmfs_attr) (w : World C) :
    List Call :=
  Call.touch src_st (w.call dest.context_ (dest.touch src_st)).1 ::
    (if (w.call dest.context_ (dest.touch src_st)).1 = 0 then []
     else if dest_st.cvm_checksum.isSome then
       Call.is_hash_consistent dest_st
          ((w.call dest.context_ (dest.touch src_st)).2.call dest.context_
            (dest.is_hash_consistent dest_st)).1 ::
        (if ((w.call dest.context_ (dest.touch src_st)).2.call dest.context_
            (dest.is_hash_consistent dest_st)).1 then []
         else [Call.AddLock dest_st.st_ino (decide (dest_st.st_ino ∉ w.fsck_lock.locks_))])
     else [])

/-- What one call of `handle_file` does, seen from outside the backends:
`cs` are the calls of the copy (none, one `copyFile` or one `WritePipe`) and
`ls` the calls of the link (one `do_link`, or none after a failed inline
copy). -/
def handle_file_post (cfg : Config) (fuel : Nat) (src : fs_traversal C) (src_st : cvmfs_attr)
    (dest : fs_traversal C) (dest_st : cvmfs_attr) (entry : String) (w : World C)
    (r : Bool) (w' : World C) : Prop :=
  let dest_data := (w.call dest.context_ (dest.get_identifier src_st)).1
  let w1 := (w.call dest.context_ (dest.get_identifier src_st)).2
  ∃ cs ls : List Call,
    w'.trace = w.trace ++ condition_events dest src_st dest_st w1 ++ cs ++ ls ∧
    w'.dirs_ = w.dirs_ ∧
    w'.fsck_lock.locks_ =
      (if copy_required dest src_st dest_st w1 = true ∧
          (w1.call dest.context_ (dest.touch src_st)).1 ≠ 0
        then dest_st.st_ino :: w.fsck_lock.locks_ else w.fsck_lock.locks_) ∧
    w'.pstats Stat.SRC_ENTRIES = w.pstats Stat.SRC_ENTRIES ∧
    w'.pstats Stat.DEST_ENTRIES = w.pstats Stat.DEST_ENTRIES ∧
    (copy_required dest src_st dest_st w1 = true →
      w'.pstats Stat.DEDUPED_FILES = w.pstats Stat.DEDUPED_FILES ∧
      w'.pstats Stat.DEDUPED_BYTES = w.pstats Stat.DEDUPED_BYTES ∧
      (cfg.num_parallel_ ≠ 0 → ∃ si d, dest_data = some d ∧
        cs = [Call.WritePipe ⟨si, some d⟩] ∧
        w'.pipe_chunks = w.pipe_chunks ++ [⟨si, some d⟩] ∧
        w'.copy_queue = w.copy_queue + 1 ∧
        w'.pstats Stat.FILE_COUNT = w.pstats Stat.FILE_COUNT ∧
        w'.pstats Stat.BYTE_COUNT = w.pstats Stat.BYTE_COUNT) ∧
      (cfg.num_parallel_ = 0 → ∃ si, cs = [Call.copyFile si dest_data] ∧
        w'.pipe_chunks = w.pipe_chunks ∧ w'.copy_queue = w.copy_queue ∧
        w'.pstats Stat.FILE_COUNT = w.pstats Stat.FILE_COUNT + 1)) ∧
    (copy_required dest src_st dest_st w1 = false →
      cs = [] ∧
      w'.pstats Stat.DEDUPED_FILES = w.pstats Stat.DEDUPED_FILES + 1 ∧
      w'.pstats Stat.DEDUPED_BYTES = w.pstats Stat.DEDUPED_BYTES + src_st.st_size ∧
      w'.pstats Stat.FILE_COUNT = w.pstats Stat.FILE_COUNT ∧
      w'.pstats Stat.BYTE_COUNT = w.pstats Stat.BYTE_COUNT ∧
      w'.pipe_chunks = w.pipe_chunks ∧ w'.copy_queue = w.copy_queue) ∧
    ((∃ l, ls = [Call.do_link entry dest_data l] ∧ (r = true ↔ l = 0)) ∨
     (ls = [] ∧ r = false ∧ copy_required dest src_st dest_st w1 = true ∧
      cfg.num_parallel_ = 0 ∧
      ∃ si w3 w4, copyFile cfg fuel src si dest dest_data w3 = .ok (false, w4)))

/-- The call is an inline copy. -/
def Call.is_copyFile : Call → Bool
  | .copyFile _ _ => true
  | _ => false

/-- The call hands a copy job to the workers. -/
def Call.is_WritePipe : Call → Bool
  | .WritePipe _ => true
  | _ => false

/-- The call is a `do_link`. -/
def Call.is_do_link : Call → Bool
  | .do_link _ _ _ => true
  | _ => false

/-- The call is a copy, inline or handed to the workers, whose destination
identifier is `X`. -/
def Call.copies_to (X : Option String) : Call → Bool
  | .copyFile _ d => d == X
  | .WritePipe j => j.dest == X
  | _ => false

/-- The call is a `touch` that reports "created" (returns 0) for attributes
whose content identifier, as `ident` derives it, is `X`. -/
def Call.created (ident : cvmfs_attr → Option String) (X : Option String) : Call → Bool
  | .touch st ret => ret == 0 && ident st == X
  | _ => false

/-- The call is a `touch` that reports "created". -/
def Call.touch_created : Call → Bool
  | .touch _ ret => ret == 0
  | _ => false

/-- The call is a claim of the fsck lock that was won. -/
def Call.lock_won : Call → Bool
  | .AddLock _ result => result
  | _ => false

/-- The call is a return of `getNext`. -/
def Call.is_getNext : Call → Bool
  | .getNext _ _ _ _ => true
  | _ => false

/-- The call is neither a return of `getNext` nor a copy. -/
def Call.minor (e : Call) : Bool :=
  !e.is_getNext && !e.is_copyFile && !e.is_WritePipe

/-- A property `P` of call sequences that every run of `Sync` on a directory in
`D` keeps: it holds of the empty sequence, of concatenations, of every single
call that is no copy and no `getNext`, of a `getNext` on a directory in `D`, and
of what one call of `handle_file` logs; `D` has the entries of its directories. -/
structure Emits (cfg : Config) (src dest : fs_traversal C) (D : String → Prop)
    (P : List Call → Prop) : Prop where
  nil : P []
  append : ∀ a b, P a → P b → P (a ++ b)
  minor : ∀ e : Call, e.minor = true → P [e]
  getNext : ∀ s d e st, D d → P [Call.getNext s d e st]
  handle_file : ∀ fuel src_st dest_st entry (w : World C) r w' ev,
    handle_file cfg fuel src src_st dest dest_st entry w = .ok (r, w') →
    w'.trace = w.trace ++ ev → P ev
  child : ∀ d n, D d → D (get_full_path d n)

/-- In the sequence of calls, the copies to any identifier are at most the
`touch` calls that reported it created plus the fsck lock claims won. -/
def copies_bounded (ident : cvmfs_attr → Option String) (ev : List Call) : Prop :=
  ∀ X, ev.countP (Call.copies_to X) ≤ ev.countP (Call.created ident X) + ev.countP Call.lock_won

/-- The sequence of calls has no return of `getNext` for the directory
`dir`. -/
def no_getNext_on (dir : String) (ev : List Call) : Prop :=
  ∀ e ∈ ev, ∀ s E a, e ≠ Call.getNext s dir E a

/-- The destination entry `E` of `dir`, with attributes `a`, has been dealt
with in the calls `ev`: the source side of `dir` returned an entry of the same
name, or `E` was removed by the call for its file type (`do_unlink` for a
regular file or a symlink, `do_rmdir` for a directory) and the call
succeeded. -/
def dest_resolved (dir E : String) (a : cvmfs_attr) (ev : List Call) : Prop :=
  (∃ a', Call.getNext true dir E a' ∈ ev) ∨
  (((S_ISREG a.st_mode = true ∨ S_ISLNK a.st_mode = true) → Call.do_unlink E 0 ∈ ev) ∧
   (S_ISDIR a.st_mode = true → Call.do_rmdir E 0 ∈ ev))

/-- The source entry `E` of `dir`, with attributes `a`, has been dealt with in
the calls `ev`: a destination entry of the same name was found that
`cvmfs_attr_cmp` accepted and whose recorded hash, if any, was consistent; or
the creating call of its file type was made on `E` and succeeded: `do_link`
for a regular file, `do_mkdir` (or `set_meta` after a failed `do_mkdir`) for a
directory, `do_symlink` with the symlink target for a symlink. -/
def src_resolved (dir E : String) (a : cvmfs_attr) (ev : List Call) : Prop :=
  (∃ a_d, Call.getNext false dir E a_d ∈ ev ∧ Call.cvmfs_attr_cmp a a_d true ∈ ev ∧
    (a_d.cvm_checksum = none ∨ Call.is_hash_consistent a_d true ∈ ev)) ∨
  (S_ISREG a.st_mode = true ∧ ∃ ident, Call.do_link E ident 0 ∈ ev) ∨
  (S_ISDIR a.st_mode = true ∧
    (Call.do_mkdir E a 0 ∈ ev ∨
      ∃ r, r ≠ 0 ∧ Call.do_mkdir E a r ∈ ev ∧ Call.set_meta E a 0 ∈ ev)) ∨
  (S_ISLNK a.st_mode = true ∧ Call.do_symlink E a.cvm_symlink a 0 ∈ ev)

/-- Invariant of the loop of `Sync` on `dir`, for the local variables `l` and
the calls `ev` made since the start of the loop: every entry returned so far
has been dealt with, except the current destination entry while `dest_held`
and the current source entry while `src_held`; the current entries are the
last ones returned. -/
def Sync_held (dir : String) (src_held dest_held : Prop) (l : SyncLocals)
    (ev : List Call) : Prop :=
  (∀ E a, Call.getNext false dir E a ∈ ev →
    dest_resolved dir E a ev ∨ (dest_held ∧ l.dest_entry = some E ∧ l.dest_st = a)) ∧
  (∀ E a, Call.getNext true dir E a ∈ ev →
    src_resolved dir E a ev ∨ (src_held ∧ l.src_entry = some E ∧ l.src_st = a)) ∧
  (∀ E, l.src_entry = some E → Call.getNext true dir E l.src_st ∈ ev) ∧
  (∀ E, l.dest_entry = some E →
    Call.getNext false dir E l.dest_st ∈ ev ∧ dir.length < E.length)

/-- Invariant at the head of the loop of `Sync`: the destination entry is held
back while the source is behind (`cmp < 0`), the source entry while the
destination is behind (`cmp > 0`). -/
def Sync_inv (dir : String) (l : SyncLocals) (ev : List Call) : Prop :=
  Sync_held dir (0 < l.cmp) (l.cmp < 0) l ev

/-- What the branch `cmp <= 0` has done for the source entry when the loop goes
on: see `src_resolved`. -/
def src_done (l : SyncLocals) (E : String) (ev : List Call) : Prop :=
  (l.cmp = 0 ∧ Call.cvmfs_attr_cmp l.src_st l.dest_st true ∈ ev ∧
    (l.dest_st.cvm_checksum = none ∨ Call.is_hash_consistent l.dest_st true ∈ ev)) ∨
  (S_ISREG l.src_st.st_mode = true ∧ ∃ ident, Call.do_link E ident 0 ∈ ev) ∨
  (S_ISDIR l.src_st.st_mode = true ∧
    (Call.do_mkdir E l.src_st 0 ∈ ev ∨
      ∃ r, r ≠ 0 ∧ Call.do_mkdir E l.src_st r ∈ ev ∧ Call.set_meta E l.src_st 0 ∈ ev)) ∨
  (S_ISLNK l.src_st.st_mode = true ∧
    Call.do_symlink E l.src_st.cvm_symlink l.src_st 0 ∈ ev)

/-- Every result of `x` from `w` satisfies `Q`, and what `x` adds to the log
satisfies `P`. -/
def emits {α : Type} (P : List Call → Prop) (x : M C α) (w : World C) (Q : α → Prop) : Prop :=
  post x w (fun a w' => ∃ ev, w'.trace = w.trace ++ ev ∧ P ev ∧ Q a)

/-- Every result `a` of `x` from `w` comes with the calls `ev` that `x` has
added to the log, and `Q a ev` holds. -/
def logs {α : Type} (x : M C α) (w : World C) (Q : α → List Call → Prop) : Prop :=
  post x w (fun a w' => ∃ ev, w'.trace = w.trace ++ ev ∧ Q a ev)

/-- The walk over the listing of `dir` has passed the name `name` in the calls
`ev`: the spec tree rejects the source path, or `get_stat` failed on the path,
or `get_stat` succeeded and `getNext` returned the entry. -/
def visited (cfg : Config) (fs : Slot) (is_src : Bool) (dir name : String)
    (ev : List Call) : Prop :=
  (is_src = true ∧ cfg.spec_tree_.IsMatching (get_full_path dir name) = false) ∨
  (∃ r a, r ≠ 0 ∧ Call.get_stat fs (get_full_path dir name) r a ∈ ev) ∨
  (∃ a, Call.get_stat fs (get_full_path dir name) 0 a ∈ ev ∧
    Call.getNext is_src dir (get_full_path dir name) a ∈ ev)

/-- Every name of the listing has been passed by the walk. -/
def all_visited (cfg : Config) (fs : Slot) (is_src : Bool) (dir : String)
    (dir_list : Option (List String)) (ev : List Call) : Prop :=
  ∀ list, dir_list = some list → ∀ name ∈ list, visited cfg fs is_src dir name ev

/-- Every entry that `getNext` returned for `dir` is the path of a name of the
listing and, on the source side, matches the spec tree. -/
def all_listed (cfg : Config) (is_src : Bool) (dir : String)
    (dir_list : Option (List String)) (ev : List Call) : Prop :=
  ∀ E a, Call.getNext is_src dir E a ∈ ev →
    ∃ list name, dir_list = some list ∧ name ∈ list ∧ E = get_full_path dir name ∧
      (is_src = true → cfg.spec_tree_.IsMatching E = true)

/-- The names of the listing up to the position `iter` have been passed by the
walk, and so have all names when the walk has come to the end (`entry` is
`NULL` and the iterator is not about to move, `moving`); the entries returned
are entries of the listing. -/
def covered (cfg : Config) (fs : Slot) (is_src : Bool) (dir : String)
    (dir_list : Option (List String)) (moving : Prop) (iter : Int) (entry : Option String)
    (ev : List Call) : Prop :=
  (∀ list, dir_list = some list → ∀ k : Nat, (k : Int) ≤ iter → ∀ name,
    list.get? k = some name → visited cfg fs is_src dir name ev) ∧
  (entry = none → moving ∨ all_visited cfg fs is_src dir dir_list ev) ∧
  all_listed cfg is_src dir dir_list ev

/-- What one call of `getNext` from the position `iter` does: it moves the
iterator forward to `iter1`, passes every name in between, and either finds
nothing, at the end of the listing, or returns the entry `entry1` with the
attributes `st1` and logs its return last. -/
def getNext_post (cfg : Config) (fs : Slot) (is_src : Bool) (dir : String)
    (dir_list : Option (List String)) (iter : Int) (entry1 : Option String) (iter1 : Int)
    (st1 : cvmfs_attr) (ev : List Call) : Prop :=
  iter < iter1 ∧
  (∀ list, dir_list = some list → ∀ k : Nat, iter < k → (k : Int) ≤ iter1 → ∀ name,
    list.get? k = some name → visited cfg fs is_src dir name ev) ∧
  ((entry1 = none ∧ (∀ e ∈ ev, Call.minor e = true) ∧
      ∀ list, dir_list = some list → (list.length : Int) ≤ iter1) ∨
   (∃ name pre, entry1 = some (get_full_path dir name) ∧
      ev = pre ++ [Call.getNext is_src dir (get_full_path dir name) st1] ∧
      (∀ e ∈ pre, Call.minor e = true) ∧
      (∃ list, dir_list = some list ∧ name ∈ list) ∧
      (is_src = true → cfg.spec_tree_.IsMatching (get_full_path dir name) = true)))

/-- At the end of the loop of `Sync` on `dir` every entry returned on either
side has been dealt with. -/
def Sync_final (dir : String) (ev : List Call) : Prop :=
  (∀ E a, Call.getNext false dir E a ∈ ev → dest_resolved dir E a ev) ∧
  (∀ E a, Call.getNext true dir E a ∈ ev → src_resolved dir E a ev)

/-- Both walks of the loop of `Sync` have passed the names up to their
iterators, see `covered`. -/
def Sync_cover (cfg : Config) (src_fs dest_fs : Slot) (dir : String)
    (src_dir dest_dir : Option (List String)) (src_moving dest_moving : Prop)
    (l : SyncLocals) (ev : List Call) : Prop :=
  covered cfg src_fs true dir src_dir src_moving l.src_iter l.src_entry ev ∧
  covered cfg dest_fs false dir dest_dir dest_moving l.dest_iter l.dest_entry ev

/-- What holds of the calls `ev` of a loop of `Sync` on `dir` that has come to
its end: every name of both listings has been passed, every entry returned
has been dealt with, and the entries returned are entries of the listings. -/
def Sync_complete (cfg : Config) (src_fs dest_fs : Slot) (dir : String)
    (src_dir dest_dir : Option (List String)) (ev : List Call) : Prop :=
  Sync_final dir ev ∧ all_visited cfg src_fs true dir src_dir ev ∧
  all_visited cfg dest_fs false dir dest_dir ev ∧
  all_listed cfg true dir src_dir ev ∧ all_listed cfg false dir dest_dir ev

/-- The listing `src_dir` is the one `list_src_dir` gives for `dir`: the
listing of the spec tree, or the sorted listing of the source backend that the
log `ev` records. -/
def src_listing (cfg : Config) (fs : Slot) (dir : String) (src_dir : Option (List String))
    (ev : List Call) : Prop :=
  match cfg.spec_tree_.ListDir dir with
  | some buf => src_dir = some buf
  | none => Call.list_dir fs dir src_dir ∈ ev

end Specification

/-- The results of a sequence of `AddLock` calls on one `FsckLock`, in order. -/
def FsckLock.AddLock_all : FsckLock → List Nat → List Bool
  | _, [] => []
  | l, i :: is => (l.AddLock i).1 :: FsckLock.AddLock_all (l.AddLock i).2 is

/-- A sequence of calls of `should_write_anyway`, one for each pair of a source
and a destination record, and their results in order. -/
def should_write_anyway_all {C : Type} (dest : fs_traversal C) :
    List (cvmfs_attr × cvmfs_attr) → M C (List Bool)
  | [] => pure []
  | p :: ps => do
    let r ← should_write_anyway dest p.1 p.2
    let rs ← should_write_anyway_all dest ps
    pure (r :: rs)

/-- The calls of the sequence that returned `true` for the destination inode
`ino`. -/
def claims_won (ino : Nat) (ps : List (cvmfs_attr × cvmfs_attr)) (rs : List Bool) :
    List ((cvmfs_attr × cvmfs_attr) × Bool) :=
  (ps.zip rs).filter (fun x => x.1.2.st_ino == ino && x.2)

/-- The computation `x` returns from the state `w`, with a result that
satisfies `Q`. -/
def returns {C α : Type} (x : M C α) (w : World C) (Q : α → World C → Prop) : Prop :=
  ∃ a w', x w = .ok (a, w') ∧ Q a w'

/-! ## Revision blacklist (`cvmfs/catalog_mgr_client.cc`)

A `std::string` is the list of its characters; the revision numbers are
`uint64_t` values, taken as natural numbers. -/

/-- Method `std::string::operator[]`: the character at `pos`; at
`pos == size()` it is the terminating NUL. -/
def string_at (line : List Char) (pos : Nat) : Char := line.getD pos (Char.ofNat 0)

/-- Method `std::string::substr(pos, count)`. -/
def substr (line : List Char) (pos count : Nat) : List Char := (line.drop pos).take count

/-- The character is a space or a tab. -/
def is_blank (c : Char) : Bool := c == ' ' || c == '\t'

/-- Method `ClientCatalogManager::IsRevisionBlacklisted`, the loop
`while ((line[idx] == ' ') || (line[idx] == '\t')) ++idx;`.  The fuel bounds
the steps; the length of the line is enough, as the NUL at the end stops the
loop. -/
def skip_blanks (line : List Char) : Nat → Nat → Nat
  | 0, idx => idx
  | fuel + 1, idx =>
    if string_at line idx = ' ' ∨ string_at line idx = '\t' then skip_blanks line fuel (idx + 1)
    else idx

/-- Method `ClientCatalogManager::IsRevisionBlacklisted`, the body of the loop
over the blacklist: `true` for `return true`, `false` for every `continue` and
for the end of the body.  `String2Uint64Parse` (`util/string.h`) is not among
the sources and is a parameter: the number a string parses to, if it does. -/
def blacklist_line (String2Uint64Parse : List Char → Option Nat) (repo_name_ : List Char)
    (revision : Nat) (line : List Char) : Bool :=
  if string_at line 0 ≠ '<' then false
  else
    let idx := repo_name_.length + 1
    if line.length ≤ idx then false
    else if string_at line idx ≠ ' ' ∧ string_at line idx ≠ '\t' then false
    else if substr line 1 (idx - 1) ≠ repo_name_ then false
    else
      let idx := skip_blanks line line.length (idx + 1)
      if idx ≥ line.length then false
      else
        match String2Uint64Parse (line.drop idx) with
        | none => false
        | some rev => decide (revision < rev)

/-- Method `ClientCatalogManager::IsRevisionBlacklisted`; `revision` is
`GetRevision()` and `blacklist` is `signature_mgr_->GetBlacklist()`. -/
def IsRevisionBlacklisted (String2Uint64Parse : List Char → Option Nat)
    (repo_name_ : List Char) (revision : Nat) : List (List Char) → Bool
  | [] => false
  | line :: blacklist =>
    if blacklist_line String2Uint64Parse repo_name_ revision line then true
    else IsRevisionBlacklisted String2Uint64Parse repo_name_ revision blacklist

/-- The form of a blacklist line for the repository `repo` and the number `N`
in the words of the documentation: `<`, the repository name, one or more
spaces or tabs, and then, to the end of the line, text that parses to `N`. -/
def blacklist_form (parse : List Char → Option Nat) (repo : List Char) (N : Nat)
    (line : List Char) : Prop :=
  ∃ ws c rest, line = '<' :: (repo ++ ws ++ c :: rest) ∧ ws ≠ [] ∧
    (∀ b ∈ ws, is_blank b = true) ∧ is_blank c = false ∧ parse (c :: rest) = some N

/-- A parser of unsigned decimal numbers, to run `IsRevisionBlacklisted` on
examples: the digits and nothing else. -/
def parse_decimal (s : List Char) : Option Nat :=
  if s = [] ∨ s.all Char.isDigit = false then none
  else some (s.foldl (fun n c => 10 * n + (c.toNat - 48)) 0)

/-! ## Specification of a copy -/

section CopySpec

variable {C : Type}

/-- One `do_fread` of `copyFile` into its buffer: the return value, the bytes
delivered and the state after the call. -/
def read_chunk (cfg : Config) (src_fs : fs_traversal C) (src : Nat) (w : World C) :
    (Int × List Nat) × World C :=
  w.call src_fs.context_ (src_fs.do_fread src cfg.COPY_BUFFER_SIZE)

/-- One `do_fwrite` of `copyFile`: the return value and the state after the
call. -/
def write_chunk (dest_fs : fs_traversal C) (dest : Nat) (data : List Nat) (w : World C) :
    Int × World C :=
  w.call dest_fs.context_ (dest_fs.do_fwrite dest data)

/-- A transfer as the specification describes it, from the state `w` to the
state `w'`: every read succeeds and what it delivers is written, with success,
before the next read; every chunk but the last fills the buffer and the last
one is shorter.  `chunks` are the chunks read, which are the chunks written,
in order. -/
inductive copy_run (cfg : Config) (src_fs dest_fs : fs_traversal C) (src dest : Nat) :
    World C → List (List Nat) → World C → Prop
  | last (w : World C)
      (hread : (read_chunk cfg src_fs src w).1.1 = 0)
      (hshort : (read_chunk cfg src_fs src w).1.2.length < cfg.COPY_BUFFER_SIZE)
      (hwrite : (write_chunk dest_fs dest (read_chunk cfg src_fs src w).1.2
        (read_chunk cfg src_fs src w).2).1 = 0) :
      copy_run cfg src_fs dest_fs src dest w [(read_chunk cfg src_fs src w).1.2]
        (write_chunk dest_fs dest (read_chunk cfg src_fs src w).1.2
          (read_chunk cfg src_fs src w).2).2
  | more (w w' : World C) (chunks : List (List Nat))
      (hread : (read_chunk cfg src_fs src w).1.1 = 0)
      (hfull : (read_chunk cfg src_fs src w).1.2.length = cfg.COPY_BUFFER_SIZE)
      (hwrite : (write_chunk dest_fs dest (read_chunk cfg src_fs src w).1.2
        (read_chunk cfg src_fs src w).2).1 = 0)
      (hrest : copy_run cfg src_fs dest_fs src dest
        (write_chunk dest_fs dest (read_chunk cfg src_fs src w).1.2
          (read_chunk cfg src_fs src w).2).2 chunks w') :
      copy_run cfg src_fs dest_fs src dest w ((read_chunk cfg src_fs src w).1.2 :: chunks) w'

/-- The start of `copyFile`, when both `do_fopen` calls succeed: the two
handles and the state in which the loop begins. -/
def copyFile_opened (src_fs : fs_traversal C) (src_name : Option String)
    (dest_fs : fs_traversal C) (dest_name : Option String) (w : World C) :
    Option (Nat × Nat × World C) :=
  let s := (w.log (Call.copyFile src_name dest_name)).call src_fs.context_
    (src_fs.get_handle src_name)
  let d := s.2.call dest_fs.context_ (dest_fs.get_handle dest_name)
  let o1 := d.2.call src_fs.context_ (src_fs.do_fopen s.1 1)
  let o2 := o1.2.call dest_fs.context_ (dest_fs.do_fopen d.1 2)
  if o1.1 = 0 ∧ o2.1 = 0 then some (s.1, d.1, o2.2) else none

/-- The end of `copyFile`, when both `do_fclose` calls succeed: the state it
returns in. -/
def copyFile_closed (src_fs dest_fs : fs_traversal C) (src dest : Nat) (w : World C) :
    Option (World C) :=
  let c1 := w.call src_fs.context_ (src_fs.do_fclose src)
  let f1 := c1.2.call src_fs.context_ (src_fs.do_ffree src)
  let c2 := f1.2.call dest_fs.context_ (dest_fs.do_fclose dest)
  let f2 := c2.2.call dest_fs.context_ (dest_fs.do_ffree dest)
  if c1.1 = 0 ∧ c2.1 = 0 then some f2.2 else none

/-- The bytes of all chunks. -/
def chunk_bytes (chunks : List (List Nat)) : Nat := (chunks.map List.length).sum

end CopySpec

/-- A backend context with one file: its `content`, the read position `pos`
and what has been written to it, `written`. -/
structure Disk where
  content : List Nat
  pos : Nat
  written : List Nat
  deriving DecidableEq, Repr

/-- A backend over `Disk`: `do_fread` delivers the next bytes of `content`, at
most as many as asked for, and `do_fwrite` appends to `written`; the
directory operations do nothing. -/
def disk_fs (slot : Slot) : fs_traversal Disk where
  context_ := slot
  list_dir := fun _ c e => (none, c, e)
  get_stat := fun _ st _ c e => ((-1, st), c, e)
  is_hash_consistent := fun _ c e => (true, c, e)
  get_identifier := fun a c e => (a.cvm_checksum, c, e)
  touch := fun _ c e => (0, c, e)
  do_link := fun _ _ c e => (0, c, e)
  do_unlink := fun _ c e => (0, c, e)
  do_rmdir := fun _ c e => (0, c, e)
  do_mkdir := fun _ _ c e => (0, c, e)
  set_meta := fun _ _ c e => (0, c, e)
  do_symlink := fun _ _ _ c e => (0, c, e)
  get_handle := fun _ c e => (0, c, e)
  do_fopen := fun _ _ c e => (0, { c with pos := 0 }, e)
  do_fread := fun _ count c e =>
    ((0, (c.content.drop c.pos).take count),
      { c with pos := c.pos + ((c.content.drop c.pos).take count).length }, e)
  do_fwrite := fun _ data c e => (0, { c with written := c.written ++ data }, e)
  do_fclose := fun _ c e => (0, c, e)
  do_ffree := fun _ c e => ((), c, e)
  garbage_collector := fun c e => (0, c, e)

/-- The bytes of the text "hello". -/
def hello : List Nat := [104, 101, 108, 108, 111]

/-- The process state with the 5-byte source file "hello" and an empty
destination file. -/
def hello_world : World Disk :=
  ⟨⟨hello, 0, []⟩, ⟨[], 0, []⟩, 0, fun _ => 0, [], ⟨[]⟩, 0, [], []⟩

/-- The copy of "hello" with a buffer of 4 bytes. -/
def hello_copy : Res (Bool × World Disk) :=
  copyFile ⟨spec_all, 0, 4, attr0⟩ 2 (disk_fs Slot.src) (some "a") (disk_fs Slot.dest)
    (some "h1") hello_world

/-! ## Specification of `getNext` on the source side -/

/-- The names of the listing at the positions from `lo` up to `hi`, `hi` not
included, are skipped: the spec tree rejects the path, or `skipped` has the
failed `get_stat` call on it; and `skipped` has only failed `get_stat`
calls. -/
def getNext_skipped (cfg : Config) (fs : Slot) (dir : String) (list : List String)
    (lo hi : Nat) (skipped : List Call) : Prop :=
  (∀ j name, lo ≤ j → j < hi → list.get? j = some name →
    cfg.spec_tree_.IsMatching (get_full_path dir name) = false ∨
    ∃ r a, r ≠ 0 ∧ Call.get_stat fs (get_full_path dir name) r a ∈ skipped) ∧
  (∀ e ∈ skipped, ∃ p r a, e = Call.get_stat fs p r a ∧ r ≠ 0)

/-- What `getNext` does on the source listing `list` from the position behind
`iter`, from the state `w`: it skips the names up to a position `k`, where it
either finds the first name whose path matches the spec tree and whose
`get_stat` succeeds, returns it and counts one source entry, or is at the end
of the listing and returns `false` with no entry and the counters as they
were. -/
def getNext_source_post {C : Type} (cfg : Config) (fs : Slot) (dir : String)
    (list : List String) (iter : Int) (w : World C) (g : GetNext) (w' : World C) : Prop :=
  ∃ k skipped, (iter + 1).toNat ≤ k ∧ g.iter = k ∧
    getNext_skipped cfg fs dir list (iter + 1).toNat k skipped ∧
    ((∃ name, list.get? k = some name ∧ g.found = true ∧
        g.entry = some (get_full_path dir name) ∧
        cfg.spec_tree_.IsMatching (get_full_path dir name) = true ∧
        w'.trace = w.trace ++ skipped ++
          [Call.get_stat fs (get_full_path dir name) 0 g.st,
           Call.getNext true dir (get_full_path dir name) g.st] ∧
        w'.pstats = (w.Xadd Stat.SRC_ENTRIES 1).pstats) ∨
     (k = list.length ∧ g.found = false ∧ g.entry = none ∧
        w'.trace = w.trace ++ skipped ∧ w'.pstats = w.pstats))

/-- A spec tree that lists `x`, `m` and `a` in every directory and rejects the
path `/x`. -/
def spec_no_x : SpecTree := ⟨fun p => p != "/x", fun _ => some ["x", "m", "a"]⟩

/-- Configuration with the spec tree `spec_no_x` and no workers. -/
def toy_cfg_no_x : Config := ⟨spec_no_x, 0, 4, attr0⟩

/-! ## The copy workers -/

section Workers

variable {C : Type}

/-- The pipe after a job has been read from it. -/
def World.read_pipe (w : World C) : World C :=
  { w with pipe_chunks := w.pipe_chunks.tail }

/-- Function `ReadPipe` on the read end of `pipe_chunks`: the oldest job in
the pipe.  A read from the empty pipe blocks, which the result `none` stands
for. -/
def ReadPipe : M C (Option FileCopy) :=
  fun w => .ok (w.pipe_chunks.head?, w.read_pipe)

/-- Function `MainWorker`, for one worker that runs on its own: the value is
`true` when the worker has read the termination job and `false` when it is
left waiting at the empty pipe.  The fuel bounds the jobs it reads and the
length of a copy; the periodic printing of the statistics is left out. -/
def MainWorker (cfg : Config) (src_fs dest_fs : fs_traversal C) : Nat → M C Bool
  | 0 => fault Fault.out_of_fuel
  | fuel + 1 => do
    let read ← ReadPipe
    match read with
    | none => pure false
    | some next_copy =>
      if next_copy.IsTerminateJob then pure true
      else if next_copy.src.isNone || next_copy.dest.isNone then
        MainWorker cfg src_fs dest_fs fuel
      else do
        let _ ← copyFile cfg fuel src_fs next_copy.src dest_fs next_copy.dest
        Xadd Stat.FILE_COUNT 1
        copy_queue_add (-1)
        MainWorker cfg src_fs dest_fs fuel

end Workers

/-- The in-memory backend with a `get_identifier` that yields `NULL`. -/
def toy_fs_anon (slot : Slot) : fs_traversal Toy :=
  { toy_fs slot with get_identifier := fun _ c e => (none, c, e) }

/-- The in-memory backend with a `do_unlink` that always fails and a
`do_rmdir` that removes a directory together with all that is below it. -/
def toy_fs_lax (slot : Slot) : fs_traversal Toy :=
  { toy_fs slot with do_unlink := fun _ c _ => (-1, c, 13),
                     do_rmdir := fun path c e =>
                       (0, { c with nodes := c.nodes.filter (fun n =>
                          n.1 != path && (strip_dir (path ++ "/").data n.1.data).isNone) }, e) }

/-- A source with the single file `/a` of content `h1`. -/
def toy_one : Toy := ⟨[("/a", reg_attr 1 5 "h1")], [], []⟩

/-- With one worker, `handle_file` on `/a` for a source whose `get_identifier`
yields `NULL`, and then the worker, until it waits at the empty pipe. -/
def toy_orphan_run : Res (Bool × World Toy) :=
  (do
    let _ ← handle_file (toy_cfg 1) 5 (toy_fs_anon Slot.src) (reg_attr 1 5 "h1")
      (toy_fs Slot.dest) attr0 "/a"
    MainWorker (toy_cfg 1) (toy_fs_anon Slot.src) (toy_fs Slot.dest) 5 : M Toy Bool)
    (toy_world toy_one ⟨[], [], []⟩)

/-- A destination with the damaged file `/b` (inode 12) recorded with the
fingerprint `h2`, and with the pool entry for `h1`. -/
def toy_other_damaged : Toy :=
  ⟨[("/b", reg_attr 12 5 "h2")], [("h1", reg_attr 1 5 "h1")], [12]⟩

/-- One run of `Sync` in fsck mode from `toy_one` onto `toy_other_damaged`. -/
def toy_stale_run : Res (Bool × World Toy) :=
  Sync (toy_cfg 0) (toy_fs Slot.src) (toy_fs Slot.dest) 2 "" true true
    (toy_world toy_one toy_other_damaged)

/-- One run of `Sync` from an empty source onto `toy_subtree`, on the backend
`toy_fs_lax`. -/
def toy_lax_run : Res (Bool × World Toy) :=
  Sync (toy_cfg 0) (toy_fs_lax Slot.src) (toy_fs_lax Slot.dest) 2 "" true false
    (toy_world ⟨[], [], []⟩ toy_subtree)

/-- One run of `SyncFull` from an empty source onto `toy_subtree`, on the
backend `toy_fs_lax`. -/
def toy_lax_full_run : Res (Bool × World Toy) :=
  SyncFull (toy_cfg 0) 3 (toy_fs_lax Slot.src) (toy_fs_lax Slot.dest) false
    (toy_world ⟨[], [], []⟩ toy_subtree)

/-- Two results of `list_dir` with the same names in another order. -/
def same_names : Option (List String) → Option (List String) → Prop
  | none, none => True
  | some a, some b => a.Perm b
  | _, _ => False

/-- A spec tree that matches every path and lists the top directory as
`names`, in this order, and every other directory as empty. -/
def spec_listing (names : List String) : SpecTree :=
  ⟨fun _ => true, fun d => if d = "" then some names else some []⟩

/-- The destination after `toy_twins` has been synchronised to it. -/
def toy_twins_synced : Toy :=
  ⟨[("/a", reg_attr 1 5 "h1"), ("/b", reg_attr 2 5 "h1")], [("h1", reg_attr 1 5 "h1")], []⟩

/-- One run of `Sync` from `toy_twins` onto `toy_twins_synced` when the spec
tree lists the top directory as `names`. -/
def toy_listing_run (names : List String) : Res (Bool × World Toy) :=
  Sync ⟨spec_listing names, 0, 4, attr0⟩ (toy_fs Slot.src) (toy_fs Slot.dest) 2 "" true false
    (toy_world toy_twins toy_twins_synced)

/-- The call changes the destination tree or the pool. -/
def Call.is_mutation : Call → Bool
  | Call.touch _ _ => true
  | Call.copyFile _ _ => true
  | Call.WritePipe _ => true
  | Call.do_link _ _ _ => true
  | Call.do_mkdir _ _ _ => true
  | Call.set_meta _ _ _ => true
  | Call.do_symlink _ _ _ _ => true
  | Call.do_unlink _ _ => true
  | Call.do_rmdir _ _ => true
  | _ => false

/-- The `list_dir` of the in-memory backend with its result reversed. -/
def toy_list_reversed : String → Op Toy (Option (List String)) :=
  fun dir c e => (((toy_fs Slot.src).list_dir dir c e).1.map List.reverse, c, e)

/-- The computation `x` from the state `w` does not read behind the end of a
listing, and its result, if it has one, satisfies `Q`. -/
def in_bounds {C α : Type} (x : M C α) (w : World C) (Q : α → Prop) : Prop :=
  match x w with
  | .ok (a, _) => Q a
  | .error f => f ≠ Fault.out_of_bounds

/-- The position behind the iterator is inside the listing, terminator
included. -/
def next_in_bounds (dir_list : Option (List String)) (iter : Int) : Prop :=
  ∀ list, dir_list = some list → (iter + 1).toNat ≤ list.length

/-- Invariant of the loop of `Sync` for the bounds of the two listings: an
iterator that is to move, or that stands at an entry, has a position behind it
inside the listing. -/
def Sync_bounds (src_dir dest_dir : Option (List String)) (l : SyncLocals) : Prop :=
  (l.src_entry.isSome = true ∨ l.cmp ≤ 0 → next_in_bounds src_dir l.src_iter) ∧
  (l.dest_entry.isSome = true ∨ 0 ≤ l.cmp → next_in_bounds dest_dir l.dest_iter)

end shrinkwrap

namespace shrinkwrap

/-! ## Strings -/

/-- `strcmp_chars` is zero exactly on equal character lists. -/
theorem strcmp_chars_eq_zero (a b : List Char) : strcmp_chars a b = 0 ↔ a = b := by
  induction a generalizing b with
  | nil => cases b <;> simp [strcmp_chars]
  | cons x xs ih =>
    cases b with
    | nil => simp [strcmp_chars]
    | cons y ys =>
      by_cases hxy : x = y
      · subst hxy; simp [strcmp_chars, ih]
      · have hne : x.toNat ≠ y.toNat := fun h => hxy (by
          rw [← Char.ofNat_toNat x, ← Char.ofNat_toNat y, h])
        simp only [strcmp_chars, hxy, if_false, List.cons.injEq, false_and, iff_false]
        omega

/-- `strcmp` is zero exactly on equal strings. -/
theorem strcmp_eq_zero (a b : String) : strcmp a b = 0 ↔ a = b := by
  unfold strcmp
  rw [strcmp_chars_eq_zero]
  constructor
  · intro h; exact String.ext h
  · intro h; rw [h]

/-! ## The attribute comparator -/

section Comparator

variable {C : Type}

set_option maxHeartbeats 1000000 in
/-- The comparator on two records, the source not a symlink. -/
theorem cvmfs_attr_cmp_some (s d : cvmfs_attr) (dest_fs : fs_traversal C)
    (w : World C) (hl : S_ISLNK s.st_mode = false) :
    ∃ b w', cvmfs_attr_cmp (some s) (some d) dest_fs w = .ok (b, w') ∧
      (b = true ↔ attrs_agree s d
        (dest_fs.is_hash_consistent s (w.ctx dest_fs.context_) w.errno).1) := by
  obtain ⟨sv, ss, sino, sm, su, sg, ssz, sck, ssym, snm, sx⟩ := s
  obtain ⟨dv, ds, dino, dm, du, dg, dsz, dck, dsym, dnm, dx⟩ := d
  simp only at hl
  by_cases hv : sv = dv
  swap
  · exact ⟨false, w, by simp [cvmfs_attr_cmp, hv], by simp [attrs_agree, hv]⟩
  subst hv
  by_cases hs : ss = ds
  swap
  · exact ⟨false, w, by simp [cvmfs_attr_cmp, hs], by simp [attrs_agree, hs]⟩
  subst hs
  by_cases hm : sm = dm
  swap
  · exact ⟨false, w, by simp [cvmfs_attr_cmp, hm, hl], by simp [attrs_agree, hm]⟩
  subst hm
  by_cases hu : su = du
  swap
  · exact ⟨false, w, by simp [cvmfs_attr_cmp, hl, hu], by simp [attrs_agree, hu]⟩
  subst hu
  by_cases hg : sg = dg
  swap
  · exact ⟨false, w, by simp [cvmfs_attr_cmp, hl, hg], by simp [attrs_agree, hg]⟩
  subst hg
  cases hc : (dest_fs.is_hash_consistent
      { version := sv, size := ss, st_ino := sino, st_mode := sm, st_uid := su, st_gid := sg,
        st_size := ssz, cvm_checksum := sck, cvm_symlink := ssym, cvm_name := snm,
        cvm_xattrs := sx } (w.ctx dest_fs.context_) w.errno).1 <;>
  cases hreg : S_ISREG sm <;>
  rcases sck with _ | sc <;> rcases dck with _ | dc <;>
  rcases snm with _ | sn <;> rcases dnm with _ | dn <;>
  simp only [cvmfs_attr_cmp, hl, hreg, World.call, hc, ne_eq, not_true_eq_false, if_false,
    Bool.not_false, Bool.not_true, bne_self_eq_false, Bool.false_and, Bool.and_false,
    Bool.or_self, Bool.false_eq_true, if_true, Bool.true_and, Bool.and_self,
    bne_iff_ne, strcmp_eq_zero, ite_not] <;>
  (try split_ifs with h1) <;>
  exact ⟨_, _, rfl, by
    simp_all [attrs_agree] <;> (intros; exact Ne.symm h1)⟩


/-- C6: for a source record that is not a symlink, `cvmfs_attr_cmp` returns, and
returns `true` exactly when both records are there and agree in version, size,
full mode, owner, group and logical name and, for a regular file with a
fingerprint, the destination records the same fingerprint or records none and
`is_hash_consistent` accepts the source record.  Changing the extended
attributes of either record does not change the result, as long as the
backend's answer for the source record is the same. -/
theorem cvmfs_attr_cmp_not_symlink (src dest : Option cvmfs_attr) (dest_fs : fs_traversal C)
    (w : World C) (hlnk : ∀ s, src = some s → S_ISLNK s.st_mode = false) :
    (∃ b w', cvmfs_attr_cmp src dest dest_fs w = .ok (b, w') ∧
      (b = true ↔ ∃ s d, src = some s ∧ dest = some d ∧
        attrs_agree s d (dest_fs.is_hash_consistent s (w.ctx dest_fs.context_) w.errno).1)) ∧
    (∀ x y : Option (List (String × String)),
      (∀ s, src = some s →
        (dest_fs.is_hash_consistent { s with cvm_xattrs := x } (w.ctx dest_fs.context_) w.errno).1
          = (dest_fs.is_hash_consistent s (w.ctx dest_fs.context_) w.errno).1) →
      Res.result (cvmfs_attr_cmp (src.map (fun s => { s with cvm_xattrs := x }))
          (dest.map (fun d => { d with cvm_xattrs := y })) dest_fs w)
        = Res.result (cvmfs_attr_cmp src dest dest_fs w)) := by
  have main : ∀ (src dest : Option cvmfs_attr),
      (∀ s, src = some s → S_ISLNK s.st_mode = false) →
      ∃ b w', cvmfs_attr_cmp src dest dest_fs w = .ok (b, w') ∧
      (b = true ↔ ∃ s d, src = some s ∧ dest = some d ∧
        attrs_agree s d (dest_fs.is_hash_consistent s (w.ctx dest_fs.context_) w.errno).1) := by
    intro src dest hlnk
    cases src with
    | none => exact ⟨false, w, rfl, by simp⟩
    | some s =>
      cases dest with
      | none => exact ⟨false, w, rfl, by simp⟩
      | some d =>
        obtain ⟨b, w', h, hb⟩ := cvmfs_attr_cmp_some s d dest_fs w (hlnk s rfl)
        exact ⟨b, w', h, by simp [hb]⟩
  refine ⟨main src dest hlnk, ?_⟩
  intro x y hx
  obtain ⟨b, w', h, hb⟩ := main src dest hlnk
  obtain ⟨b2, w2, h2, hb2⟩ := main (src.map (fun s => { s with cvm_xattrs := x }))
    (dest.map (fun d => { d with cvm_xattrs := y })) (by
      intro s hs
      cases src with
      | none => simp at hs
      | some s0 =>
        simp only [Option.map_some', Option.some.injEq] at hs
        subst hs
        exact hlnk s0 rfl)
  rw [h, h2]
  simp only [Res.result, Option.some.injEq]
  rw [Bool.eq_iff_iff, hb, hb2]
  cases src with
  | none => simp
  | some s0 =>
    cases dest with
    | none => simp
    | some d0 =>
      simp only [Option.map_some', Option.some.injEq, exists_and_left, exists_eq_left']
      rw [hx s0 rfl]
      simp [attrs_agree]

/-- C7: two symlink records that agree in everything but the symlink target are
accepted by `cvmfs_attr_cmp`: for a symlink it compares the logical names and
never the targets. -/
theorem cvmfs_attr_cmp_symlink_target_ignored :
    Res.result (cvmfs_attr_cmp (some (lnk_attr 1 "l" "a")) (some (lnk_attr 1 "l" "b"))
      (toy_fs Slot.dest) (toy_world ⟨[], [], []⟩ ⟨[], [], []⟩)) = some true ∧
    (lnk_attr 1 "l" "a").cvm_symlink ≠ (lnk_attr 1 "l" "b").cvm_symlink := by
  decide

/-- C6 at a concrete pair of regular files on the in-memory backend. -/
theorem cvmfs_attr_cmp_not_symlink_witness :
    (∀ s, some (reg_attr 1 5 "h1") = some s → S_ISLNK s.st_mode = false) ∧
    ∃ b w', cvmfs_attr_cmp (some (reg_attr 1 5 "h1")) (some (reg_attr 7 5 "h1"))
        (toy_fs Slot.dest) (toy_world ⟨[], [], []⟩ ⟨[], [], []⟩) = .ok (b, w') ∧
      (b = true ↔ ∃ s d, some (reg_attr 1 5 "h1") = some s ∧ some (reg_attr 7 5 "h1") = some d ∧
        attrs_agree s d ((toy_fs Slot.dest).is_hash_consistent s
          ((toy_world ⟨[], [], []⟩ ⟨[], [], []⟩).ctx (toy_fs Slot.dest).context_)
          (toy_world ⟨[], [], []⟩ ⟨[], [], []⟩).errno).1) :=
  ⟨by intro s h; cases h; decide,
   (cvmfs_attr_cmp_not_symlink _ _ _ _ (by intro s h; cases h; decide)).1⟩

end Comparator

section Frames
variable {C : Type}

@[simp] theorem call_trace {α : Type} (w : World C) (p : Slot) (op : Op C α) :
    (w.call p op).2.trace = w.trace := by
  cases p <;> rfl

@[simp] theorem log_trace (w : World C) (e : Call) :
    (w.log e).trace = w.trace ++ [e] := by
  rfl

@[simp] theorem Xadd_trace (w : World C) (c : Stat) (n : Int) :
    (w.Xadd c n).trace = w.trace := by
  rfl

@[simp] theorem set_errno_trace (w : World C) (e : Int) :
    (w.set_errno e).trace = w.trace := by
  rfl

@[simp] theorem add_lock_trace (w : World C) (i : Nat) :
    (w.add_lock i).trace = w.trace := by
  rfl

@[simp] theorem write_pipe_trace (w : World C) (j : FileCopy) :
    (w.write_pipe j).trace = w.trace := by
  rfl

@[simp] theorem queue_add_trace (w : World C) (n : Int) :
    (w.queue_add n).trace = w.trace := by
  rfl

@[simp] theorem push_dir_trace (w : World C) (d : RecDir) :
    (w.push_dir d).trace = w.trace := by
  rfl

@[simp] theorem pop_dir_trace (w : World C) :
    w.pop_dir.trace = w.trace := by
  rfl

@[simp] theorem call_pstats {α : Type} (w : World C) (p : Slot) (op : Op C α) :
    (w.call p op).2.pstats = w.pstats := by
  cases p <;> rfl

@[simp] theorem log_pstats (w : World C) (e : Call) :
    (w.log e).pstats = w.pstats := by
  rfl

@[simp] theorem Xadd_pstats (w : World C) (c : Stat) (n : Int) :
    (w.Xadd c n).pstats = fun c' => if c' = c then w.pstats c + n else w.pstats c' := by
  rfl

@[simp] theorem set_errno_pstats (w : World C) (e : Int) :
    (w.set_errno e).pstats = w.pstats := by
  rfl

@[simp] theorem add_lock_pstats (w : World C) (i : Nat) :
    (w.add_lock i).pstats = w.pstats := by
  rfl

@[simp] theorem write_pipe_pstats (w : World C) (j : FileCopy) :
    (w.write_pipe j).pstats = w.pstats := by
  rfl

@[simp] theorem queue_add_pstats (w : World C) (n : Int) :
    (w.queue_add n).pstats = w.pstats := by
  rfl

@[simp] theorem push_dir_pstats (w : World C) (d : RecDir) :
    (w.push_dir d).pstats = w.pstats := by
  rfl

@[simp] theorem pop_dir_pstats (w : World C) :
    w.pop_dir.pstats = w.pstats := by
  rfl

@[simp] theorem call_dirs_ {α : Type} (w : World C) (p : Slot) (op : Op C α) :
    (w.call p op).2.dirs_ = w.dirs_ := by
  cases p <;> rfl

@[simp] theorem log_dirs_ (w : World C) (e : Call) :
    (w.log e).dirs_ = w.dirs_ := by
  rfl

@[simp] theorem Xadd_dirs_ (w : World C) (c : Stat) (n : Int) :
    (w.Xadd c n).dirs_ = w.dirs_ := by
  rfl

@[simp] theorem set_errno_dirs_ (w : World C) (e : Int) :
    (w.set_errno e).dirs_ = w.dirs_ := by
  rfl

@[simp] theorem add_lock_dirs_ (w : World C) (i : Nat) :
    (w.add_lock i).dirs_ = w.dirs_ := by
  rfl

@[simp] theorem write_pipe_dirs_ (w : World C) (j : FileCopy) :
    (w.write_pipe j).dirs_ = w.dirs_ := by
  rfl

@[simp] theorem queue_add_dirs_ (w : World C) (n : Int) :
    (w.queue_add n).dirs_ = w.dirs_ := by
  rfl

@[simp] theorem push_dir_dirs_ (w : World C) (d : RecDir) :
    (w.push_dir d).dirs_ = w.dirs_ ++ [d] := by
  rfl

@[simp] theorem pop_dir_dirs_ (w : World C) :
    w.pop_dir.dirs_ = w.dirs_.dropLast := by
  rfl

@[simp] theorem call_fsck_lock {α : Type} (w : World C) (p : Slot) (op : Op C α) :
    (w.call p op).2.fsck_lock = w.fsck_lock := by
  cases p <;> rfl

@[simp] theorem log_fsck_lock (w : World C) (e : Call) :
    (w.log e).fsck_lock = w.fsck_lock := by
  rfl

@[simp] theorem Xadd_fsck_lock (w : World C) (c : Stat) (n : Int) :
    (w.Xadd c n).fsck_lock = w.fsck_lock := by
  rfl

@[simp] theorem set_errno_fsck_lock (w : World C) (e : Int) :
    (w.set_errno e).fsck_lock = w.fsck_lock := by
  rfl

@[simp] theorem add_lock_fsck_lock (w : World C) (i : Nat) :
    (w.add_lock i).fsck_lock = (w.fsck_lock.AddLock i).2 := by
  rfl

@[simp] theorem write_pipe_fsck_lock (w : World C) (j : FileCopy) :
    (w.write_pipe j).fsck_lock = w.fsck_lock := by
  rfl

@[simp] theorem queue_add_fsck_lock (w : World C) (n : Int) :
    (w.queue_add n).fsck_lock = w.fsck_lock := by
  rfl

@[simp] theorem push_dir_fsck_lock (w : World C) (d : RecDir) :
    (w.push_dir d).fsck_lock = w.fsck_lock := by
  rfl

@[simp] theorem pop_dir_fsck_lock (w : World C) :
    w.pop_dir.fsck_lock = w.fsck_lock := by
  rfl

@[simp] theorem call_copy_queue {α : Type} (w : World C) (p : Slot) (op : Op C α) :
    (w.call p op).2.copy_queue = w.copy_queue := by
  cases p <;> rfl

@[simp] theorem log_copy_queue (w : World C) (e : Call) :
    (w.log e).copy_queue = w.copy_queue := by
  rfl

@[simp] theorem Xadd_copy_queue (w : World C) (c : Stat) (n : Int) :
    (w.Xadd c n).copy_queue = w.copy_queue := by
  rfl

@[simp] theorem set_errno_copy_queue (w : World C) (e : Int) :
    (w.set_errno e).copy_queue = w.copy_queue := by
  rfl

@[simp] theorem add_lock_copy_queue (w : World C) (i : Nat) :
    (w.add_lock i).copy_queue = w.copy_queue := by
  rfl

@[simp] theorem write_pipe_copy_queue (w : World C) (j : FileCopy) :
    (w.write_pipe j).copy_queue = w.copy_queue := by
  rfl

@[simp] theorem queue_add_copy_queue (w : World C) (n : Int) :
    (w.queue_add n).copy_queue = w.copy_queue + n := by
  rfl

@[simp] theorem push_dir_copy_queue (w : World C) (d : RecDir) :
    (w.push_dir d).copy_queue = w.copy_queue := by
  rfl

@[simp] theorem pop_dir_copy_queue (w : World C) :
    w.pop_dir.copy_queue = w.copy_queue := by
  rfl

@[simp] theorem call_pipe_chunks {α : Type} (w : World C) (p : Slot) (op : Op C α) :
    (w.call p op).2.pipe_chunks = w.pipe_chunks := by
  cases p <;> rfl

@[simp] theorem log_pipe_chunks (w : World C) (e : Call) :
    (w.log e).pipe_chunks = w.pipe_chunks := by
  rfl

@[simp] theorem Xadd_pipe_chunks (w : World C) (c : Stat) (n : Int) :
    (w.Xadd c n).pipe_chunks = w.pipe_chunks := by
  rfl

@[simp] theorem set_errno_pipe_chunks (w : World C) (e : Int) :
    (w.set_errno e).pipe_chunks = w.pipe_chunks := by
  rfl

@[simp] theorem add_lock_pipe_chunks (w : World C) (i : Nat) :
    (w.add_lock i).pipe_chunks = w.pipe_chunks := by
  rfl

@[simp] theorem write_pipe_pipe_chunks (w : World C) (j : FileCopy) :
    (w.write_pipe j).pipe_chunks = w.pipe_chunks ++ [j] := by
  rfl

@[simp] theorem queue_add_pipe_chunks (w : World C) (n : Int) :
    (w.queue_add n).pipe_chunks = w.pipe_chunks := by
  rfl

@[simp] theorem push_dir_pipe_chunks (w : World C) (d : RecDir) :
    (w.push_dir d).pipe_chunks = w.pipe_chunks := by
  rfl

@[simp] theorem pop_dir_pipe_chunks (w : World C) :
    w.pop_dir.pipe_chunks = w.pipe_chunks := by
  rfl

theorem post_bind {α β : Type} (x : M C α) (f : α → M C β) (w : World C)
    (Q : β → World C → Prop) :
    post (x >>= f) w Q ↔ post x w (fun a w1 => post (f a) w1 Q) := by
  unfold post
  show (∀ b w', (StateT.bind x f) w = _ → _) ↔ _
  simp only [StateT.bind, bind, Except.bind]
  cases hx : x w with
  | error e => simp
  | ok p =>
    obtain ⟨a, w1⟩ := p
    simp only [Except.ok.injEq, Prod.mk.injEq]
    constructor
    · rintro h a' w1' ⟨rfl, rfl⟩ b w' hb
      exact h b w' hb
    · intro h b w' hb
      exact h a w1 ⟨rfl, rfl⟩ b w' hb

theorem post_of_eq {α : Type} (x : M C α) (w : World C) (a0 : α) (w0 : World C)
    (hx : x w = .ok (a0, w0)) (Q : α → World C → Prop) : post x w Q ↔ Q a0 w0 := by
  unfold post
  rw [hx]
  constructor
  · intro h; exact h _ _ rfl
  · intro h a w' e; cases e; exact h

theorem post_pure {α : Type} (a : α) (w : World C) (Q : α → World C → Prop) :
    post (pure a : M C α) w Q ↔ Q a w :=
  post_of_eq _ _ _ _ rfl Q

theorem post_call {α : Type} (p : Slot) (op : Op C α) (w : World C) (Q : α → World C → Prop) :
    post (call p op) w Q ↔ Q (w.call p op).1 (w.call p op).2 :=
  post_of_eq _ _ _ _ rfl Q

theorem post_log (e : Call) (w : World C) (Q : Unit → World C → Prop) :
    post (log e) w Q ↔ Q () (w.log e) :=
  post_of_eq _ _ _ _ rfl Q

theorem post_Xadd (c : Stat) (n : Int) (w : World C) (Q : Unit → World C → Prop) :
    post (Xadd c n) w Q ↔ Q () (w.Xadd c n) :=
  post_of_eq _ _ _ _ rfl Q

theorem post_set_errno (e : Int) (w : World C) (Q : Unit → World C → Prop) :
    post (set_errno e) w Q ↔ Q () (w.set_errno e) :=
  post_of_eq _ _ _ _ rfl Q

theorem post_get_errno (w : World C) (Q : Int → World C → Prop) :
    post get_errno w Q ↔ Q w.errno w :=
  post_of_eq _ _ _ _ rfl Q

theorem post_fault {α : Type} (f : Fault) (w : World C) (Q : α → World C → Prop) :
    post (fault f : M C α) w Q ↔ True := by
  unfold post
  show (∀ b w', Except.error f = _ → _) ↔ _
  simp

theorem post_AddLock (i : Nat) (w : World C) (Q : Bool → World C → Prop) :
    post (AddLock i) w Q ↔ Q (w.fsck_lock.AddLock i).1
      ((w.add_lock i).log (Call.AddLock i (w.fsck_lock.AddLock i).1)) :=
  post_of_eq _ _ _ _ rfl Q

theorem post_WritePipe (j : FileCopy) (w : World C) (Q : Unit → World C → Prop) :
    post (WritePipe j) w Q ↔ Q () ((w.write_pipe j).log (Call.WritePipe j)) :=
  post_of_eq _ _ _ _ rfl Q

theorem post_copy_queue_add (n : Int) (w : World C) (Q : Unit → World C → Prop) :
    post (copy_queue_add n) w Q ↔ Q () (w.queue_add n) :=
  post_of_eq _ _ _ _ rfl Q

theorem post_add_dir_for_sync (d : String) (r : Bool) (w : World C)
    (Q : Unit → World C → Prop) :
    post (add_dir_for_sync d r) w Q ↔ Q () (w.push_dir ⟨some d, r⟩) :=
  post_of_eq _ _ _ _ rfl Q

theorem post_dirs_pop (w : World C) (Q : Option RecDir → World C → Prop) :
    post dirs_pop w Q ↔ Q w.dirs_.getLast? w.pop_dir :=
  post_of_eq _ _ _ _ rfl Q

theorem post_ite {α : Type} (c : Prop) [Decidable c] (x y : M C α) (w : World C)
    (Q : α → World C → Prop) :
    post (if c then x else y) w Q ↔ (c → post x w Q) ∧ (¬c → post y w Q) := by
  by_cases hc : c <;> simp [hc]

theorem post_mono {α : Type} (x : M C α) (w : World C) (Q Q' : α → World C → Prop)
    (h : post x w Q) (hq : ∀ a w', Q a w' → Q' a w') : post x w Q' :=
  fun a w' e => hq a w' (h a w' e)

theorem copyFile_loop_frame (cfg : Config) (src_fs dest_fs : fs_traversal C) (s d : Nat)
    (fuel n : Nat) (w : World C) :
    post (copyFile_loop cfg src_fs dest_fs s d fuel n) w (fun _ w' => w.frame w') := by
  induction fuel generalizing n w with
  | zero => simp [copyFile_loop, post_fault]
  | succ k ih =>
    simp only [copyFile_loop, post_bind, post_call, post_ite, post_pure, post_fault]
    refine ⟨?_, ?_⟩
    · intro _; simp [World.frame]
    · intro _
      refine ⟨fun _ => trivial, fun _ => ⟨?_, ?_⟩⟩
      · intro _; simp [World.frame]
      · intro _
        refine ⟨?_, ?_⟩
        · intro _; simp [World.frame]
        · intro _
          refine post_mono _ _ _ _ (ih _ _) ?_
          intro a w'
          simp [World.frame]

theorem copyFile_spec (cfg : Config) (fuel : Nat) (src_fs : fs_traversal C)
    (src_name : Option String) (dest_fs : fs_traversal C) (dest_name : Option String)
    (w : World C) :
    post (copyFile cfg fuel src_fs src_name dest_fs dest_name) w
      (fun _ w' => copyFile_post src_name dest_name w w') := by
  simp only [copyFile, post_bind, post_log, post_call, post_ite, post_pure]
  refine ⟨fun _ => by simp [copyFile_post], fun _ => ⟨fun _ => by simp [copyFile_post], fun _ => ?_⟩⟩
  refine post_mono _ _ _ _ (copyFile_loop_frame _ _ _ _ _ _ _ _) ?_
  intro r w1 hf
  simp only [World.frame, call_pstats, call_dirs_, call_fsck_lock, call_copy_queue,
    call_pipe_chunks, call_trace, log_pstats, log_dirs_, log_fsck_lock, log_copy_queue,
    log_pipe_chunks, log_trace] at hf
  obtain ⟨h1, h2, h3, h4, h5, h6⟩ := hf
  cases r with
  | none => simp [post_pure, copyFile_post, *]
  | some n =>
    simp only [post_bind, post_Xadd, post_call, post_ite, post_pure]
    refine ⟨fun _ => ?_, fun _ => ⟨fun _ => ?_, fun _ => ?_⟩⟩ <;>
      simp +contextual [copyFile_post, *]

@[simp] theorem log_errno (w : World C) (e : Call) : (w.log e).errno = w.errno := rfl
@[simp] theorem log_ctx (w : World C) (e : Call) (p : Slot) : (w.log e).ctx p = w.ctx p := by
  cases p <;> rfl
@[simp] theorem log_call_fst {α : Type} (w : World C) (e : Call) (p : Slot) (op : Op C α) :
    ((w.log e).call p op).1 = (w.call p op).1 := by
  cases p <;> rfl

theorem AddLock_fst (l : FsckLock) (i : Nat) : (l.AddLock i).1 = decide (i ∉ l.locks_) := by
  unfold FsckLock.AddLock
  by_cases h : i ∈ l.locks_
  · have : ¬ List.count i l.locks_ = 0 := by
      rw [List.count_eq_zero]; simpa using h
    simp [this, h]
  · have : List.count i l.locks_ = 0 := List.count_eq_zero.mpr h
    simp [this, h]

theorem AddLock_snd (l : FsckLock) (i : Nat) :
    (l.AddLock i).2.locks_ = if i ∈ l.locks_ then l.locks_ else i :: l.locks_ := by
  unfold FsckLock.AddLock
  by_cases h : i ∈ l.locks_
  · have : ¬ List.count i l.locks_ = 0 := by
      rw [List.count_eq_zero]; simpa using h
    simp [this, h]
  · have : List.count i l.locks_ = 0 := List.count_eq_zero.mpr h
    simp [this, h]

theorem handle_file_condition_spec (dest : fs_traversal C) (src_st dest_st : cvmfs_attr)
    (w : World C) :
    post (handle_file_condition dest src_st dest_st) w (fun copy w' =>
      copy = copy_required dest src_st dest_st w ∧
      w'.trace = w.trace ++ condition_events dest src_st dest_st w ∧
      w'.pstats = w.pstats ∧ w'.dirs_ = w.dirs_ ∧ w'.copy_queue = w.copy_queue ∧
      w'.pipe_chunks = w.pipe_chunks ∧
      w'.fsck_lock.locks_ = (if copy = true ∧ (w.call dest.context_ (dest.touch src_st)).1 ≠ 0
        then dest_st.st_ino :: w.fsck_lock.locks_ else w.fsck_lock.locks_)) := by
  simp only [handle_file_condition, should_write_anyway, post_bind, post_call, post_log,
    post_ite, post_pure, post_AddLock, log_call_fst]
  refine ⟨?_, ?_⟩
  · intro h0
    simp [copy_required, condition_events, h0]
  · intro h0
    refine ⟨?_, ?_⟩
    · intro hc
      refine ⟨?_, ?_⟩
      · intro hcons
        simp only [Bool.not_eq_eq_eq_not, Bool.not_true] at hcons
        simp [copy_required, condition_events, h0, hc, hcons, AddLock_fst, AddLock_snd]
      · intro hcons
        simp only [Bool.not_eq_eq_eq_not, Bool.not_true, Bool.not_eq_false] at hcons
        simp [copy_required, condition_events, h0, hc, hcons]
    · intro hc
      simp [copy_required, condition_events, h0, hc]

theorem handle_file_copy_spec (cfg : Config) (fuel : Nat) (src : fs_traversal C)
    (src_st : cvmfs_attr) (dest : fs_traversal C) (dest_data : Option String) (w : World C) :
    post (handle_file_copy cfg fuel src src_st dest dest_data) w (fun result w' =>
      w'.dirs_ = w.dirs_ ∧ w'.fsck_lock = w.fsck_lock ∧
      (∀ c, c ≠ Stat.BYTE_COUNT → c ≠ Stat.FILE_COUNT → w'.pstats c = w.pstats c) ∧
      (cfg.num_parallel_ ≠ 0 → result = true ∧ w'.pstats = w.pstats ∧
        w'.copy_queue = w.copy_queue + 1 ∧
        ∃ d, dest_data = some d ∧
          w'.trace = w.trace ++
            [Call.WritePipe ⟨(w.call dest.context_ (src.get_identifier src_st)).1, some d⟩] ∧
          w'.pipe_chunks = w.pipe_chunks ++
            [⟨(w.call dest.context_ (src.get_identifier src_st)).1, some d⟩]) ∧
      (cfg.num_parallel_ = 0 →
        w'.trace = w.trace ++
          [Call.copyFile (w.call dest.context_ (src.get_identifier src_st)).1 dest_data] ∧
        w'.pipe_chunks = w.pipe_chunks ∧ w'.copy_queue = w.copy_queue ∧
        w'.pstats Stat.FILE_COUNT = w.pstats Stat.FILE_COUNT + 1 ∧
        ∃ w3 w4, copyFile cfg fuel src (w.call dest.context_ (src.get_identifier src_st)).1
          dest dest_data w3 = .ok (result, w4))) := by
  simp only [handle_file_copy, post_bind, post_call, post_ite]
  refine ⟨?_, ?_⟩
  · intro hp
    cases dest_data with
    | none => simp [post_fault]
    | some d =>
      simp only [post_bind, post_WritePipe, post_copy_queue_add, post_pure]
      simp [hp]
  · intro hp
    simp only [ne_eq, not_not] at hp
    intro copied w4 hcf
    have hs := copyFile_spec _ _ _ _ _ _ _ _ _ hcf
    simp only [copyFile_post, call_trace, call_dirs_, call_fsck_lock, call_copy_queue,
      call_pipe_chunks, call_pstats] at hs
    obtain ⟨h1, h2, h3, h4, h5, h6⟩ := hs
    simp only [post_bind, post_ite, post_pure, post_set_errno, post_Xadd]
    refine ⟨?_, ?_⟩ <;> intro hcop <;>
    · simp only [Xadd_dirs_, Xadd_fsck_lock, Xadd_trace, Xadd_pipe_chunks, Xadd_copy_queue,
        Xadd_pstats, set_errno_dirs_, set_errno_fsck_lock, set_errno_trace,
        set_errno_pipe_chunks, set_errno_copy_queue, set_errno_pstats, h1, h2, h3, h4, h5]
      refine ⟨trivial, trivial, ?_, ?_, ?_⟩
      · intro c hc1 hc2
        simp [hc2, h6 c hc1]
      · intro hne; exact absurd hp hne
      · intro _
        refine ⟨trivial, trivial, trivial, ?_, _, _, hcf⟩
        simp [h6 Stat.FILE_COUNT (by decide)]

theorem handle_file_link_spec (dest : fs_traversal C) (entry : String)
    (dest_data : Option String) (result : Bool) (w : World C) :
    post (handle_file_link dest entry dest_data result) w (fun r w' =>
      w'.dirs_ = w.dirs_ ∧ w'.fsck_lock = w.fsck_lock ∧ w'.pstats = w.pstats ∧
      w'.pipe_chunks = w.pipe_chunks ∧ w'.copy_queue = w.copy_queue ∧
      (result = false → r = false ∧ w'.trace = w.trace) ∧
      (result = true →
        w'.trace = w.trace ++
          [Call.do_link entry dest_data (w.call dest.context_ (dest.do_link entry dest_data)).1] ∧
        (r = true ↔ (w.call dest.context_ (dest.do_link entry dest_data)).1 = 0))) := by
  simp only [handle_file_link, post_bind, post_call, post_ite, post_log, post_pure,
    post_set_errno]
  refine ⟨?_, ?_⟩
  · intro hr
    refine ⟨?_, ?_⟩ <;> intro hl
    · simp [hr, hl]
    · simp only [ne_eq, not_not] at hl
      simp [hr, hl]
  · intro hr
    simp [hr]

theorem handle_file_spec (cfg : Config) (fuel : Nat) (src : fs_traversal C)
    (src_st : cvmfs_attr) (dest : fs_traversal C) (dest_st : cvmfs_attr) (entry : String)
    (w : World C) :
    post (handle_file cfg fuel src src_st dest dest_st entry) w
      (handle_file_post cfg fuel src src_st dest dest_st entry w) := by
  simp only [handle_file, post_bind, post_call]
  refine post_mono _ _ _ _ (handle_file_condition_spec _ _ _ _) ?_
  intro copy w2 ⟨hcopy, htr, hps, hdirs, hq, hpipe, hlock⟩
  simp only [call_trace, call_pstats, call_dirs_, call_copy_queue, call_pipe_chunks,
    call_fsck_lock] at htr hps hdirs hq hpipe hlock
  unfold handle_file_post
  cases hcr : copy
  · -- no copy
    rw [hcr] at hcopy hlock
    simp only [Bool.false_eq_true, ↓reduceIte, post_bind, post_Xadd, post_pure]
    refine post_mono _ _ _ _ (handle_file_link_spec _ _ _ _ _) ?_
    rintro r w4 ⟨h1, h2, h3, h4, h5, -, h7⟩
    obtain ⟨h7, h8⟩ := h7 rfl
    simp only [Xadd_trace, Xadd_dirs_, Xadd_fsck_lock, Xadd_pstats, Xadd_pipe_chunks,
      Xadd_copy_queue] at h1 h2 h3 h4 h5 h7
    refine ⟨[], _, ?_, ?_, ?_, ?_, ?_, ?_, ?_, Or.inl ⟨_, rfl, h8⟩⟩
    · rw [h7, htr]; simp
    · rw [h1, hdirs]
    · rw [h2, hlock, ← hcopy]
    · rw [h3]; simp [hps]
    · rw [h3]; simp [hps]
    · intro hc; rw [← hcopy] at hc; cases hc
    · intro _
      rw [h3, h4, h5]
      simp [hps, hpipe, hq]
  · -- copy
    rw [hcr] at hcopy hlock
    simp only [↓reduceIte, post_bind]
    refine post_mono _ _ _ _ (handle_file_copy_spec _ _ _ _ _ _ _) ?_
    rintro result w3 ⟨c1, c2, c3, c4, c5⟩
    refine post_mono _ _ _ _ (handle_file_link_spec _ _ _ _ _) ?_
    rintro r w4 ⟨h1, h2, h3, h4, h5, h6, h7⟩
    by_cases hp : cfg.num_parallel_ = 0
    · obtain ⟨d1, d2, d3, d4, w5, w6, d5⟩ := c5 hp
      cases hres : result
      · -- inline copy failed
        obtain ⟨e1, e2⟩ := h6 hres
        refine ⟨[Call.copyFile (w2.call dest.context_ (src.get_identifier src_st)).1
            (w.call dest.context_ (dest.get_identifier src_st)).1], [],
          ?_, ?_, ?_, ?_, ?_, ?_, ?_,
          Or.inr ⟨rfl, e1, hcopy.symm, hp, _, _, _, hres ▸ d5⟩⟩
        · rw [e2, d1, htr]; simp
        · rw [h1, c1, hdirs]
        · rw [h2, c2, hlock, ← hcopy]
        · rw [h3, c3 _ (by decide) (by decide), hps]
        · rw [h3, c3 _ (by decide) (by decide), hps]
        · intro _
          refine ⟨?_, ?_, fun hne => absurd hp hne, fun _ => ⟨_, rfl, ?_, ?_, ?_⟩⟩
          · rw [h3, c3 _ (by decide) (by decide), hps]
          · rw [h3, c3 _ (by decide) (by decide), hps]
          · rw [h4, d2, hpipe]
          · rw [h5, d3, hq]
          · rw [h3, d4, hps]
        · intro hc; rw [← hcopy] at hc; cases hc
      · obtain ⟨e1, e2⟩ := h7 hres
        refine ⟨[Call.copyFile (w2.call dest.context_ (src.get_identifier src_st)).1
            (w.call dest.context_ (dest.get_identifier src_st)).1], _,
          ?_, ?_, ?_, ?_, ?_, ?_, ?_,
          Or.inl ⟨_, rfl, e2⟩⟩
        · rw [e1, d1, htr]
        · rw [h1, c1, hdirs]
        · rw [h2, c2, hlock, ← hcopy]
        · rw [h3, c3 _ (by decide) (by decide), hps]
        · rw [h3, c3 _ (by decide) (by decide), hps]
        · intro _
          refine ⟨?_, ?_, fun hne => absurd hp hne, fun _ => ⟨_, rfl, ?_, ?_, ?_⟩⟩
          · rw [h3, c3 _ (by decide) (by decide), hps]
          · rw [h3, c3 _ (by decide) (by decide), hps]
          · rw [h4, d2, hpipe]
          · rw [h5, d3, hq]
          · rw [h3, d4, hps]
        · intro hc; rw [← hcopy] at hc; cases hc
    · obtain ⟨d1, d2, d3, d, d4, d5, d6⟩ := c4 hp
      obtain ⟨e1, e2⟩ := h7 d1
      refine ⟨[Call.WritePipe ⟨(w2.call dest.context_ (src.get_identifier src_st)).1, some d⟩],
        _, ?_, ?_, ?_, ?_, ?_, ?_, ?_,
        Or.inl ⟨_, rfl, e2⟩⟩
      · rw [e1, d5, htr]
      · rw [h1, c1, hdirs]
      · rw [h2, c2, hlock, ← hcopy]
      · rw [h3, d2, hps]
      · rw [h3, d2, hps]
      · intro _
        refine ⟨?_, ?_, fun _ => ⟨_, d, d4, rfl, ?_, ?_, ?_, ?_⟩, fun h0 => absurd h0 hp⟩
        · rw [h3, d2, hps]
        · rw [h3, d2, hps]
        · rw [h4, d6, hpipe]
        · rw [h5, d3, hq]
        · rw [h3, d2, hps]
        · rw [h3, d2, hps]
      · intro hc; rw [← hcopy] at hc; cases hc

theorem condition_events_no_copy (dest : fs_traversal C) (src_st dest_st : cvmfs_attr)
    (w : World C) :
    (condition_events dest src_st dest_st w).countP Call.is_copyFile = 0 ∧
    (condition_events dest src_st dest_st w).countP Call.is_WritePipe = 0 ∧
    (condition_events dest src_st dest_st w).countP Call.is_do_link = 0 := by
  unfold condition_events
  split_ifs <;> simp [Call.is_copyFile, Call.is_WritePipe, Call.is_do_link]

/-- C4: `handle_file` copies exactly when the rule `copy_required` says so: then it
logs one `copyFile` (no worker) or one `WritePipe` with one more job in the
pipe (workers), and leaves both dedup counters alone; otherwise it logs no copy
and adds 1 to the deduped files and the source size to the deduped bytes. -/
theorem handle_file_copy_iff (cfg : Config) (fuel : Nat) (src : fs_traversal C)
    (src_st : cvmfs_attr) (dest : fs_traversal C) (dest_st : cvmfs_attr) (entry : String)
    (w : World C) (r : Bool) (w' : World C)
    (h : handle_file cfg fuel src src_st dest dest_st entry w = .ok (r, w')) :
    (copy_required dest src_st dest_st
        (w.call dest.context_ (dest.get_identifier src_st)).2 = true →
      w'.trace.countP Call.is_copyFile
        = w.trace.countP Call.is_copyFile + (if cfg.num_parallel_ = 0 then 1 else 0) ∧
      w'.trace.countP Call.is_WritePipe
        = w.trace.countP Call.is_WritePipe + (if cfg.num_parallel_ = 0 then 0 else 1) ∧
      w'.pipe_chunks.length
        = w.pipe_chunks.length + (if cfg.num_parallel_ = 0 then 0 else 1) ∧
      w'.pstats Stat.DEDUPED_FILES = w.pstats Stat.DEDUPED_FILES ∧
      w'.pstats Stat.DEDUPED_BYTES = w.pstats Stat.DEDUPED_BYTES) ∧
    (copy_required dest src_st dest_st
        (w.call dest.context_ (dest.get_identifier src_st)).2 = false →
      w'.trace.countP Call.is_copyFile = w.trace.countP Call.is_copyFile ∧
      w'.trace.countP Call.is_WritePipe = w.trace.countP Call.is_WritePipe ∧
      w'.pipe_chunks = w.pipe_chunks ∧
      w'.pstats Stat.DEDUPED_FILES = w.pstats Stat.DEDUPED_FILES + 1 ∧
      w'.pstats Stat.DEDUPED_BYTES = w.pstats Stat.DEDUPED_BYTES + src_st.st_size) := by
  obtain ⟨cs, ls, htr, -, -, -, -, hyes, hno, hls⟩ := handle_file_spec cfg fuel src src_st
    dest dest_st entry w r w' h
  obtain ⟨n1, n2, -⟩ := condition_events_no_copy dest src_st dest_st
    (w.call dest.context_ (dest.get_identifier src_st)).2
  have hl : ls.countP Call.is_copyFile = 0 ∧ ls.countP Call.is_WritePipe = 0 := by
    rcases hls with ⟨l, rfl, -⟩ | ⟨rfl, -⟩ <;> simp [Call.is_copyFile, Call.is_WritePipe]
  refine ⟨fun hc => ?_, fun hc => ?_⟩
  · obtain ⟨d1, d2, hpar, hinl⟩ := hyes hc
    by_cases hp : cfg.num_parallel_ = 0
    · obtain ⟨si, rfl, p1, -, -⟩ := hinl hp
      simp [htr, List.countP_append, n1, n2, hl.1, hl.2, hp, d1, d2, p1, Call.is_copyFile,
        Call.is_WritePipe]
    · obtain ⟨si, d, -, rfl, p1, -, -, -⟩ := hpar hp
      simp [htr, List.countP_append, n1, n2, hl.1, hl.2, hp, d1, d2, p1, Call.is_copyFile,
        Call.is_WritePipe]
  · obtain ⟨rfl, d1, d2, -, -, p1, -⟩ := hno hc
    simp [htr, List.countP_append, n1, n2, hl.1, hl.2, d1, d2, p1]

/-- A run with a return value has a final state. -/
theorem result_some {x : Res (Bool × World C)} {b : Bool} (h : Res.result x = some b) :
    ∃ w', x = .ok (b, w') := by
  cases x with
  | error e => simp [Res.result] at h
  | ok p =>
    obtain ⟨b', w'⟩ := p
    simp only [Res.result, Option.some.injEq] at h
    exact ⟨w', by rw [h]⟩

end Frames

/-- C4 on the in-memory backend: a new file is copied once, in place. -/
theorem handle_file_copy_iff_witness :
    ∃ w', handle_file (toy_cfg 0) 5 (toy_fs Slot.src) (reg_attr 1 5 "h1") (toy_fs Slot.dest)
        attr0 "/a" (toy_world ⟨[("/a", reg_attr 1 5 "h1")], [], []⟩ ⟨[], [], []⟩)
        = .ok (true, w') ∧
      w'.trace.countP Call.is_copyFile = 1 := by
  obtain ⟨w', hw⟩ := result_some (x := handle_file (toy_cfg 0) 5 (toy_fs Slot.src)
    (reg_attr 1 5 "h1") (toy_fs Slot.dest) attr0 "/a"
    (toy_world ⟨[("/a", reg_attr 1 5 "h1")], [], []⟩ ⟨[], [], []⟩)) (b := true) (by decide!)
  exact ⟨w', hw, ((handle_file_copy_iff _ _ _ _ _ _ _ _ _ _ hw).1 (by decide!)).1⟩

end shrinkwrap

namespace shrinkwrap

section Specs

variable {C : Type}

/-- Outside the backends, `cvmfs_attr_cmp` changes nothing but the log, to
which it adds at most its one `is_hash_consistent` call on the source
record. -/
theorem cvmfs_attr_cmp_frame (s d : cvmfs_attr) (dest_fs : fs_traversal C) (w : World C)
    (b : Bool) (w' : World C) (h : cvmfs_attr_cmp (some s) (some d) dest_fs w = .ok (b, w')) :
    (w'.trace = w.trace ∨ ∃ r, w'.trace = w.trace ++ [Call.is_hash_consistent s r]) ∧
    w'.pstats = w.pstats ∧ w'.dirs_ = w.dirs_ ∧ w'.fsck_lock = w.fsck_lock ∧
    w'.copy_queue = w.copy_queue ∧ w'.pipe_chunks = w.pipe_chunks := by
  simp only [cvmfs_attr_cmp] at h
  repeat' split at h
  all_goals try cases h
  all_goals simp

/-! ### Rules for what a computation adds to the log -/

theorem logs_mono {α : Type} {x : M C α} {w : World C} {Q Q' : α → List Call → Prop}
    (h : logs x w Q) (hq : ∀ a ev, Q a ev → Q' a ev) : logs x w Q' :=
  post_mono _ _ _ _ h (fun a _ ⟨ev, h1, h2⟩ => ⟨ev, h1, hq a ev h2⟩)

theorem logs_bind {α β : Type} {x : M C α} {f : α → M C β} {w : World C}
    {R : α → List Call → Prop} {Q : β → List Call → Prop}
    (hx : logs x w R)
    (hf : ∀ a w1 ev1, R a ev1 → logs (f a) w1 (fun b ev2 => Q b (ev1 ++ ev2))) :
    logs (x >>= f) w Q := by
  unfold logs at *
  rw [post_bind]
  refine post_mono _ _ _ _ hx ?_
  rintro a w1 ⟨ev1, h1, ra⟩
  refine post_mono _ _ _ _ (hf a w1 ev1 ra) ?_
  rintro b w2 ⟨ev2, h2, qb⟩
  exact ⟨ev1 ++ ev2, by rw [h2, h1, List.append_assoc], qb⟩

theorem logs_of_frame {α : Type} {x : M C α} {w : World C} {Q : α → List Call → Prop}
    (h : post x w (fun a w' => w'.trace = w.trace ∧ Q a [])) : logs x w Q :=
  post_mono _ _ _ _ h (fun _ _ ⟨h1, h2⟩ => ⟨[], by simp [h1], h2⟩)

theorem logs_pure {α : Type} {a : α} {w : World C} {Q : α → List Call → Prop}
    (h : Q a []) : logs (pure a : M C α) w Q :=
  logs_of_frame (by rw [post_pure]; exact ⟨rfl, h⟩)

theorem logs_call {α : Type} {p : Slot} {op : Op C α} {w : World C}
    {Q : α → List Call → Prop} (h : Q (w.call p op).1 []) : logs (call p op) w Q :=
  logs_of_frame (by rw [post_call]; exact ⟨by simp, h⟩)

theorem logs_log {e : Call} {w : World C} {Q : Unit → List Call → Prop} (h : Q () [e]) :
    logs (log e) w Q := by
  unfold logs
  rw [post_log]
  exact ⟨[e], by simp, h⟩

theorem logs_Xadd {c : Stat} {n : Int} {w : World C} {Q : Unit → List Call → Prop}
    (h : Q () []) : logs (Xadd c n) w Q :=
  logs_of_frame (by rw [post_Xadd]; exact ⟨by simp, h⟩)

theorem logs_set_errno {e : Int} {w : World C} {Q : Unit → List Call → Prop}
    (h : Q () []) : logs (set_errno e) w Q :=
  logs_of_frame (by rw [post_set_errno]; exact ⟨rfl, h⟩)

theorem logs_get_errno {w : World C} {Q : Int → List Call → Prop}
    (h : Q w.errno []) : logs get_errno w Q :=
  logs_of_frame (by rw [post_get_errno]; exact ⟨rfl, h⟩)

theorem logs_add_dir_for_sync {d : String} {r : Bool} {w : World C}
    {Q : Unit → List Call → Prop} (h : Q () []) : logs (add_dir_for_sync d r) w Q :=
  logs_of_frame (by rw [post_add_dir_for_sync]; exact ⟨by simp, h⟩)

theorem logs_fault {α : Type} {f : Fault} {w : World C} {Q : α → List Call → Prop} :
    logs (fault f : M C α) w Q := by
  unfold logs
  rw [post_fault]
  trivial

theorem logs_ite {α : Type} {c : Prop} [Decidable c] {x y : M C α} {w : World C}
    {Q : α → List Call → Prop} (hx : c → logs x w Q) (hy : ¬c → logs y w Q) :
    logs (if c then x else y) w Q := by
  by_cases hc : c
  · simpa [hc] using hx hc
  · simpa [hc] using hy hc

/-- What a computation adds to the log is determined by the two states. -/
theorem logs_and {α : Type} {x : M C α} {w : World C} {Q Q' : α → List Call → Prop}
    (h : logs x w Q) (h' : logs x w Q') : logs x w (fun a ev => Q a ev ∧ Q' a ev) := by
  intro a w' e
  obtain ⟨ev, h1, h2⟩ := h a w' e
  obtain ⟨ev', h1', h2'⟩ := h' a w' e
  have : ev = ev' := List.append_cancel_left (h1.symm.trans h1')
  subst this
  exact ⟨ev, h1, h2, h2'⟩

theorem logs_of_emits {α : Type} {P : List Call → Prop} {x : M C α} {w : World C}
    {Q : α → Prop} (h : emits P x w Q) : logs x w (fun a ev => P ev ∧ Q a) := h

theorem visited_mono {cfg : Config} {fs : Slot} {is_src : Bool} {dir name : String}
    {ev : List Call} (pre post : List Call) (h : visited cfg fs is_src dir name ev) :
    visited cfg fs is_src dir name (pre ++ ev ++ post) := by
  rcases h with h | ⟨r, a, hr, h⟩ | ⟨a, h1, h2⟩
  · exact Or.inl h
  · exact Or.inr (Or.inl ⟨r, a, hr, by simp [h]⟩)
  · exact Or.inr (Or.inr ⟨a, by simp [h1], by simp [h2]⟩)

/-- What `getNext` adds to the log: the `get_stat` calls on the names it
passes, and its return when it has found an entry.  It passes every name
between the old and the new position of the iterator, and it finds nothing
only at the end of the listing. -/
theorem getNext_logs (cfg : Config) (fs : fs_traversal C) (dir : String)
    (dir_list : Option (List String)) (get_hash is_src : Bool) (fuel : Nat) (iter : Int)
    (st : cvmfs_attr) (w : World C) :
    logs (getNext cfg fs dir dir_list get_hash is_src fuel iter st) w (fun g ev =>
      getNext_post cfg fs.context_ is_src dir dir_list iter g.entry g.iter g.st ev) := by
  unfold getNext_post
  induction fuel generalizing iter st w with
  | zero => exact logs_fault
  | succ k ih =>
    unfold getNext
    cases dir_list with
    | none =>
      refine logs_pure ⟨by simp only []; omega, by simp, Or.inl ⟨rfl, by simp, by simp⟩⟩
    | some list =>
      refine logs_ite (fun _ => logs_fault) (fun hlen => ?_)
      cases hget : list.get? (iter + 1).toNat with
      | none =>
        refine logs_pure ⟨by simp only []; omega, ?_, Or.inl ⟨rfl, by simp, ?_⟩⟩
        · intro l hl j hj1 hj2 name hn
          cases hl
          have hj3 : (j : Int) ≤ ((iter + 1).toNat : Int) := hj2
          have : j = (iter + 1).toNat := by omega
          subst this
          rw [hget] at hn
          cases hn
        · intro l hl
          cases hl
          have := List.get?_eq_none.mp hget
          show (list.length : Int) ≤ ((iter + 1).toNat : Int)
          omega
      | some name =>
        have hmem : name ∈ list := List.get?_mem hget
        have step : ∀ (ev1 : List Call) (g : GetNext) (ev2 : List Call),
            visited cfg fs.context_ is_src dir name ev1 →
            ((iter + 1).toNat : Int) < g.iter →
            (∀ l, some list = some l → ∀ j : Nat, ((iter + 1).toNat : Int) < j →
              (j : Int) ≤ g.iter → ∀ n, l.get? j = some n →
              visited cfg fs.context_ is_src dir n ev2) →
            ∀ l, some list = some l → ∀ j : Nat, iter < j → (j : Int) ≤ g.iter → ∀ n,
              l.get? j = some n → visited cfg fs.context_ is_src dir n (ev1 ++ ev2) := by
          intro ev1 g ev2 hv hlt hg l hl j hj1 hj2 n hn
          cases hl
          by_cases hj : j = (iter + 1).toNat
          · subst hj
            rw [hget] at hn
            cases hn
            simpa using visited_mono [] ev2 hv
          · have := hg _ rfl j (by omega) hj2 n hn
            simpa using visited_mono ev1 [] this
        simp only []
        refine logs_ite (fun hf => ?_) (fun hf => ?_)
        · refine logs_mono (ih _ _ _) ?_
          rintro g ev ⟨h1, h2, h3⟩
          refine ⟨by omega, ?_, h3⟩
          have := step [] g ev (Or.inl (by simpa using hf)) h1 h2
          simpa using this
        · unfold updateStat
          simp only [bind_assoc, pure_bind]
          refine logs_bind (R := fun r ev => ev = []) (logs_call rfl) (fun r w1 ev1 h1 => ?_)
          subst h1
          refine logs_bind (R := fun _ ev => ev =
            [Call.get_stat fs.context_ (get_full_path dir name) r.1 r.2]) (logs_log rfl)
            (fun _ w2 ev2 h2 => ?_)
          subst h2
          refine logs_ite (fun hr => ?_) (fun hr => ?_)
          · refine logs_mono (ih _ _ _) ?_
            rintro g ev ⟨h1, h2, h3⟩
            refine ⟨by omega, ?_, ?_⟩
            · refine step _ g ev (Or.inr (Or.inl ⟨r.1, r.2, ?_, by simp⟩)) h1 h2
              simpa using hr
            · rcases h3 with ⟨he, hm, hl⟩ | ⟨n, pre, he, hev, hm, hlist⟩
              · refine Or.inl ⟨he, ?_, hl⟩
                intro e hmem
                simp only [List.nil_append, List.cons_append, List.mem_cons] at hmem
                rcases hmem with rfl | hmem
                · rfl
                · exact hm e hmem
              · refine Or.inr ⟨n, Call.get_stat fs.context_ (get_full_path dir name) r.1 r.2 :: pre, he,
                  by simp [hev], ?_, hlist⟩
                intro e hmem
                simp only [List.mem_cons] at hmem
                rcases hmem with rfl | hmem
                · rfl
                · exact hm e hmem
          · refine logs_bind (R := fun _ ev => ev = []) (logs_Xadd rfl) (fun _ w3 ev3 h3 => ?_)
            subst h3
            refine logs_bind (R := fun _ ev => ev =
              [Call.getNext is_src dir (get_full_path dir name) r.2]) (logs_log rfl)
              (fun _ w4 ev4 h4 => ?_)
            subst h4
            have hr0 : r.1 = 0 := by simpa using hr
            refine logs_pure ⟨by simp only []; omega, ?_, Or.inr ⟨name, _, rfl, rfl, ?_,
              ⟨list, rfl, hmem⟩, fun hs => ?_⟩⟩
            · intro l hl j hj1 hj2 n hn
              cases hl
              have hj3 : (j : Int) ≤ ((iter + 1).toNat : Int) := hj2
              have : j = (iter + 1).toNat := by omega
              subst this
              rw [hget] at hn
              cases hn
              refine Or.inr (Or.inr ⟨r.2, ?_, by simp⟩)
              rw [← hr0]
              simp
            · intro e hmem
              simp only [List.nil_append, List.mem_singleton] at hmem
              subst hmem
              rfl
            · subst hs
              simpa using hf

/-! ### Properties of the log kept by every run -/

section Emits

variable {cfg : Config} {src dest : fs_traversal C} {D : String → Prop}
  {P : List Call → Prop}

theorem emits_mono {α : Type} {x : M C α} {w : World C} {Q Q' : α → Prop}
    (h : emits P x w Q) (hq : ∀ a, Q a → Q' a) : emits P x w Q' :=
  post_mono _ _ _ _ h (fun a _ ⟨ev, h1, h2, h3⟩ => ⟨ev, h1, h2, hq a h3⟩)

theorem emits_bind {α β : Type} (hP : Emits cfg src dest D P) {x : M C α} {f : α → M C β}
    {w : World C} {R : α → Prop} {Q : β → Prop}
    (hx : emits P x w R) (hf : ∀ a w1, R a → emits P (f a) w1 Q) :
    emits P (x >>= f) w Q := by
  unfold emits at *
  rw [post_bind]
  refine post_mono _ _ _ _ hx ?_
  rintro a w1 ⟨ev1, h1, p1, ra⟩
  refine post_mono _ _ _ _ (hf a w1 ra) ?_
  rintro b w2 ⟨ev2, h2, p2, qb⟩
  exact ⟨ev1 ++ ev2, by rw [h2, h1, List.append_assoc], hP.append _ _ p1 p2, qb⟩

theorem emits_pure {α : Type} (hP : Emits cfg src dest D P) {a : α} {w : World C}
    {Q : α → Prop} (h : Q a) : emits P (pure a : M C α) w Q := by
  unfold emits
  rw [post_pure]
  exact ⟨[], by simp, hP.nil, h⟩

theorem emits_of_frame {α : Type} (hP : Emits cfg src dest D P) {x : M C α} {w : World C}
    {Q : α → Prop} (h : post x w (fun a w' => w'.trace = w.trace ∧ Q a)) :
    emits P x w Q :=
  post_mono _ _ _ _ h (fun _ _ ⟨h1, h2⟩ => ⟨[], by simp [h1], hP.nil, h2⟩)

theorem emits_call {α : Type} (hP : Emits cfg src dest D P) {p : Slot} {op : Op C α}
    {w : World C} {Q : α → Prop} (h : Q (w.call p op).1) : emits P (call p op) w Q :=
  emits_of_frame hP (by rw [post_call]; exact ⟨by simp, h⟩)

theorem emits_call' {α : Type} (hP : Emits cfg src dest D P) {p : Slot} {op : Op C α}
    {w : World C} : emits P (call p op) w (fun _ => True) :=
  emits_call hP trivial

theorem emits_Xadd (hP : Emits cfg src dest D P) {c : Stat} {n : Int} {w : World C} :
    emits P (Xadd c n) w (fun _ => True) :=
  emits_of_frame hP (by rw [post_Xadd]; exact ⟨by simp, trivial⟩)

theorem emits_set_errno (hP : Emits cfg src dest D P) {e : Int} {w : World C} :
    emits P (set_errno e) w (fun _ => True) :=
  emits_of_frame hP (by rw [post_set_errno]; exact ⟨rfl, trivial⟩)

theorem emits_get_errno (hP : Emits cfg src dest D P) {w : World C} :
    emits P (get_errno) w (fun _ => True) :=
  emits_of_frame hP (by rw [post_get_errno]; exact ⟨rfl, trivial⟩)

theorem emits_add_dir_for_sync (hP : Emits cfg src dest D P) {d : String} {r : Bool}
    {w : World C} : emits P (add_dir_for_sync d r) w (fun _ => True) :=
  emits_of_frame hP (by rw [post_add_dir_for_sync]; exact ⟨by simp, trivial⟩)

theorem emits_log (e : Call) (h : P [e]) {w : World C} :
    emits P (log e) w (fun _ => True) := by
  unfold emits
  rw [post_log]
  exact ⟨[e], by simp, h, trivial⟩

theorem emits_fault {α : Type} {f : Fault} {w : World C} {Q : α → Prop} :
    emits P (fault f : M C α) w Q := by
  unfold emits
  rw [post_fault]
  trivial

theorem emits_ite {α : Type} {c : Prop} [Decidable c] {x y : M C α} {w : World C}
    {Q : α → Prop} (hx : c → emits P x w Q) (hy : ¬c → emits P y w Q) :
    emits P (if c then x else y) w Q := by
  by_cases hc : c
  · simpa [hc] using hx hc
  · simpa [hc] using hy hc

theorem emits_of_minor (hP : Emits cfg src dest D P) (ev : List Call)
    (h : ∀ e ∈ ev, Call.minor e = true) : P ev := by
  induction ev with
  | nil => exact hP.nil
  | cons e t ih =>
    have := hP.append [e] t (hP.minor e (h e (by simp))) (ih (fun x hx => h x (by simp [hx])))
    simpa using this

theorem getNext_emits (hP : Emits cfg src dest D P) (fs : fs_traversal C) (dir : String)
    (hD : D dir) (dir_list : Option (List String)) (get_hash is_src : Bool) (fuel : Nat)
    (iter : Int) (st : cvmfs_attr) (w : World C) :
    emits P (getNext cfg fs dir dir_list get_hash is_src fuel iter st) w
      (fun g => ∀ e, g.entry = some e → D e) := by
  refine post_mono _ _ _ _ (getNext_logs cfg fs dir dir_list get_hash is_src fuel iter st w) ?_
  rintro g w' ⟨ev, ht, -, -, h⟩
  rcases h with ⟨he, hm, -⟩ | ⟨name, pre, he, hev, hm, -⟩
  · exact ⟨ev, ht, emits_of_minor hP ev hm, by simp [he]⟩
  · refine ⟨ev, ht, ?_, ?_⟩
    · rw [hev]
      exact hP.append _ _ (emits_of_minor hP pre hm) (hP.getNext _ _ _ _ hD)
    · intro e hee
      rw [he] at hee
      cases hee
      exact hP.child _ _ hD

theorem cvmfs_attr_cmp_emits (hP : Emits cfg src dest D P) (s d : cvmfs_attr)
    (dest_fs : fs_traversal C) (w : World C) :
    emits P (cvmfs_attr_cmp (some s) (some d) dest_fs : M C Bool) w (fun _ => True) := by
  intro b w' h
  obtain ⟨ht, -⟩ := cvmfs_attr_cmp_frame s d dest_fs w b w' h
  rcases ht with ht | ⟨r, ht⟩
  · exact ⟨[], by simp [ht], hP.nil, trivial⟩
  · exact ⟨_, ht, hP.minor _ rfl, trivial⟩

theorem Sync_equivalent_emits (hP : Emits cfg src dest D P) (dest_fs : fs_traversal C)
    (l : SyncLocals) (w : World C) :
    emits P (Sync_equivalent dest_fs l) w (fun _ => True) := by
  unfold Sync_equivalent
  refine emits_ite (fun _ => ?_) (fun _ => emits_pure hP trivial)
  refine emits_bind hP (cvmfs_attr_cmp_emits hP _ _ _ _) (fun equal w1 _ => ?_)
  refine emits_bind hP (emits_log _ (hP.minor _ (by rfl))) (fun _ w2 _ => ?_)
  refine emits_ite (fun _ => ?_) (fun _ => emits_pure hP trivial)
  split
  · exact emits_pure hP trivial
  · refine emits_bind hP (emits_call' hP) (fun c w3 _ => ?_)
    exact emits_bind hP (emits_log _ (hP.minor _ (by rfl))) (fun _ w4 _ => emits_pure hP trivial)

theorem handle_dir_emits (hP : Emits cfg src dest D P) (src_fs : fs_traversal C)
    (src_st : cvmfs_attr) (dest_fs : fs_traversal C) (dest_st : cvmfs_attr) (entry : String)
    (w : World C) :
    emits P (handle_dir src_fs src_st dest_fs dest_st entry) w (fun _ => True) := by
  unfold handle_dir
  refine emits_bind hP (emits_call' hP) (fun made w1 _ => ?_)
  refine emits_bind hP (emits_log _ (hP.minor _ (by rfl))) (fun _ w2 _ => ?_)
  refine emits_ite (fun _ => ?_) (fun _ => emits_pure hP trivial)
  refine emits_bind hP (emits_get_errno hP) (fun e w3 _ => ?_)
  refine emits_ite (fun _ => ?_) (fun _ => emits_pure hP trivial)
  refine emits_bind hP (emits_set_errno hP) (fun _ w4 _ => ?_)
  refine emits_bind hP (emits_call' hP) (fun set w5 _ => ?_)
  refine emits_bind hP (emits_log _ (hP.minor _ (by rfl))) (fun _ w6 _ => ?_)
  exact emits_ite (fun _ => emits_pure hP trivial) (fun _ => emits_pure hP trivial)

theorem handle_file_emits (hP : Emits cfg src dest D P) (fuel : Nat)
    (src_st dest_st : cvmfs_attr) (entry : String) (w : World C) :
    emits P (handle_file cfg fuel src src_st dest dest_st entry) w (fun _ => True) := by
  intro r w' h
  obtain ⟨cs, ls, htr, -⟩ := handle_file_spec cfg fuel src src_st dest dest_st entry w r w' h
  rw [List.append_assoc, List.append_assoc] at htr
  exact ⟨_, htr, hP.handle_file _ _ _ _ _ _ _ _ h htr, trivial⟩

theorem Sync_src_emits (hP : Emits cfg src dest D P) (fuel : Nat) (recursive : Bool)
    (l : SyncLocals) (src_entry : String) (w : World C) :
    emits P (Sync_src cfg fuel src dest recursive l src_entry) w
      (fun step => ∀ l', step = LoopStep.next l' → l' = l) := by
  unfold Sync_src
  refine emits_bind hP (Sync_equivalent_emits hP _ _ _) (fun eq w1 _ => ?_)
  refine emits_ite (fun _ => ?_) (fun _ => ?_)
  · refine emits_bind hP (R := fun _ => True) ?_ (fun _ w2 _ => emits_pure hP ?_)
    · exact emits_ite (fun _ => emits_add_dir_for_sync hP) (fun _ => emits_pure hP trivial)
    · intro l' h; cases h; rfl
  refine emits_ite (fun _ => ?_) (fun _ => ?_)
  · refine emits_bind hP (handle_file_emits hP _ _ _ _ _) (fun ok w2 _ => ?_)
    refine emits_ite (fun _ => emits_pure hP ?_) (fun _ => emits_pure hP ?_)
    · intro l' h; cases h
    · intro l' h; cases h; rfl
  refine emits_ite (fun _ => ?_) (fun _ => ?_)
  · refine emits_bind hP (handle_dir_emits hP _ _ _ _ _ _) (fun ok w2 _ => ?_)
    refine emits_ite (fun _ => emits_pure hP ?_) (fun _ => ?_)
    · intro l' h; cases h
    · refine emits_bind hP (R := fun _ => True) ?_ (fun _ w3 _ => emits_pure hP ?_)
      · exact emits_ite (fun _ => emits_add_dir_for_sync hP) (fun _ => emits_pure hP trivial)
      · intro l' h; cases h; rfl
  refine emits_ite (fun _ => ?_) (fun _ => emits_pure hP ?_)
  · refine emits_bind hP (emits_call' hP) (fun ret w2 _ => ?_)
    refine emits_bind hP (emits_log _ (hP.minor _ (by rfl))) (fun _ w3 _ => ?_)
    refine emits_ite (fun _ => emits_pure hP ?_) (fun _ => emits_pure hP ?_)
    · intro l' h; cases h
    · intro l' h; cases h; rfl
  · intro l' h; cases h

theorem Sync_dest_emits (hP : Emits cfg src dest D P) (dest_fs : fs_traversal C)
    (nested : String → M C Bool) (l : SyncLocals) (dest_entry : String)
    (hn : ∀ w, emits P (nested dest_entry) w (fun _ => True)) (w : World C) :
    emits P (Sync_dest dest_fs nested l dest_entry) w
      (fun step => ∀ l', step = LoopStep.next l' → l' = l) := by
  unfold Sync_dest
  refine emits_ite (fun _ => ?_) (fun _ => ?_)
  · refine emits_bind hP (emits_call' hP) (fun ret w2 _ => ?_)
    refine emits_bind hP (emits_log _ (hP.minor _ (by rfl))) (fun _ w3 _ => ?_)
    refine emits_ite (fun _ => emits_pure hP ?_) (fun _ => emits_pure hP ?_)
    · intro l' h; cases h
    · intro l' h; cases h; rfl
  refine emits_ite (fun _ => ?_) (fun _ => emits_pure hP ?_)
  · refine emits_bind hP (hn _) (fun _ w1 _ => ?_)
    refine emits_bind hP (emits_call' hP) (fun ret w2 _ => ?_)
    refine emits_bind hP (emits_log _ (hP.minor _ (by rfl))) (fun _ w3 _ => ?_)
    refine emits_ite (fun _ => emits_pure hP ?_) (fun _ => emits_pure hP ?_)
    · intro l' h; cases h
    · intro l' h; cases h; rfl
  · intro l' h; cases h

theorem Sync_next_src_emits (hP : Emits cfg src dest D P) (src_fs : fs_traversal C)
    (dir : String) (hD : D dir) (src_dir : Option (List String)) (l : SyncLocals)
    (w : World C) :
    emits P (Sync_next_src cfg src_fs dir src_dir l) w
      (fun l' => l'.dest_entry = l.dest_entry) := by
  unfold Sync_next_src
  refine emits_ite (fun _ => ?_) (fun _ => emits_pure hP rfl)
  refine emits_bind hP (getNext_emits hP _ _ hD _ _ _ _ _ _ _) (fun g w1 _ => ?_)
  exact emits_pure hP rfl

theorem Sync_next_dest_emits (hP : Emits cfg src dest D P) (dest_fs : fs_traversal C)
    (dir : String) (hD : D dir) (do_fsck : Bool) (dest_dir : Option (List String))
    (l : SyncLocals) (hl : ∀ e, l.dest_entry = some e → D e) (w : World C) :
    emits P (Sync_next_dest cfg dest_fs dir do_fsck dest_dir l) w
      (fun l' => ∀ e, l'.dest_entry = some e → D e) := by
  unfold Sync_next_dest
  refine emits_ite (fun _ => ?_) (fun _ => ?_)
  · refine emits_bind hP (getNext_emits hP _ _ hD _ _ _ _ _ _ _) (fun g w1 hg => ?_)
    exact emits_pure hP hg
  · exact emits_bind hP (emits_Xadd hP) (fun _ w1 _ => emits_pure hP hl)

theorem Sync_body_emits (hP : Emits cfg src dest D P) (fuel : Nat) (dir : String)
    (hD : D dir) (recursive do_fsck : Bool) (src_dir dest_dir : Option (List String))
    (nested : String → M C Bool)
    (hn : ∀ d, D d → ∀ w, emits P (nested d) w (fun _ => True))
    (l : SyncLocals) (hl : ∀ e, l.dest_entry = some e → D e) (w : World C) :
    emits P (Sync_body cfg fuel src dest dir recursive do_fsck src_dir dest_dir nested l) w
      (fun step => ∀ l', step = LoopStep.next l' → ∀ e, l'.dest_entry = some e → D e) := by
  unfold Sync_body
  refine emits_bind hP (Sync_next_src_emits hP _ _ hD _ _ _) (fun l1 w1 h1 => ?_)
  refine emits_bind hP (Sync_next_dest_emits hP _ _ hD _ _ _ (by rw [h1]; exact hl) _)
    (fun l2 w2 h2 => ?_)
  have hs : ∀ (c : Int) (s : String) (w : World C),
      emits P (Sync_src cfg fuel src dest recursive { l2 with cmp := c } s) w
        (fun step => ∀ l', step = LoopStep.next l' → ∀ e, l'.dest_entry = some e → D e) :=
    fun c s w => emits_mono (Sync_src_emits hP _ _ _ _ _)
      (fun step hstep l' hl' e he => h2 e (by rw [hstep l' hl'] at he; exact he))
  have hd : ∀ (c : Int) (d : String) (w : World C), D d →
      emits P (Sync_dest dest nested { l2 with cmp := c } d) w
        (fun step => ∀ l', step = LoopStep.next l' → ∀ e, l'.dest_entry = some e → D e) :=
    fun c d w hdd => emits_mono (Sync_dest_emits hP _ _ _ _ (hn d hdd) _)
      (fun step hstep l' hl' e he => h2 e (by rw [hstep l' hl'] at he; exact he))
  split
  · exact emits_pure hP (by intro l' h; cases h)
  · rename_i d hsrc hdst
    exact hd _ _ _ (h2 d hdst)
  · exact hs _ _ _
  · rename_i s d hsrc hdst
    exact emits_ite (fun _ => hs _ _ _) (fun _ => hd _ _ _ (h2 d hdst))

theorem Sync_loop_emits (hP : Emits cfg src dest D P) (Ok : SyncLocals → Prop)
    (body : SyncLocals → M C LoopStep)
    (hb : ∀ l w, Ok l → emits P (body l) w
      (fun step => ∀ l', step = LoopStep.next l' → Ok l'))
    (n : Nat) (l : SyncLocals) (hl : Ok l) (w : World C) :
    emits P (Sync_loop body n l) w (fun _ => True) := by
  induction n generalizing l w with
  | zero => exact emits_fault
  | succ k ih =>
    unfold Sync_loop
    refine emits_bind hP (hb l w hl) (fun step w1 hstep => ?_)
    cases step with
    | done r => exact emits_pure hP trivial
    | next l' => exact ih l' (hstep l' rfl) w1

theorem list_src_dir_emits (hP : Emits cfg src dest D P) (src_fs : fs_traversal C)
    (dir : String) (w : World C) :
    emits P (list_src_dir cfg src_fs dir) w (fun _ => True) := by
  unfold list_src_dir
  split
  · exact emits_pure hP trivial
  · refine emits_bind hP (emits_call' hP) (fun _ _ _ => ?_)
    exact emits_bind hP (emits_log _ (hP.minor _ (by rfl))) (fun _ _ _ => emits_pure hP trivial)

/-- Every run of `Sync` on a directory in `D` adds to the log a sequence of
calls with the property `P`. -/
theorem Sync_emits (hP : Emits cfg src dest D P) (fuel : Nat) (dir : String) (hD : D dir)
    (recursive do_fsck : Bool) (w : World C) :
    emits P (Sync cfg src dest fuel dir recursive do_fsck) w (fun _ => True) := by
  induction fuel generalizing dir recursive do_fsck w with
  | zero => exact emits_fault
  | succ k ih =>
    unfold Sync
    refine emits_bind hP (list_src_dir_emits hP _ _ _) (fun src_dir w1 _ => ?_)
    refine emits_bind hP (emits_call' hP) (fun dest_dir w2 _ => ?_)
    refine emits_bind hP (emits_log _ (hP.minor _ (by rfl))) (fun _ w3 _ => ?_)
    refine Sync_loop_emits hP (fun l => ∀ e, l.dest_entry = some e → D e) _ ?_ _ _ ?_ _
    · intro l w hl
      exact Sync_body_emits hP _ _ hD _ _ _ _ _ (fun d hd w => ih d hd true false w) l hl w
    · intro e he; cases he

end Emits

end Specs

end shrinkwrap

namespace shrinkwrap

section AtMostOnce

variable {C : Type}

theorem SyncFull_loop_emits {cfg : Config} {src dest : fs_traversal C}
    {P : List Call → Prop} (hP : Emits cfg src dest (fun _ => True) P) (do_fsck : Bool)
    (fuel : Nat) (w : World C) :
    emits P (SyncFull_loop cfg src dest do_fsck fuel) w (fun _ => True) := by
  induction fuel generalizing w with
  | zero => exact emits_fault
  | succ k ih =>
    unfold SyncFull_loop
    refine emits_bind hP (R := fun _ => True)
      (emits_of_frame hP (by rw [post_dirs_pop]; exact ⟨by simp, trivial⟩)) (fun back w1 _ => ?_)
    split
    · exact emits_pure hP trivial
    · split
      · exact emits_pure hP trivial
      · refine emits_bind hP (Sync_emits hP _ _ trivial _ _ _) (fun ok w2 _ => ?_)
        exact emits_ite (fun _ => emits_pure hP trivial) (fun _ => ih _)

theorem SyncFull_emits {cfg : Config} {src dest : fs_traversal C}
    {P : List Call → Prop} (hP : Emits cfg src dest (fun _ => True) P) (do_fsck : Bool)
    (fuel : Nat) (w : World C) :
    emits P (SyncFull cfg fuel src dest do_fsck) w (fun _ => True) := by
  unfold SyncFull
  refine emits_bind hP (R := fun _ => True) (emits_of_frame hP ?_)
    (fun _ w1 _ => SyncFull_loop_emits hP _ _ _)
  intro a w' h
  have : w' = if w.dirs_.isEmpty then w.push_dir ⟨some "", true⟩ else w := by
    have h' : (Except.ok ((), if w.dirs_.isEmpty then w.push_dir ⟨some "", true⟩ else w)
        : Res (Unit × World C)) = Except.ok (a, w') := h
    simp only [Except.ok.injEq, Prod.mk.injEq] at h'
    exact h'.2.symm
  rw [this]
  split_ifs <;> simp

theorem condition_events_count (dest : fs_traversal C) (src_st dest_st : cvmfs_attr)
    (w : World C) (ident : cvmfs_attr → Option String) (X : Option String) :
    (condition_events dest src_st dest_st w).countP (Call.copies_to X) = 0 ∧
    (copy_required dest src_st dest_st w = true → ident src_st = X →
      1 ≤ (condition_events dest src_st dest_st w).countP (Call.created ident X)
        + (condition_events dest src_st dest_st w).countP Call.lock_won) := by
  unfold condition_events copy_required
  by_cases h0 : (w.call dest.context_ (dest.touch src_st)).1 = 0
  · refine ⟨by simp [h0, Call.copies_to], fun _ hx => ?_⟩
    simp [h0, Call.created, Call.lock_won, hx, List.countP_cons]
  · cases hck : dest_st.cvm_checksum.isSome
    · simp [h0, hck, Call.copies_to]
    · cases hcons : ((w.call dest.context_ (dest.touch src_st)).2.call dest.context_
          (dest.is_hash_consistent dest_st)).1
      · by_cases hin : dest_st.st_ino ∈ w.fsck_lock.locks_
        · simp [h0, hck, hcons, hin, Call.copies_to]
        · simp [h0, hck, hcons, hin, Call.copies_to, Call.created, Call.lock_won]
      · simp [h0, hck, hcons, Call.copies_to]

theorem copies_bounded_emits (cfg : Config) (src dest : fs_traversal C)
    (ident : cvmfs_attr → Option String)
    (hid : ∀ st c e, (dest.get_identifier st c e).1 = ident st) :
    Emits cfg src dest (fun _ => True) (copies_bounded ident) where
  nil := by intro X; simp
  append := by
    intro a b ha hb X
    have := ha X
    have := hb X
    simp only [List.countP_append]
    omega
  minor := by
    intro e he X
    cases e <;> simp_all [Call.minor, Call.is_getNext, Call.is_copyFile, Call.is_WritePipe,
      Call.copies_to]
  getNext := by
    intro s d e st _ X
    simp [Call.copies_to]
  child := fun _ _ _ => trivial
  handle_file := by
    intro fuel src_st dest_st entry w r w' ev h htr X
    obtain ⟨cs, ls, htr', -, -, -, -, hyes, hno, hls⟩ :=
      handle_file_spec cfg fuel src src_st dest dest_st entry w r w' h
    have hev : ev = condition_events dest src_st dest_st
        (w.call dest.context_ (dest.get_identifier src_st)).2 ++ cs ++ ls := by
      rw [htr, List.append_assoc, List.append_assoc] at htr'
      have := List.append_cancel_left htr'
      rw [this, List.append_assoc]
    have hl : ls.countP (Call.copies_to X) = 0 := by
      rcases hls with ⟨l, rfl, -⟩ | ⟨rfl, -⟩ <;> simp [Call.copies_to]
    have hdd : (w.call dest.context_ (dest.get_identifier src_st)).1 = ident src_st :=
      hid _ _ _
    rw [hev]
    simp only [List.countP_append, hl]
    obtain ⟨hz, hone⟩ := condition_events_count dest src_st dest_st
      (w.call dest.context_ (dest.get_identifier src_st)).2 ident X
    cases hc : copy_required dest src_st dest_st
      (w.call dest.context_ (dest.get_identifier src_st)).2
    · obtain ⟨rfl, -⟩ := hno hc
      simp only [List.countP_nil]
      omega
    · obtain ⟨-, -, hpar, hinl⟩ := hyes hc
      have hcs : cs.countP (Call.copies_to X) ≤
          if (w.call dest.context_ (dest.get_identifier src_st)).1 = X then 1 else 0 := by
        by_cases hp : cfg.num_parallel_ = 0
        · obtain ⟨si, rfl, -⟩ := hinl hp
          split_ifs with hx <;> simp [Call.copies_to, hx]
        · obtain ⟨si, d, hd, rfl, -⟩ := hpar hp
          rw [hd]
          split_ifs with hx <;> simp [Call.copies_to, hx]
      by_cases hx : (w.call dest.context_ (dest.get_identifier src_st)).1 = X
      · have := hone hc (by rw [← hdd, hx])
        rw [if_pos hx] at hcs
        omega
      · rw [if_neg hx] at hcs
        omega

/-- C3, amended: when the destination derives the identifier from the attributes
alone (`ident`), what a run of `Sync` or of `SyncFull` adds to the log has, for
every identifier, at most as many copies to it as `touch` calls that reported it
created plus fsck lock claims won; so when `touch` reports every identifier
created at most once, the copies to an identifier are at most one plus the
number of fsck lock claims won. -/
theorem copies_at_most_once (cfg : Config) (src dest : fs_traversal C)
    (ident : cvmfs_attr → Option String)
    (hid : ∀ st c e, (dest.get_identifier st c e).1 = ident st)
    (fuel : Nat) (dir : String) (recursive do_fsck : Bool) (w : World C) (r : Bool)
    (w' : World C)
    (h : Sync cfg src dest fuel dir recursive do_fsck w = .ok (r, w') ∨
         SyncFull cfg fuel src dest do_fsck w = .ok (r, w')) :
    ∃ ev, w'.trace = w.trace ++ ev ∧
      ((∀ X, ev.countP (Call.created ident X) ≤ 1) →
        ∀ X, ev.countP (Call.copies_to X) ≤ 1 + ev.countP Call.lock_won) := by
  have hP := copies_bounded_emits cfg src dest ident hid
  have key : ∃ ev, w'.trace = w.trace ++ ev ∧ copies_bounded ident ev ∧ True := by
    rcases h with h | h
    · exact Sync_emits hP fuel dir trivial recursive do_fsck w r w' h
    · exact SyncFull_emits hP do_fsck fuel w r w' h
  obtain ⟨ev, htr, hb, -⟩ := key
  refine ⟨ev, htr, fun hc X => ?_⟩
  have := hb X
  have := hc X
  omega

end AtMostOnce

/-- C3 as stated fails in fsck mode: no `touch` reports "created", yet two
copies go to the identifier `h1`, one for each damaged destination inode. -/
theorem copies_twice_in_fsck_mode :
    Res.result toy_fsck_run = some true ∧
    (∀ X, (Res.world (toy_world toy_twins toy_damaged) toy_fsck_run).trace.countP
      (Call.created (fun st => st.cvm_checksum) X) ≤ 1) ∧
    (Res.world (toy_world toy_twins toy_damaged) toy_fsck_run).trace.countP
      (Call.copies_to (some "h1")) = 2 := by
  have h0 : (Res.world (toy_world toy_twins toy_damaged) toy_fsck_run).trace.countP
      Call.touch_created = 0 := by decide!
  refine ⟨by decide!, fun X => ?_, by decide!⟩
  have hle : (Res.world (toy_world toy_twins toy_damaged) toy_fsck_run).trace.countP
      (Call.created (fun st => st.cvm_checksum) X) ≤
      (Res.world (toy_world toy_twins toy_damaged) toy_fsck_run).trace.countP
        Call.touch_created := by
    apply List.countP_mono_left
    intro e _ he
    cases e <;> simp_all [Call.created, Call.touch_created]
  omega

/-- C3, amended, on the in-memory backend: two files of the same content are
copied once. -/
theorem copies_at_most_once_witness :
    ∃ w', toy_twins_run = .ok (true, w') ∧
      ∃ ev, w'.trace = (toy_world toy_twins ⟨[], [], []⟩).trace ++ ev ∧
        ((∀ X, ev.countP (Call.created (fun st => st.cvm_checksum) X) ≤ 1) →
          ∀ X, ev.countP (Call.copies_to X) ≤ 1 + ev.countP Call.lock_won) := by
  obtain ⟨w', hw⟩ := result_some (x := toy_twins_run) (b := true) (by decide!)
  exact ⟨w', hw, copies_at_most_once (toy_cfg 0) (toy_fs Slot.src) (toy_fs Slot.dest)
    (fun st => st.cvm_checksum) (fun _ _ _ => rfl) 2 "" true false _ true w' (Or.inl hw)⟩

end shrinkwrap

namespace shrinkwrap

section Logs

variable {C : Type}

/-! ### File types -/

theorem S_ISREG_iff (m : Nat) : S_ISREG m = true ↔ m &&& S_IFMT = S_IFREG := by
  simp [S_ISREG]

theorem S_ISDIR_iff (m : Nat) : S_ISDIR m = true ↔ m &&& S_IFMT = S_IFDIR := by
  simp [S_ISDIR]

theorem S_ISLNK_iff (m : Nat) : S_ISLNK m = true ↔ m &&& S_IFMT = S_IFLNK := by
  simp [S_ISLNK]

theorem not_dir_of_reg_or_lnk (m : Nat)
    (h : m &&& S_IFMT = S_IFREG ∨ m &&& S_IFMT = S_IFLNK) : ¬ S_ISDIR m = true := by
  rw [S_ISDIR_iff]
  intro hd
  rcases h with h | h <;> rw [hd] at h <;> revert h <;> decide

theorem not_reg_lnk_of_dir (m : Nat) (h : m &&& S_IFMT = S_IFDIR) :
    ¬ (S_ISREG m = true ∨ S_ISLNK m = true) := by
  rw [S_ISREG_iff, S_ISLNK_iff]
  rintro (h' | h') <;> rw [h] at h' <;> revert h' <;> decide

/-! ### No return of `getNext` for the directory above -/

theorem get_full_path_length (dir entry : String) :
    (get_full_path dir entry).length = dir.length + 1 + entry.length := by
  simp [get_full_path, String.length_append]
  rfl

theorem condition_events_not_getNext (dest : fs_traversal C) (src_st dest_st : cvmfs_attr)
    (w : World C) : ∀ e ∈ condition_events dest src_st dest_st w, e.is_getNext = false := by
  unfold condition_events
  intro e he
  split_ifs at he <;> simp at he <;> rcases he with rfl | rfl | rfl <;> rfl

theorem handle_file_not_getNext (cfg : Config) (fuel : Nat) (src : fs_traversal C)
    (src_st : cvmfs_attr) (dest : fs_traversal C) (dest_st : cvmfs_attr) (entry : String)
    (w : World C) :
    logs (handle_file cfg fuel src src_st dest dest_st entry) w (fun r ev =>
      (∀ e ∈ ev, e.is_getNext = false) ∧
      (r = true → ∃ ident, Call.do_link entry ident 0 ∈ ev)) := by
  intro r w' h
  obtain ⟨cs, ls, htr, -, -, -, -, hyes, hno, hls⟩ :=
    handle_file_spec cfg fuel src src_st dest dest_st entry w r w' h
  rw [List.append_assoc, List.append_assoc] at htr
  refine ⟨_, htr, ?_, ?_⟩
  · have hcs : ∀ e ∈ cs, e.is_getNext = false := by
      cases hc : copy_required dest src_st dest_st
        (w.call dest.context_ (dest.get_identifier src_st)).2
      · obtain ⟨rfl, -⟩ := hno hc; simp
      · obtain ⟨-, -, hpar, hinl⟩ := hyes hc
        by_cases hp : cfg.num_parallel_ = 0
        · obtain ⟨si, rfl, -⟩ := hinl hp
          intro e he; simp at he; subst he; rfl
        · obtain ⟨si, d, -, rfl, -⟩ := hpar hp
          intro e he; simp at he; subst he; rfl
    have hls' : ∀ e ∈ ls, e.is_getNext = false := by
      rcases hls with ⟨l, rfl, -⟩ | ⟨rfl, -⟩
      · intro e he; simp at he; subst he; rfl
      · simp
    intro e he
    simp only [List.mem_append] at he
    rcases he with he | he | he
    · exact condition_events_not_getNext _ _ _ _ e he
    · exact hcs e he
    · exact hls' e he
  · intro hr
    rcases hls with ⟨l, rfl, hl⟩ | ⟨-, hf, -⟩
    · have hl0 := hl.mp hr
      subst hl0
      exact ⟨_, List.mem_append_right _ (List.mem_append_right _ (List.mem_singleton.mpr rfl))⟩
    · rw [hr] at hf; cases hf

theorem no_getNext_emits (cfg : Config) (src dest : fs_traversal C) (dir : String) :
    Emits cfg src dest (fun d => dir.length < d.length) (no_getNext_on dir) where
  nil := by intro e he; simp at he
  append := by
    intro a b ha hb e he
    rcases List.mem_append.mp he with h | h
    · exact ha e h
    · exact hb e h
  minor := by
    intro e he x hx s E a heq
    simp only [List.mem_singleton] at hx
    subst hx
    subst heq
    simp [Call.minor, Call.is_getNext] at he
  getNext := by
    intro s d e st hd x hx s' E a heq
    simp only [List.mem_singleton] at hx
    subst hx
    simp only [Call.getNext.injEq] at heq
    rw [heq.2.1] at hd
    exact absurd hd (lt_irrefl _)
  child := by
    intro d n hd
    rw [get_full_path_length]
    omega
  handle_file := by
    intro fuel src_st dest_st entry w r w' ev h htr e he s E a heq
    obtain ⟨ev', htr', hng, -⟩ :=
      handle_file_not_getNext cfg fuel src src_st dest dest_st entry w r w' h
    have : ev = ev' := List.append_cancel_left (htr.symm.trans htr')
    subst this
    have := hng e he
    rw [heq] at this
    simp [Call.is_getNext] at this

/-! ### What the two branches of the loop body achieve -/

theorem cvmfs_attr_cmp_logs (s d : cvmfs_attr) (dest_fs : fs_traversal C) (w : World C) :
    logs (cvmfs_attr_cmp (some s) (some d) dest_fs : M C Bool) w (fun _ _ => True) := by
  intro b w' h
  obtain ⟨ht, -⟩ := cvmfs_attr_cmp_frame s d dest_fs w b w' h
  rcases ht with ht | ⟨r, ht⟩
  · exact ⟨[], by simp [ht], trivial⟩
  · exact ⟨_, ht, trivial⟩

theorem Sync_equivalent_done (dest : fs_traversal C) (l : SyncLocals) (w : World C) :
    logs (Sync_equivalent dest l) w (fun eq ev => eq = true →
      l.cmp = 0 ∧ Call.cvmfs_attr_cmp l.src_st l.dest_st true ∈ ev ∧
      (l.dest_st.cvm_checksum = none ∨ Call.is_hash_consistent l.dest_st true ∈ ev)) := by
  unfold Sync_equivalent
  refine logs_ite (fun hc => ?_) (fun _ => logs_pure (by intro h; cases h))
  refine logs_bind (cvmfs_attr_cmp_logs _ _ _ _) (fun equal w1 ev1 _ => ?_)
  refine logs_bind (R := fun _ ev => ev = [Call.cvmfs_attr_cmp l.src_st l.dest_st equal])
    (logs_log rfl) (fun _ w2 ev2 h2 => ?_)
  subst h2
  refine logs_ite (fun he => ?_) (fun _ => logs_pure (by intro h; cases h))
  subst he
  split
  · rename_i hck
    exact logs_pure (fun _ => ⟨hc, by simp, Or.inl hck⟩)
  · refine logs_bind (R := fun c _ => c = (w2.call dest.context_
      (dest.is_hash_consistent l.dest_st)).1) (logs_call rfl) (fun c w3 ev3 h3 => ?_)
    refine logs_bind (R := fun _ ev => ev = [Call.is_hash_consistent l.dest_st c])
      (logs_log rfl) (fun _ w4 ev4 h4 => ?_)
    subst h4
    refine logs_pure (fun hcc => ⟨hc, by simp, Or.inr ?_⟩)
    subst hcc
    simp

theorem handle_dir_done (src : fs_traversal C) (src_st : cvmfs_attr) (dest : fs_traversal C)
    (dest_st : cvmfs_attr) (entry : String) (w : World C) :
    logs (handle_dir src src_st dest dest_st entry) w (fun ok ev => ok = true →
      (Call.do_mkdir entry src_st 0 ∈ ev ∨
        ∃ r, r ≠ 0 ∧ Call.do_mkdir entry src_st r ∈ ev ∧ Call.set_meta entry src_st 0 ∈ ev)) := by
  unfold handle_dir
  refine logs_bind (R := fun _ ev => ev = []) (logs_call rfl) (fun made w1 ev1 h1 => ?_)
  subst h1
  refine logs_bind (R := fun _ ev => ev = [Call.do_mkdir entry src_st made])
    (logs_log rfl) (fun _ w2 ev2 h2 => ?_)
  subst h2
  refine logs_ite (fun hm => ?_) (fun hm => logs_pure (fun _ => Or.inl ?_))
  · refine logs_bind (R := fun _ ev => ev = []) (logs_get_errno rfl) (fun e w3 ev3 h3 => ?_)
    subst h3
    refine logs_ite (fun _ => ?_) (fun _ => logs_pure (by intro h; cases h))
    refine logs_bind (R := fun _ ev => ev = []) (logs_set_errno rfl) (fun _ w4 ev4 h4 => ?_)
    subst h4
    refine logs_bind (R := fun _ ev => ev = []) (logs_call rfl) (fun set w5 ev5 h5 => ?_)
    subst h5
    refine logs_bind (R := fun _ ev => ev = [Call.set_meta entry src_st set])
      (logs_log rfl) (fun _ w6 ev6 h6 => ?_)
    subst h6
    refine logs_ite (fun _ => logs_pure (by intro h; cases h)) (fun hs => logs_pure ?_)
    intro _
    simp only [ne_eq, not_not] at hs
    subst hs
    exact Or.inr ⟨made, hm, by simp, by simp⟩
  · simp only [ne_eq, not_not] at hm
    subst hm
    simp

theorem Sync_src_done (cfg : Config) (fuel : Nat) (src dest : fs_traversal C)
    (recursive : Bool) (l : SyncLocals) (src_entry : String) (w : World C) :
    logs (Sync_src cfg fuel src dest recursive l src_entry) w (fun step ev =>
      step ≠ LoopStep.done false → step = LoopStep.next l ∧ src_done l src_entry ev) := by
  unfold Sync_src
  refine logs_bind (Sync_equivalent_done dest l w) (fun eq w1 ev1 h1 => ?_)
  refine logs_ite (fun he => ?_) (fun _ => ?_)
  · refine logs_bind (R := fun _ ev => ev = []) ?_ (fun _ w2 ev2 h2 => logs_pure ?_)
    · exact logs_ite (fun _ => logs_add_dir_for_sync rfl) (fun _ => logs_pure rfl)
    · subst h2
      intro _
      refine ⟨rfl, ?_⟩
      simpa [src_done] using Or.inl (h1 he)
  refine logs_ite (fun hreg => ?_) (fun _ => ?_)
  · refine logs_bind (handle_file_not_getNext cfg fuel src _ dest _ _ _)
      (fun ok w2 ev2 h2 => ?_)
    refine logs_ite (fun _ => logs_pure (fun h => absurd rfl h)) (fun hok => logs_pure ?_)
    intro _
    simp only [Bool.not_eq_true, Bool.not_eq_false_eq_eq_true, Bool.not_eq_eq_eq_not,
      Bool.not_true, Bool.not_false] at hok
    obtain ⟨ident, hi⟩ := h2.2 (by simpa using hok)
    exact ⟨rfl, Or.inr (Or.inl ⟨(S_ISREG_iff _).mpr hreg, ident, by simp [hi]⟩)⟩
  refine logs_ite (fun hdir => ?_) (fun _ => ?_)
  · refine logs_bind (handle_dir_done src _ dest _ _ _) (fun ok w2 ev2 h2 => ?_)
    refine logs_ite (fun _ => logs_pure (fun h => absurd rfl h)) (fun hok => ?_)
    refine logs_bind (R := fun _ ev => ev = []) ?_ (fun _ w3 ev3 h3 => logs_pure ?_)
    · exact logs_ite (fun _ => logs_add_dir_for_sync rfl) (fun _ => logs_pure rfl)
    · subst h3
      intro _
      refine ⟨rfl, Or.inr (Or.inr (Or.inl ⟨(S_ISDIR_iff _).mpr hdir, ?_⟩))⟩
      rcases h2 (by simpa using hok) with hm | ⟨r, hr, hm, hs⟩
      · exact Or.inl (by simp [hm])
      · exact Or.inr ⟨r, hr, by simp [hm], by simp [hs]⟩
  refine logs_ite (fun hlnk => ?_) (fun _ => logs_pure (fun h => absurd rfl h))
  refine logs_bind (R := fun r ev => ev = [] ∧ r = (w1.call dest.context_
    (dest.do_symlink src_entry l.src_st.cvm_symlink l.src_st)).1) (logs_call ⟨rfl, rfl⟩)
    (fun ret w2 ev2 h2 => ?_)
  refine logs_bind
    (R := fun _ ev => ev = [Call.do_symlink src_entry l.src_st.cvm_symlink l.src_st ret])
    (logs_log rfl) (fun _ w3 ev3 h3 => ?_)
  subst h3
  refine logs_ite (fun _ => logs_pure (fun h => absurd rfl h)) (fun hr => logs_pure ?_)
  intro _
  simp only [ne_eq, not_not] at hr
  subst hr
  exact ⟨rfl, Or.inr (Or.inr (Or.inr ⟨(S_ISLNK_iff _).mpr hlnk, by simp⟩))⟩

theorem Sync_dest_done (dest : fs_traversal C) (nested : String → M C Bool)
    (l : SyncLocals) (dest_entry : String) (P : List Call → Prop)
    (hn : ∀ w, logs (nested dest_entry) w (fun _ ev => P ev)) (w : World C) :
    logs (Sync_dest dest nested l dest_entry) w (fun step ev =>
      step ≠ LoopStep.done false → step = LoopStep.next l ∧
        ((S_ISREG l.dest_st.st_mode = true ∨ S_ISLNK l.dest_st.st_mode = true) →
          ev = [Call.do_unlink dest_entry 0]) ∧
        (S_ISDIR l.dest_st.st_mode = true →
          ∃ sub, P sub ∧ ev = sub ++ [Call.do_rmdir dest_entry 0])) := by
  unfold Sync_dest
  refine logs_ite (fun hf => ?_) (fun hf => ?_)
  · refine logs_bind (R := fun _ ev => ev = []) (logs_call rfl) (fun ret w2 ev2 h2 => ?_)
    subst h2
    refine logs_bind (R := fun _ ev => ev = [Call.do_unlink dest_entry ret])
      (logs_log rfl) (fun _ w3 ev3 h3 => ?_)
    subst h3
    refine logs_ite (fun _ => logs_pure (fun h => absurd rfl h)) (fun hr => logs_pure ?_)
    intro _
    simp only [ne_eq, not_not] at hr
    subst hr
    refine ⟨rfl, fun _ => by simp, fun hd => ?_⟩
    exact absurd hd (not_dir_of_reg_or_lnk l.dest_st.st_mode hf)
  refine logs_ite (fun hd => ?_) (fun _ => logs_pure (fun h => absurd rfl h))
  refine logs_bind (hn w) (fun _ w1 ev1 h1 => ?_)
  refine logs_bind (R := fun _ ev => ev = []) (logs_call rfl) (fun ret w2 ev2 h2 => ?_)
  subst h2
  refine logs_bind (R := fun _ ev => ev = [Call.do_rmdir dest_entry ret])
    (logs_log rfl) (fun _ w3 ev3 h3 => ?_)
  subst h3
  refine logs_ite (fun _ => logs_pure (fun h => absurd rfl h)) (fun hr => logs_pure ?_)
  intro _
  simp only [ne_eq, not_not] at hr
  subst hr
  refine ⟨rfl, fun h => ?_, fun _ => ⟨ev1, h1, by simp⟩⟩
  exact absurd (h.imp (S_ISREG_iff _).mp (S_ISLNK_iff _).mp) hf

/-! ### The invariant of the loop of `Sync` -/

theorem getNext_not_minor {ev : List Call} (hm : ∀ e ∈ ev, Call.minor e = true)
    (s : Bool) (d X : String) (a : cvmfs_attr) : Call.getNext s d X a ∉ ev := by
  intro h
  have := hm _ h
  simp [Call.minor, Call.is_getNext] at this

theorem dest_resolved_mono {dir E : String} {a : cvmfs_attr} {ev : List Call}
    (ev' : List Call) (h : dest_resolved dir E a ev) : dest_resolved dir E a (ev ++ ev') := by
  rcases h with ⟨a', h⟩ | ⟨h1, h2⟩
  · exact Or.inl ⟨a', List.mem_append_left _ h⟩
  · exact Or.inr ⟨fun h => List.mem_append_left _ (h1 h),
      fun h => List.mem_append_left _ (h2 h)⟩

theorem src_resolved_mono {dir E : String} {a : cvmfs_attr} {ev : List Call}
    (ev' : List Call) (h : src_resolved dir E a ev) : src_resolved dir E a (ev ++ ev') := by
  rcases h with ⟨a_d, h1, h2, h3⟩ | ⟨h1, i, h2⟩ | ⟨h1, h2⟩ | ⟨h1, h2⟩
  · exact Or.inl ⟨a_d, List.mem_append_left _ h1, List.mem_append_left _ h2,
      h3.imp id (List.mem_append_left _)⟩
  · exact Or.inr (Or.inl ⟨h1, i, List.mem_append_left _ h2⟩)
  · refine Or.inr (Or.inr (Or.inl ⟨h1, ?_⟩))
    rcases h2 with h2 | ⟨r, hr, h2, h3⟩
    · exact Or.inl (List.mem_append_left _ h2)
    · exact Or.inr ⟨r, hr, List.mem_append_left _ h2, List.mem_append_left _ h3⟩
  · exact Or.inr (Or.inr (Or.inr ⟨h1, List.mem_append_left _ h2⟩))

/-- Calls that are no returns of `getNext` on `dir` keep the invariant. -/
theorem Sync_held_append {dir : String} {sh dh : Prop} {l : SyncLocals} {ev ev' : List Call}
    (h : Sync_held dir sh dh l ev) (hn : no_getNext_on dir ev') :
    Sync_held dir sh dh l (ev ++ ev') := by
  obtain ⟨hd, hs, h3, h4⟩ := h
  have key : ∀ s X a, Call.getNext s dir X a ∈ ev ++ ev' → Call.getNext s dir X a ∈ ev := by
    intro s X a hm
    rcases List.mem_append.mp hm with hm | hm
    · exact hm
    · exact absurd rfl (hn _ hm s X a)
  refine ⟨fun E a hm => ?_, fun E a hm => ?_, fun E hE => List.mem_append_left _ (h3 E hE),
    fun E hE => ⟨List.mem_append_left _ (h4 E hE).1, (h4 E hE).2⟩⟩
  · exact (hd E a (key _ _ _ hm)).imp (dest_resolved_mono _) id
  · exact (hs E a (key _ _ _ hm)).imp (src_resolved_mono _) id

/-- The source iterator moves: the entry returned is the one held back. -/
theorem Sync_held_next_src {dir : String} {dh : Prop} {l : SyncLocals} {ev0 ev : List Call}
    {cfg : Config} {fs : Slot} {dl : Option (List String)} {e : Option String} {i : Int}
    {s : cvmfs_attr} (h : Sync_held dir (0 < l.cmp) dh l ev0) (hc : l.cmp ≤ 0)
    (hp : getNext_post cfg fs true dir dl l.src_iter e i s ev) :
    Sync_held dir True dh { l with src_entry := e, src_iter := i, src_st := s }
      (ev0 ++ ev) := by
  obtain ⟨hd, hs, h3, h4⟩ := h
  obtain ⟨-, -, hp⟩ := hp
  have key : ∀ sd X a, Call.getNext sd dir X a ∈ ev0 ++ ev →
      Call.getNext sd dir X a ∈ ev0 ∨ (sd = true ∧ e = some X ∧ s = a) := by
    intro sd X a hm
    rcases List.mem_append.mp hm with hm | hm
    · exact Or.inl hm
    · rcases hp with ⟨-, hmin, -⟩ | ⟨name, pre, he, hev, hmin, -⟩
      · exact absurd hm (getNext_not_minor hmin _ _ _ _)
      · rw [hev] at hm
        rcases List.mem_append.mp hm with hm | hm
        · exact absurd hm (getNext_not_minor hmin _ _ _ _)
        · simp only [List.mem_singleton, Call.getNext.injEq] at hm
          obtain ⟨h1, -, h2, h3⟩ := hm
          exact Or.inr ⟨h1, by rw [he, h2], h3.symm⟩
  refine ⟨fun E a hm => ?_, fun E a hm => ?_, fun E hE => ?_,
    fun E hE => ⟨List.mem_append_left _ (h4 E hE).1, (h4 E hE).2⟩⟩
  · rcases key false E a hm with h0 | ⟨hf, -⟩
    · exact (hd E a h0).imp (dest_resolved_mono _) id
    · cases hf
  · rcases key true E a hm with h0 | ⟨-, he, hs'⟩
    · rcases hs E a h0 with r | ⟨hc', -⟩
      · exact Or.inl (src_resolved_mono _ r)
      · omega
    · exact Or.inr ⟨trivial, he, hs'⟩
  · have hE' : e = some E := hE
    rcases hp with ⟨he, -, -⟩ | ⟨name, pre, he, hev, -, -⟩
    · rw [he] at hE'
      cases hE'
    · rw [he] at hE'
      cases hE'
      rw [hev]
      simp

/-- The destination iterator moves: the entry returned is the one held back. -/
theorem Sync_held_next_dest {dir : String} {sh : Prop} {l : SyncLocals} {ev0 ev : List Call}
    {cfg : Config} {fs : Slot} {dl : Option (List String)} {e : Option String} {i : Int}
    {s : cvmfs_attr} (h : Sync_held dir sh (l.cmp < 0) l ev0) (hc : 0 ≤ l.cmp)
    (hp : getNext_post cfg fs false dir dl l.dest_iter e i s ev) :
    Sync_held dir sh True { l with dest_entry := e, dest_iter := i, dest_st := s }
      (ev0 ++ ev) := by
  obtain ⟨hd, hs, h3, h4⟩ := h
  obtain ⟨-, -, hp⟩ := hp
  have key : ∀ sd X a, Call.getNext sd dir X a ∈ ev0 ++ ev →
      Call.getNext sd dir X a ∈ ev0 ∨ (sd = false ∧ e = some X ∧ s = a) := by
    intro sd X a hm
    rcases List.mem_append.mp hm with hm | hm
    · exact Or.inl hm
    · rcases hp with ⟨-, hmin, -⟩ | ⟨name, pre, he, hev, hmin, -⟩
      · exact absurd hm (getNext_not_minor hmin _ _ _ _)
      · rw [hev] at hm
        rcases List.mem_append.mp hm with hm | hm
        · exact absurd hm (getNext_not_minor hmin _ _ _ _)
        · simp only [List.mem_singleton, Call.getNext.injEq] at hm
          obtain ⟨h1, -, h2, h3⟩ := hm
          exact Or.inr ⟨h1, by rw [he, h2], h3.symm⟩
  refine ⟨fun E a hm => ?_, fun E a hm => ?_, fun E hE => List.mem_append_left _ (h3 E hE),
    fun E hE => ?_⟩
  · rcases key false E a hm with h0 | ⟨-, he, hs'⟩
    · rcases hd E a h0 with r | ⟨hc', -⟩
      · exact Or.inl (dest_resolved_mono _ r)
      · omega
    · exact Or.inr ⟨trivial, he, hs'⟩
  · rcases key true E a hm with h0 | ⟨hf, -⟩
    · exact (hs E a h0).imp (src_resolved_mono _) id
    · cases hf
  · have hE' : e = some E := hE
    rcases hp with ⟨he, -, -⟩ | ⟨name, pre, he, hev, -, -⟩
    · rw [he] at hE'
      cases hE'
    · rw [he] at hE'
      cases hE'
      rw [hev, get_full_path_length]
      exact ⟨by simp, by omega⟩

/-- The branch `cmp <= 0` has dealt with the source entry. -/
theorem Sync_held_src_branch {dir S : String} {l : SyncLocals} {c : Int} {ev ev3 : List Call}
    (h : Sync_held dir True True l ev) (hS : l.src_entry = some S) (hc : c ≤ 0)
    (hc0 : c = 0 → l.dest_entry = some S) (hn : no_getNext_on dir ev3)
    (hdone : src_done { l with cmp := c } S ev3) :
    Sync_inv dir { l with cmp := c } (ev ++ ev3) := by
  obtain ⟨hd, hs, h3, h4⟩ := Sync_held_append h hn
  refine ⟨fun E a hm => ?_, fun E a hm => ?_, h3, h4⟩
  · rcases hd E a hm with r | ⟨-, he, ha⟩
    · exact Or.inl r
    · by_cases hlt : c < 0
      · exact Or.inr ⟨hlt, he, ha⟩
      · have hE := hc0 (by omega)
        rw [he] at hE
        cases hE
        exact Or.inl (Or.inl ⟨l.src_st, h3 _ hS⟩)
  · rcases hs E a hm with r | ⟨-, he, ha⟩
    · exact Or.inl r
    · rw [hS] at he
      cases he
      subst ha
      refine Or.inl ?_
      rcases hdone with ⟨h0, h1, h2⟩ | ⟨h1, i, h2⟩ | ⟨h1, h2⟩ | ⟨h1, h2⟩
      · exact Or.inl ⟨l.dest_st, (h4 S (hc0 h0)).1, List.mem_append_right _ h1,
          h2.imp id (List.mem_append_right _)⟩
      · exact Or.inr (Or.inl ⟨h1, i, List.mem_append_right _ h2⟩)
      · refine Or.inr (Or.inr (Or.inl ⟨h1, ?_⟩))
        rcases h2 with h2 | ⟨r, hr, h2, h5⟩
        · exact Or.inl (List.mem_append_right _ h2)
        · exact Or.inr ⟨r, hr, List.mem_append_right _ h2, List.mem_append_right _ h5⟩
      · exact Or.inr (Or.inr (Or.inr ⟨h1, List.mem_append_right _ h2⟩))

/-- The branch `cmp > 0` has dealt with the destination entry. -/
theorem Sync_held_dest_branch {dir D : String} {l : SyncLocals} {c : Int}
    {ev ev3 : List Call} (h : Sync_held dir True True l ev) (hD : l.dest_entry = some D)
    (hc : 0 < c) (hn : no_getNext_on dir ev3)
    (hrm : ((S_ISREG l.dest_st.st_mode = true ∨ S_ISLNK l.dest_st.st_mode = true) →
        Call.do_unlink D 0 ∈ ev3) ∧
      (S_ISDIR l.dest_st.st_mode = true → Call.do_rmdir D 0 ∈ ev3)) :
    Sync_inv dir { l with cmp := c } (ev ++ ev3) := by
  obtain ⟨hd, hs, h3, h4⟩ := Sync_held_append h hn
  refine ⟨fun E a hm => ?_, fun E a hm => ?_, h3, h4⟩
  · rcases hd E a hm with r | ⟨-, he, ha⟩
    · exact Or.inl r
    · rw [hD] at he
      cases he
      subst ha
      exact Or.inl (Or.inr ⟨fun h => List.mem_append_right _ (hrm.1 h),
        fun h => List.mem_append_right _ (hrm.2 h)⟩)
  · rcases hs E a hm with r | ⟨-, he, ha⟩
    · exact Or.inl r
    · exact Or.inr ⟨hc, he, ha⟩

/-! ### The walks pass every name of the listings -/

theorem getNext_post_other {cfg : Config} {fs : Slot} {s : Bool} {dir : String}
    {dl : Option (List String)} {iter : Int} {e : Option String} {i : Int} {st : cvmfs_attr}
    {ev : List Call} (hp : getNext_post cfg fs s dir dl iter e i st ev) (E : String)
    (a : cvmfs_attr) : Call.getNext (!s) dir E a ∉ ev := by
  intro hm
  rcases hp.2.2 with ⟨-, hmin, -⟩ | ⟨name, pre, -, hev, hmin, -⟩
  · exact getNext_not_minor hmin _ _ _ _ hm
  · rw [hev] at hm
    rcases List.mem_append.mp hm with hm | hm
    · exact getNext_not_minor hmin _ _ _ _ hm
    · simp only [List.mem_singleton, Call.getNext.injEq] at hm
      cases s <;> simp at hm

theorem covered_mono {cfg : Config} {fs : Slot} {s : Bool} {dir : String}
    {dl : Option (List String)} {m m' : Prop} {iter : Int} {entry : Option String}
    {ev : List Call} (ev' : List Call) (h : covered cfg fs s dir dl m iter entry ev)
    (hm : m → m') (hn : ∀ E a, Call.getNext s dir E a ∉ ev') :
    covered cfg fs s dir dl m' iter entry (ev ++ ev') := by
  refine ⟨fun list hl k hk name hn => ?_, fun he => ?_, fun E a hmem => ?_⟩
  · simpa using visited_mono [] ev' (h.1 list hl k hk name hn)
  · rcases h.2.1 he with h1 | h1
    · exact Or.inl (hm h1)
    · exact Or.inr (fun list hl name hn => by simpa using visited_mono [] ev' (h1 list hl name hn))
  · rcases List.mem_append.mp hmem with h1 | h1
    · exact h.2.2 E a h1
    · exact absurd h1 (hn E a)

theorem covered_next {cfg : Config} {fs : Slot} {s : Bool} {dir : String}
    {dl : Option (List String)} {m : Prop} {iter : Int} {entry : Option String}
    {ev0 ev : List Call} {e : Option String} {i : Int} {st : cvmfs_attr}
    (h : covered cfg fs s dir dl m iter entry ev0)
    (hp : getNext_post cfg fs s dir dl iter e i st ev) :
    covered cfg fs s dir dl False i e (ev0 ++ ev) := by
  obtain ⟨hlt, hv, hp⟩ := hp
  have first : ∀ list, dl = some list → ∀ k : Nat, (k : Int) ≤ i → ∀ name,
      list.get? k = some name → visited cfg fs s dir name (ev0 ++ ev) := by
    intro list hl k hk name hn
    by_cases hki : (k : Int) ≤ iter
    · simpa using visited_mono [] ev (h.1 list hl k hki name hn)
    · simpa using visited_mono ev0 [] (hv list hl k (by omega) hk name hn)
  refine ⟨first, fun he => Or.inr ?_, fun E a hmem => ?_⟩
  · rcases hp with ⟨-, -, hlen⟩ | ⟨name, pre, he', -, -⟩
    · intro list hl name hn
      obtain ⟨k, hk, hget⟩ := List.mem_iff_getElem.mp hn
      have := hlen list hl
      refine first list hl k (by omega) name ?_
      rw [List.get?_eq_getElem?, List.getElem?_eq_getElem hk, hget]
    · rw [he'] at he
      cases he
  · rcases List.mem_append.mp hmem with h1 | h1
    · exact h.2.2 E a h1
    · rcases hp with ⟨-, hmin, -⟩ | ⟨name, pre, -, hev, hmin, ⟨list, hl, hn⟩, hmatch⟩
      · exact absurd h1 (getNext_not_minor hmin _ _ _ _)
      · rw [hev] at h1
        rcases List.mem_append.mp h1 with h1 | h1
        · exact absurd h1 (getNext_not_minor hmin _ _ _ _)
        · simp only [List.mem_singleton, Call.getNext.injEq] at h1
          obtain ⟨-, -, hE, -⟩ := h1
          subst hE
          exact ⟨list, name, hl, hn, rfl, hmatch⟩

theorem covered_stay {cfg : Config} {fs : Slot} {s : Bool} {dir : String}
    {dl : Option (List String)} {m : Prop} {iter : Int} {entry : Option String}
    {ev : List Call} (h : covered cfg fs s dir dl m iter entry ev) (hm : ¬m) :
    covered cfg fs s dir dl False iter entry ev :=
  ⟨h.1, fun he => (h.2.1 he).imp (fun x => hm x) id, h.2.2⟩

theorem no_getNext_on_side {dir : String} {ev : List Call} (h : no_getNext_on dir ev)
    (s : Bool) (E : String) (a : cvmfs_attr) : Call.getNext s dir E a ∉ ev :=
  fun hm => h _ hm s E a rfl

/-! ### One pass through the loop of `Sync` -/

theorem Sync_held_weaken {dir : String} {sh dh sh' dh' : Prop} {l : SyncLocals}
    {ev : List Call} (h : Sync_held dir sh dh l ev) (hs : sh → sh') (hd : dh → dh') :
    Sync_held dir sh' dh' l ev :=
  ⟨fun E a hm => (h.1 E a hm).imp id (fun x => ⟨hd x.1, x.2⟩),
   fun E a hm => (h.2.1 E a hm).imp id (fun x => ⟨hs x.1, x.2⟩), h.2.2⟩

theorem Sync_next_src_inv (cfg : Config) (src : fs_traversal C) (dfs : Slot) (dir : String)
    (src_dir dest_dir : Option (List String)) (dm : Prop) (l : SyncLocals)
    (ev0 : List Call) (h : Sync_inv dir l ev0)
    (hcov : Sync_cover cfg src.context_ dfs dir src_dir dest_dir (l.cmp ≤ 0) dm l ev0)
    (w : World C) :
    logs (Sync_next_src cfg src dir src_dir l) w (fun l1 ev =>
      l1.cmp = l.cmp ∧ Sync_held dir True (l1.cmp < 0) l1 (ev0 ++ ev) ∧
      Sync_cover cfg src.context_ dfs dir src_dir dest_dir False dm l1 (ev0 ++ ev)) := by
  unfold Sync_next_src
  refine logs_ite (fun hc => ?_) (fun hc => logs_pure ?_)
  · refine logs_bind (getNext_logs cfg src dir src_dir true true _ _ _ _)
      (fun g w1 ev1 hg => logs_pure ?_)
    simp only [List.append_nil]
    exact ⟨trivial, Sync_held_next_src h hc hg, covered_next hcov.1 hg,
      covered_mono _ hcov.2 id (getNext_post_other hg)⟩
  · simp only [List.append_nil]
    exact ⟨trivial, Sync_held_weaken h (fun _ => trivial) id, covered_stay hcov.1 hc, hcov.2⟩

theorem Sync_next_dest_inv (cfg : Config) (sfs : Slot) (dest : fs_traversal C) (dir : String)
    (do_fsck : Bool) (src_dir dest_dir : Option (List String)) (l : SyncLocals)
    (ev0 : List Call) (h : Sync_held dir True (l.cmp < 0) l ev0)
    (hcov : Sync_cover cfg sfs dest.context_ dir src_dir dest_dir False (0 ≤ l.cmp) l ev0)
    (w : World C) :
    logs (Sync_next_dest cfg dest dir do_fsck dest_dir l) w (fun l2 ev =>
      Sync_held dir True True l2 (ev0 ++ ev) ∧
      Sync_cover cfg sfs dest.context_ dir src_dir dest_dir False False l2 (ev0 ++ ev)) := by
  unfold Sync_next_dest
  refine logs_ite (fun hc => ?_) (fun hc => ?_)
  · refine logs_bind (getNext_logs cfg dest dir dest_dir do_fsck false _ _ _ _)
      (fun g w1 ev1 hg => logs_pure ?_)
    simp only [List.append_nil]
    exact ⟨Sync_held_next_dest h hc hg, covered_mono _ hcov.1 id (getNext_post_other hg),
      covered_next hcov.2 hg⟩
  · refine logs_bind (R := fun _ ev => ev = []) (logs_Xadd rfl) (fun _ w1 ev1 h1 => ?_)
    subst h1
    refine logs_pure ?_
    simp only [List.append_nil]
    exact ⟨Sync_held_weaken h id (fun _ => trivial), hcov.1,
      covered_stay hcov.2 (by omega)⟩

theorem Sync_src_inv (cfg : Config) (fuel : Nat) (src dest : fs_traversal C) (dir : String)
    (recursive : Bool) (src_dir dest_dir : Option (List String)) (l : SyncLocals) (c : Int)
    (S : String) (ev : List Call) (h : Sync_held dir True True l ev)
    (hcov : Sync_cover cfg src.context_ dest.context_ dir src_dir dest_dir False False l ev)
    (hS : l.src_entry = some S) (hc : c ≤ 0) (hc0 : c = 0 → l.dest_entry = some S)
    (w : World C) :
    logs (Sync_src cfg fuel src dest recursive { l with cmp := c } S) w (fun step ev3 =>
      (∀ l', step = LoopStep.next l' → Sync_inv dir l' (ev ++ ev3) ∧
        Sync_cover cfg src.context_ dest.context_ dir src_dir dest_dir (l'.cmp ≤ 0)
          (0 ≤ l'.cmp) l' (ev ++ ev3)) ∧
      (step = LoopStep.done true →
        Sync_complete cfg src.context_ dest.context_ dir src_dir dest_dir (ev ++ ev3))) := by
  refine logs_mono (logs_and (Sync_src_done cfg fuel src dest recursive _ S w)
    (logs_of_emits (Sync_src_emits (no_getNext_emits cfg src dest dir) fuel recursive _ S w)))
    ?_
  rintro step ev3 ⟨hdone, hng, -⟩
  refine ⟨fun l' hl' => ?_, fun hd => ?_⟩
  · subst hl'
    obtain ⟨heq, hsd⟩ := hdone (by simp)
    cases heq
    exact ⟨Sync_held_src_branch h hS hc hc0 hng hsd,
      covered_mono _ hcov.1 (fun x => x.elim) (no_getNext_on_side hng _),
      covered_mono _ hcov.2 (fun x => x.elim) (no_getNext_on_side hng _)⟩
  · subst hd
    have := (hdone (by simp)).1
    cases this

theorem Sync_dest_inv (cfg : Config) (src dest : fs_traversal C) (dir : String)
    (src_dir dest_dir : Option (List String)) (nested : String → M C Bool)
    (l : SyncLocals) (c : Int) (D : String) (ev : List Call)
    (hn : ∀ w, emits (no_getNext_on dir) (nested D) w (fun _ => True))
    (h : Sync_held dir True True l ev)
    (hcov : Sync_cover cfg src.context_ dest.context_ dir src_dir dest_dir False False l ev)
    (hD : l.dest_entry = some D) (hc : 0 < c) (w : World C) :
    logs (Sync_dest dest nested { l with cmp := c } D) w (fun step ev3 =>
      (∀ l', step = LoopStep.next l' → Sync_inv dir l' (ev ++ ev3) ∧
        Sync_cover cfg src.context_ dest.context_ dir src_dir dest_dir (l'.cmp ≤ 0)
          (0 ≤ l'.cmp) l' (ev ++ ev3)) ∧
      (step = LoopStep.done true →
        Sync_complete cfg src.context_ dest.context_ dir src_dir dest_dir (ev ++ ev3))) := by
  refine logs_mono (logs_and
    (Sync_dest_done dest nested _ D (fun _ => True) (fun w => logs_mono (hn w)
      (fun _ _ _ => trivial)) w)
    (logs_of_emits (Sync_dest_emits (no_getNext_emits cfg src dest dir) dest nested _ D hn w)))
    ?_
  rintro step ev3 ⟨hdone, hng, -⟩
  refine ⟨fun l' hl' => ?_, fun hd => ?_⟩
  · subst hl'
    obtain ⟨heq, hu, hr⟩ := hdone (by simp)
    cases heq
    refine ⟨Sync_held_dest_branch h hD hc hng ⟨fun ht => ?_, fun ht => ?_⟩,
      covered_mono _ hcov.1 (fun x => x.elim) (no_getNext_on_side hng _),
      covered_mono _ hcov.2 (fun x => x.elim) (no_getNext_on_side hng _)⟩
    · rw [hu ht]
      simp
    · obtain ⟨sub, -, hev⟩ := hr ht
      rw [hev]
      simp
  · subst hd
    have := (hdone (by simp)).1
    cases this

end Logs

end shrinkwrap

namespace shrinkwrap

section Merge

variable {C : Type}

theorem Sync_body_inv (cfg : Config) (fuel : Nat) (src dest : fs_traversal C) (dir : String)
    (recursive do_fsck : Bool) (src_dir dest_dir : Option (List String))
    (nested : String → M C Bool)
    (hn : ∀ d, dir.length < d.length →
      ∀ w, emits (no_getNext_on dir) (nested d) w (fun _ => True))
    (l : SyncLocals) (ev0 : List Call) (h : Sync_inv dir l ev0)
    (hcov : Sync_cover cfg src.context_ dest.context_ dir src_dir dest_dir (l.cmp ≤ 0)
      (0 ≤ l.cmp) l ev0) (w : World C) :
    logs (Sync_body cfg fuel src dest dir recursive do_fsck src_dir dest_dir nested l) w
      (fun step ev =>
        (∀ l', step = LoopStep.next l' → Sync_inv dir l' (ev0 ++ ev) ∧
          Sync_cover cfg src.context_ dest.context_ dir src_dir dest_dir (l'.cmp ≤ 0)
            (0 ≤ l'.cmp) l' (ev0 ++ ev)) ∧
        (step = LoopStep.done true →
          Sync_complete cfg src.context_ dest.context_ dir src_dir dest_dir (ev0 ++ ev))) := by
  unfold Sync_body
  refine logs_bind (Sync_next_src_inv cfg src dest.context_ dir src_dir dest_dir _ l ev0 h
    hcov w) (fun l1 w1 ev1 h1 => ?_)
  obtain ⟨hc1, hh1, hcov1⟩ := h1
  rw [← hc1] at hcov1
  refine logs_bind (Sync_next_dest_inv cfg src.context_ dest dir do_fsck src_dir dest_dir l1
    (ev0 ++ ev1) hh1 hcov1 w1) (fun l2 w2 ev2 h2 => ?_)
  obtain ⟨hh2, hcov2⟩ := h2
  simp only [← List.append_assoc]
  split
  · rename_i hs hd
    refine logs_pure ⟨fun l' hl' => (by cases hl'), fun _ => ?_⟩
    simp only [List.append_nil]
    refine ⟨⟨fun E a hm => ?_, fun E a hm => ?_⟩, ?_, ?_, hcov2.1.2.2, hcov2.2.2.2⟩
    · rcases hh2.1 E a hm with r | ⟨-, he, -⟩
      · exact r
      · rw [hd] at he
        cases he
    · rcases hh2.2.1 E a hm with r | ⟨-, he, -⟩
      · exact r
      · rw [hs] at he
        cases he
    · exact (hcov2.1.2.1 hs).resolve_left id
    · exact (hcov2.2.2.1 hd).resolve_left id
  · rename_i D hs hd
    exact Sync_dest_inv cfg src dest dir src_dir dest_dir nested l2 1 D _
      (hn D (hh2.2.2.2 D hd).2) hh2 hcov2 hd (by decide) w2
  · rename_i S hs hd
    exact Sync_src_inv cfg fuel src dest dir recursive src_dir dest_dir l2 (-1) S _ hh2 hcov2
      hs (by decide) (fun h0 => absurd h0 (by decide)) w2
  · rename_i S D hs hd
    refine logs_ite (fun hc => ?_) (fun hc => ?_)
    · refine Sync_src_inv cfg fuel src dest dir recursive src_dir dest_dir l2 _ S _ hh2 hcov2
        hs hc (fun h0 => ?_) w2
      rw [hd, (strcmp_eq_zero S D).mp h0]
    · exact Sync_dest_inv cfg src dest dir src_dir dest_dir nested l2 _ D _
        (hn D (hh2.2.2.2 D hd).2) hh2 hcov2 hd (by omega) w2

theorem Sync_loop_inv (body : SyncLocals → M C LoopStep) (Inv : SyncLocals → List Call → Prop)
    (Fin : List Call → Prop)
    (hb : ∀ l ev0 w, Inv l ev0 → logs (body l) w (fun step ev =>
      (∀ l', step = LoopStep.next l' → Inv l' (ev0 ++ ev)) ∧
      (step = LoopStep.done true → Fin (ev0 ++ ev))))
    (n : Nat) (l : SyncLocals) (ev0 : List Call) (h : Inv l ev0) (w : World C) :
    logs (Sync_loop body n l) w (fun r ev => r = true → Fin (ev0 ++ ev)) := by
  induction n generalizing l ev0 w with
  | zero => exact logs_fault
  | succ k ih =>
    unfold Sync_loop
    refine logs_bind (hb l ev0 w h) (fun step w1 ev1 h1 => ?_)
    cases step with
    | done r =>
      refine logs_pure (fun hr => ?_)
      subst hr
      simpa using h1.2 rfl
    | next l' =>
      refine logs_mono (ih l' (ev0 ++ ev1) (h1.1 l' rfl) w1) ?_
      intro r ev hr
      simpa using hr

theorem src_listing_mono {cfg : Config} {fs : Slot} {dir : String}
    {src_dir : Option (List String)} {ev : List Call} (ev' : List Call)
    (h : src_listing cfg fs dir src_dir ev) : src_listing cfg fs dir src_dir (ev ++ ev') := by
  unfold src_listing at *
  split
  · rename_i buf hb
    simpa [hb] using h
  · rename_i hb
    simp only [hb] at h
    exact List.mem_append_left _ h

theorem list_src_dir_logs (cfg : Config) (src : fs_traversal C) (dir : String) (w : World C) :
    logs (list_src_dir cfg src dir) w (fun sd ev =>
      src_listing cfg src.context_ dir sd ev ∧ ∀ e ∈ ev, Call.minor e = true) := by
  unfold list_src_dir
  split
  · rename_i buf hb
    exact logs_pure ⟨by simp [src_listing, hb], by simp⟩
  · rename_i hb
    refine logs_bind (R := fun _ ev => ev = []) (logs_call rfl) (fun raw w1 ev1 h1 => ?_)
    subst h1
    refine logs_bind (R := fun _ ev => ev = [Call.list_dir src.context_ dir (raw.map qsort)])
      (logs_log rfl) (fun _ w2 ev2 h2 => ?_)
    subst h2
    refine logs_pure ⟨?_, ?_⟩
    · simp only [src_listing, hb]
      simp
    · intro e he
      simp only [List.nil_append, List.append_nil, List.mem_singleton] at he
      subst he
      rfl

/-- A run of `Sync` on `dir` that returns `true` has gone through both
listings to the end and has dealt with every entry `getNext` returned. -/
theorem Sync_complete_spec (cfg : Config) (src dest : fs_traversal C) (fuel : Nat)
    (dir : String) (recursive do_fsck : Bool) (w : World C) :
    logs (Sync cfg src dest fuel dir recursive do_fsck) w (fun r ev => r = true →
      ∃ src_dir dest_dir, src_listing cfg src.context_ dir src_dir ev ∧
        Call.list_dir dest.context_ dir dest_dir ∈ ev ∧
        Sync_complete cfg src.context_ dest.context_ dir src_dir dest_dir ev) := by
  cases fuel with
  | zero => exact logs_fault
  | succ k =>
    unfold Sync
    refine logs_bind (list_src_dir_logs cfg src dir w) (fun src_dir w1 ev1 h1 => ?_)
    refine logs_bind (R := fun _ ev => ev = []) (logs_call rfl) (fun dest_dir w2 ev2 h2 => ?_)
    subst h2
    refine logs_bind
      (R := fun _ ev => ev = [Call.list_dir dest.context_ dir (dest_dir.map qsort)])
      (logs_log rfl) (fun _ w3 ev3 h3 => ?_)
    subst h3
    have hmin : ∀ e ∈ ev1 ++ [Call.list_dir dest.context_ dir (dest_dir.map qsort)],
        Call.minor e = true := by
      intro e he
      rcases List.mem_append.mp he with he | he
      · exact h1.2 e he
      · simp only [List.mem_singleton] at he
        subst he
        rfl
    refine logs_mono (Sync_loop_inv _
      (fun l ev => Sync_inv dir l ev ∧ Sync_cover cfg src.context_ dest.context_ dir src_dir
        (dest_dir.map qsort) (l.cmp ≤ 0) (0 ≤ l.cmp) l ev)
      (Sync_complete cfg src.context_ dest.context_ dir src_dir (dest_dir.map qsort))
      (fun l ev0 w hl => Sync_body_inv cfg k src dest dir recursive do_fsck src_dir
        (dest_dir.map qsort) _
        (fun d hd w => Sync_emits (no_getNext_emits cfg src dest dir) k d hd true false w)
        l ev0 hl.1 hl.2 w)
      _ _ (ev1 ++ [Call.list_dir dest.context_ dir (dest_dir.map qsort)]) ⟨?_, ?_, ?_⟩ w3) ?_
    · refine ⟨fun E a hm => ?_, fun E a hm => ?_, fun E hE => (by cases hE),
        fun E hE => (by cases hE)⟩
      · exact absurd hm (getNext_not_minor hmin _ _ _ _)
      · exact absurd hm (getNext_not_minor hmin _ _ _ _)
    · exact ⟨fun list _ k hk => (by simp at hk; omega), fun _ => Or.inl (le_refl (0 : Int)),
        fun E a hm => absurd hm (getNext_not_minor hmin _ _ _ _)⟩
    · exact ⟨fun list _ k hk => (by simp at hk; omega), fun _ => Or.inl (le_refl (0 : Int)),
        fun E a hm => absurd hm (getNext_not_minor hmin _ _ _ _)⟩
    · intro r ev hr ht
      have hc := hr ht
      simp only [List.nil_append, List.append_assoc] at hc ⊢
      exact ⟨src_dir, dest_dir.map qsort, src_listing_mono _ h1.1, by simp, hc⟩

/-- C1: a run of `Sync` on `dir` that returns `true` has listed `dir` on the
destination (`dest_dir`, sorted) and has passed every name of the listing: `get_stat` failed on it,
or it succeeded and `getNext` returned the entry.  For every destination entry
`E` that `getNext` returned, with attributes `a`, such that `getNext` returned
no source entry of the same path (no listed name of that path matches the spec
tree and has a successful `get_stat`), the run has made the successful call
`do_unlink E` when `a` is a regular file or a symlink, and the successful call
`do_rmdir E` when `a` is a directory. -/
theorem Sync_prunes (cfg : Config) (src dest : fs_traversal C) (fuel : Nat) (dir : String)
    (recursive do_fsck : Bool) (w w' : World C)
    (h : Sync cfg src dest fuel dir recursive do_fsck w = .ok (true, w')) :
    ∃ ev dest_dir, w'.trace = w.trace ++ ev ∧
      Call.list_dir dest.context_ dir dest_dir ∈ ev ∧
      all_visited cfg dest.context_ false dir dest_dir ev ∧
      ∀ E a, Call.getNext false dir E a ∈ ev → (∀ a', Call.getNext true dir E a' ∉ ev) →
        ((S_ISREG a.st_mode = true ∨ S_ISLNK a.st_mode = true) → Call.do_unlink E 0 ∈ ev) ∧
        (S_ISDIR a.st_mode = true → Call.do_rmdir E 0 ∈ ev) := by
  obtain ⟨ev, htr, hc⟩ := Sync_complete_spec cfg src dest fuel dir recursive do_fsck w true w' h
  obtain ⟨src_dir, dest_dir, -, hl, hfin, -, hv, -⟩ := hc rfl
  refine ⟨ev, dest_dir, htr, hl, hv, fun E a hm hno => ?_⟩
  rcases hfin.1 E a hm with ⟨a', ha'⟩ | hr
  · exact absurd ha' (hno a')
  · exact hr

/-- C2: a run of `Sync` on `dir` that returns `true` has gone through the
source listing `src_dir` of `dir` (the listing of the spec tree, or the sorted
listing of the backend) and has passed every name of it: the spec tree rejects
the path, or `get_stat` failed on it, or `getNext` returned the entry.  For
every source entry `E` that `getNext` returned, with attributes `a`, either
`getNext` returned a destination entry of the same path that `cvmfs_attr_cmp`
accepted and whose recorded hash, if any, was found consistent, or the run has
made the successful creating call of the file type of `a` on `E`: `do_link`
for a regular file, `do_mkdir` (or, after its failure, `set_meta`) for a
directory, `do_symlink` with the symlink target of `a` for a symlink. -/
theorem Sync_creates (cfg : Config) (src dest : fs_traversal C) (fuel : Nat) (dir : String)
    (recursive do_fsck : Bool) (w w' : World C)
    (h : Sync cfg src dest fuel dir recursive do_fsck w = .ok (true, w')) :
    ∃ ev src_dir, w'.trace = w.trace ++ ev ∧
      src_listing cfg src.context_ dir src_dir ev ∧
      all_visited cfg src.context_ true dir src_dir ev ∧
      ∀ E a, Call.getNext true dir E a ∈ ev → src_resolved dir E a ev := by
  obtain ⟨ev, htr, hc⟩ := Sync_complete_spec cfg src dest fuel dir recursive do_fsck w true w' h
  obtain ⟨src_dir, dest_dir, hs, -, hfin, hv, -⟩ := hc rfl
  exact ⟨ev, src_dir, htr, hs, hv, hfin.2⟩

end Merge

/-- C1 on the in-memory backend: the run that prunes `/d` from the
destination. -/
theorem Sync_prunes_witness :
    ∃ w', toy_prune_run = .ok (true, w') ∧
      ∃ ev dest_dir, w'.trace = (toy_world ⟨[], [], []⟩ toy_subtree).trace ++ ev ∧
        Call.list_dir Slot.dest "" dest_dir ∈ ev ∧
        all_visited (toy_cfg 0) Slot.dest false "" dest_dir ev ∧
        ∀ E a, Call.getNext false "" E a ∈ ev → (∀ a', Call.getNext true "" E a' ∉ ev) →
          ((S_ISREG a.st_mode = true ∨ S_ISLNK a.st_mode = true) →
            Call.do_unlink E 0 ∈ ev) ∧
          (S_ISDIR a.st_mode = true → Call.do_rmdir E 0 ∈ ev) := by
  obtain ⟨w', hw⟩ := result_some (x := toy_prune_run) (b := true) (by decide!)
  exact ⟨w', hw, Sync_prunes (toy_cfg 0) (toy_fs Slot.src) (toy_fs Slot.dest) 2 "" true false
    _ w' hw⟩

/-- C2 on the in-memory backend: the run that creates `/a` and `/b` in an
empty destination. -/
theorem Sync_creates_witness :
    ∃ w', toy_twins_run = .ok (true, w') ∧
      ∃ ev src_dir, w'.trace = (toy_world toy_twins ⟨[], [], []⟩).trace ++ ev ∧
        src_listing (toy_cfg 0) Slot.src "" src_dir ev ∧
        all_visited (toy_cfg 0) Slot.src true "" src_dir ev ∧
        ∀ E a, Call.getNext true "" E a ∈ ev → src_resolved "" E a ev := by
  obtain ⟨w', hw⟩ := result_some (x := toy_twins_run) (b := true) (by decide!)
  exact ⟨w', hw, Sync_creates (toy_cfg 0) (toy_fs Slot.src) (toy_fs Slot.dest) 2 "" true false
    _ w' hw⟩

end shrinkwrap

namespace shrinkwrap

section Returns

variable {C : Type}

theorem returns_bind {α β : Type} (x : M C α) (f : α → M C β) (w : World C)
    (Q : β → World C → Prop) :
    returns (x >>= f) w Q ↔ returns x w (fun a w1 => returns (f a) w1 Q) := by
  unfold returns
  show (∃ b w', (StateT.bind x f) w = _ ∧ _) ↔ _
  simp only [StateT.bind, bind, Except.bind]
  cases hx : x w with
  | error e => simp
  | ok p =>
    obtain ⟨a, w1⟩ := p
    simp only [Except.ok.injEq, Prod.mk.injEq]
    constructor
    · rintro ⟨b, w', h1, h2⟩
      exact ⟨a, w1, ⟨rfl, rfl⟩, b, w', h1, h2⟩
    · rintro ⟨a', w1', ⟨rfl, rfl⟩, b, w', h1, h2⟩
      exact ⟨b, w', h1, h2⟩

theorem returns_of_eq {α : Type} (x : M C α) (w : World C) (a0 : α) (w0 : World C)
    (hx : x w = .ok (a0, w0)) (Q : α → World C → Prop) : returns x w Q ↔ Q a0 w0 := by
  unfold returns
  rw [hx]
  constructor
  · rintro ⟨a, w', e, h⟩; cases e; exact h
  · intro h; exact ⟨_, _, rfl, h⟩

theorem returns_pure {α : Type} (a : α) (w : World C) (Q : α → World C → Prop) :
    returns (pure a : M C α) w Q ↔ Q a w :=
  returns_of_eq _ _ _ _ rfl Q

theorem returns_call {α : Type} (p : Slot) (op : Op C α) (w : World C)
    (Q : α → World C → Prop) :
    returns (call p op) w Q ↔ Q (w.call p op).1 (w.call p op).2 :=
  returns_of_eq _ _ _ _ rfl Q

theorem returns_log (e : Call) (w : World C) (Q : Unit → World C → Prop) :
    returns (log e) w Q ↔ Q () (w.log e) :=
  returns_of_eq _ _ _ _ rfl Q

theorem returns_Xadd (c : Stat) (n : Int) (w : World C) (Q : Unit → World C → Prop) :
    returns (Xadd c n) w Q ↔ Q () (w.Xadd c n) :=
  returns_of_eq _ _ _ _ rfl Q

theorem returns_set_errno (e : Int) (w : World C) (Q : Unit → World C → Prop) :
    returns (set_errno e) w Q ↔ Q () (w.set_errno e) :=
  returns_of_eq _ _ _ _ rfl Q

theorem returns_get_errno (w : World C) (Q : Int → World C → Prop) :
    returns get_errno w Q ↔ Q w.errno w :=
  returns_of_eq _ _ _ _ rfl Q

theorem returns_AddLock (i : Nat) (w : World C) (Q : Bool → World C → Prop) :
    returns (AddLock i) w Q ↔ Q (w.fsck_lock.AddLock i).1
      ((w.add_lock i).log (Call.AddLock i (w.fsck_lock.AddLock i).1)) :=
  returns_of_eq _ _ _ _ rfl Q

theorem returns_fault {α : Type} (f : Fault) (w : World C) (Q : α → World C → Prop) :
    returns (fault f : M C α) w Q ↔ False := by
  unfold returns fault
  simp

theorem returns_ite {α : Type} (c : Prop) [Decidable c] (x y : M C α) (w : World C)
    (Q : α → World C → Prop) :
    returns (if c then x else y) w Q ↔ (c → returns x w Q) ∧ (¬c → returns y w Q) := by
  by_cases h : c <;> simp [h]

theorem returns_mono {α : Type} {x : M C α} {w : World C} {Q Q' : α → World C → Prop}
    (h : returns x w Q) (hq : ∀ a w', Q a w' → Q' a w') : returns x w Q' := by
  obtain ⟨a, w', e, hQ⟩ := h
  exact ⟨a, w', e, hq a w' hQ⟩

theorem returns_post {α : Type} {x : M C α} {w : World C} {Q R : α → World C → Prop}
    (h : returns x w Q) (hp : post x w R) : returns x w (fun a w' => Q a w' ∧ R a w') := by
  obtain ⟨a, w', e, hQ⟩ := h
  exact ⟨a, w', e, hQ, hp a w' e⟩

end Returns

section Fsck

variable {C : Type}

theorem AddLock_fst_iff (l : FsckLock) (i : Nat) : (l.AddLock i).1 = true ↔ i ∉ l.locks_ := by
  unfold FsckLock.AddLock
  by_cases h : i ∈ l.locks_
  · have : ¬ List.count i l.locks_ = 0 := by
      rw [List.count_eq_zero]
      exact fun hn => hn h
    simp [this, h]
  · have : List.count i l.locks_ = 0 := List.count_eq_zero.mpr h
    simp [this, h]

theorem AddLock_snd_mem (l : FsckLock) (i j : Nat) :
    j ∈ (l.AddLock i).2.locks_ ↔ j = i ∨ j ∈ l.locks_ := by
  unfold FsckLock.AddLock
  by_cases h : i ∈ l.locks_
  · have : ¬ List.count i l.locks_ = 0 := by
      rw [List.count_eq_zero]
      exact fun hn => hn h
    simp only [this, if_false]
    constructor
    · exact Or.inr
    · rintro (rfl | hj)
      · exact h
      · exact hj
  · have : List.count i l.locks_ = 0 := List.count_eq_zero.mpr h
    simp [this]

theorem AddLock_all_get (l : FsckLock) (inodes : List Nat) (k : Nat) :
    (l.AddLock_all inodes).get? k = some true ↔
      ∃ i, inodes.get? k = some i ∧ i ∉ l.locks_ ∧ i ∉ inodes.take k := by
  induction inodes generalizing l k with
  | nil => simp [FsckLock.AddLock_all]
  | cons a t ih =>
    cases k with
    | zero => simp [FsckLock.AddLock_all, AddLock_fst_iff]
    | succ n =>
      simp only [FsckLock.AddLock_all, List.get?_cons_succ, ih, AddLock_snd_mem,
        List.take_succ_cons, List.mem_cons, not_or]
      constructor
      · rintro ⟨i, h1, ⟨h2, h3⟩, h4⟩
        exact ⟨i, h1, h3, h2, h4⟩
      · rintro ⟨i, h1, h3, h2, h4⟩
        exact ⟨i, h1, ⟨h2, h3⟩, h4⟩

theorem should_write_anyway_returns (dest : fs_traversal C) (s d : cvmfs_attr)
    (w : World C) :
    returns (should_write_anyway dest s d) w (fun r w' =>
      r = decide ((w.call dest.context_ (dest.is_hash_consistent d)).1 = false ∧
        d.st_ino ∉ w.fsck_lock.locks_) ∧
      ∀ j, j ∈ w'.fsck_lock.locks_ ↔ (r = true ∧ j = d.st_ino) ∨ j ∈ w.fsck_lock.locks_) := by
  unfold should_write_anyway
  simp only [returns_bind, returns_call, returns_log, returns_ite, returns_AddLock,
    returns_pure, log_fsck_lock, call_fsck_lock, World.add_lock, Bool.not_eq_true']
  constructor
  · intro hc
    constructor
    · rw [hc]
      simp only [true_and]
      by_cases h : d.st_ino ∈ w.fsck_lock.locks_
      · simp [h, (AddLock_fst_iff w.fsck_lock d.st_ino).not.mpr (by simpa using h)]
      · simp [h, (AddLock_fst_iff w.fsck_lock d.st_ino).mpr h]
    · intro j
      rw [AddLock_snd_mem, AddLock_fst_iff]
      by_cases h : d.st_ino ∈ w.fsck_lock.locks_
      · simp only [h, not_true_eq_false, false_and, false_or, or_iff_right_iff_imp]
        rintro rfl
        exact h
      · simp [h]
  · intro hc
    simp only [Bool.not_eq_false] at hc
    simp [hc]

theorem should_write_anyway_all_returns (dest : fs_traversal C)
    (ps : List (cvmfs_attr × cvmfs_attr)) (w : World C) :
    returns (should_write_anyway_all dest ps) w (fun rs w' =>
      rs.length = ps.length ∧ (∀ j, j ∈ w.fsck_lock.locks_ → j ∈ w'.fsck_lock.locks_) ∧
      ∀ ino, (ino ∈ w.fsck_lock.locks_ → claims_won ino ps rs = []) ∧
        (claims_won ino ps rs).length ≤ 1) := by
  induction ps generalizing w with
  | nil =>
    simp [should_write_anyway_all, returns_pure, claims_won]
  | cons p t ih =>
    unfold should_write_anyway_all
    rw [returns_bind]
    refine returns_mono (should_write_anyway_returns dest p.1 p.2 w) ?_
    rintro r w1 ⟨hr, hl⟩
    rw [returns_bind]
    refine returns_mono (ih w1) ?_
    rintro rs w2 ⟨hlen, hsub, hwon⟩
    rw [returns_pure]
    refine ⟨by simp [hlen], fun j hj => hsub j ((hl j).mpr (Or.inr hj)), fun ino => ?_⟩
    have hcons : claims_won ino (p :: t) (r :: rs) =
        (if (p.2.st_ino == ino && r) = true then [(p, r)] else []) ++ claims_won ino t rs := by
      simp only [claims_won, List.zip_cons_cons, List.filter_cons]
      split <;> simp
    rw [hcons]
    by_cases hh : (p.2.st_ino == ino && r) = true
    · simp only [Bool.and_eq_true, beq_iff_eq] at hh
      obtain ⟨hi, hrt⟩ := hh
      subst hi
      have hnot : p.2.st_ino ∉ w.fsck_lock.locks_ := by
        rw [hrt] at hr
        have := of_decide_eq_true hr.symm
        exact this.2
      have hin : p.2.st_ino ∈ w1.fsck_lock.locks_ := (hl _).mpr (Or.inl ⟨hrt, rfl⟩)
      simp only [hrt, beq_self_eq_true, Bool.and_self, if_true, (hwon _).1 hin,
        List.append_nil, List.length_singleton, le_refl, and_true]
      intro h
      exact absurd h hnot
    · simp only [hh, if_false, List.nil_append, Bool.false_eq_true]
      exact ⟨fun h => (hwon ino).1 ((hl ino).mpr (Or.inr h)), (hwon ino).2⟩

/-- C13: on a fresh `FsckLock`, the `k`-th call of a sequence of `AddLock`
calls returns `true` exactly when its inode was passed to no earlier call of
the sequence.  A call of `should_write_anyway` returns, and it returns `true`
exactly when `is_hash_consistent` is `false` for the destination record and
its inode has not been claimed before; so in any sequence of calls of
`should_write_anyway`, whatever the lock holds at the start, at most one call
per destination inode returns `true`. -/
theorem fsck_claim_once (inodes : List Nat) (k : Nat) (dest : fs_traversal C)
    (s d : cvmfs_attr) (ps : List (cvmfs_attr × cvmfs_attr)) (w : World C) :
    ((FsckLock.AddLock_all ⟨[]⟩ inodes).get? k = some true ↔
      ∃ i, inodes.get? k = some i ∧ i ∉ inodes.take k) ∧
    (∃ w', should_write_anyway dest s d w =
      .ok (decide ((w.call dest.context_ (dest.is_hash_consistent d)).1 = false ∧
        d.st_ino ∉ w.fsck_lock.locks_), w')) ∧
    (∃ rs w', should_write_anyway_all dest ps w = .ok (rs, w') ∧ rs.length = ps.length ∧
      ∀ ino, (claims_won ino ps rs).length ≤ 1) := by
  refine ⟨?_, ?_, ?_⟩
  · rw [AddLock_all_get]
    simp
  · obtain ⟨r, w', e, hr, -⟩ := should_write_anyway_returns dest s d w
    exact ⟨w', by rw [e, hr]⟩
  · obtain ⟨rs, w', e, hlen, -, hwon⟩ := should_write_anyway_all_returns dest ps w
    exact ⟨rs, w', e, hlen, fun ino => (hwon ino).2⟩

end Fsck

end shrinkwrap

namespace shrinkwrap

section Blacklist

theorem string_at_cons_succ (c : Char) (l : List Char) (n : Nat) :
    string_at (c :: l) (n + 1) = string_at l n := by
  simp [string_at]

theorem string_at_append_right (a b : List Char) (n : Nat) :
    string_at (a ++ b) (a.length + n) = string_at b n := by
  induction a with
  | nil => simp
  | cons x t ih =>
    rw [List.cons_append, List.length_cons, show t.length + 1 + n = (t.length + n) + 1 by omega,
      string_at_cons_succ, ih]

theorem string_at_head (r : List Char) (hr : ∀ c ∈ r.head?, is_blank c = false) :
    ¬ (string_at r 0 = ' ' ∨ string_at r 0 = '\t') := by
  cases r with
  | nil => simp [string_at]
  | cons c t =>
    have := hr c (by simp)
    simp only [is_blank, Bool.or_eq_false_iff, beq_eq_false_iff_ne, ne_eq] at this
    simp [string_at, this.1, this.2]

/-- The loop stops at the first character that is no blank, or at the end of
the line. -/
theorem skip_blanks_spec (pre ws r : List Char)
    (hws : ∀ b ∈ ws, is_blank b = true) (hr : ∀ c ∈ r.head?, is_blank c = false)
    (fuel : Nat) (hf : ws.length < fuel) :
    skip_blanks (pre ++ ws ++ r) fuel pre.length = pre.length + ws.length := by
  induction ws generalizing pre fuel with
  | nil =>
    cases fuel with
    | zero => simp at hf
    | succ k =>
      have h := string_at_append_right pre r 0
      simp only [Nat.add_zero] at h
      simp only [skip_blanks, List.append_nil, h, if_neg (string_at_head r hr)]
      simp
  | cons b t ih =>
    cases fuel with
    | zero => simp at hf
    | succ k =>
      have h := string_at_append_right pre (b :: t ++ r) 0
      simp only [Nat.add_zero] at h
      have hb : string_at (b :: t ++ r) 0 = b := by simp [string_at]
      have hbb := hws b (by simp)
      simp only [is_blank, Bool.or_eq_true, beq_iff_eq] at hbb
      simp only [skip_blanks, List.append_assoc, h, hb, hbb, if_true]
      have := ih (pre ++ [b]) (fun x hx => hws x (by simp [hx])) k
        (by simp at hf; omega)
      simp only [List.append_assoc, List.singleton_append, List.length_append,
        List.length_singleton] at this
      rw [this]
      simp
      omega

theorem blacklist_line_shape (parse : List Char → Option Nat) (repo : List Char)
    (revision : Nat) (ws : List Char) (c : Char) (rest : List Char) (hne : ws ≠ [])
    (hws : ∀ b ∈ ws, is_blank b = true) (hc : is_blank c = false) :
    blacklist_line parse repo revision ('<' :: (repo ++ ws ++ c :: rest)) =
      (parse (c :: rest)).elim false (fun rev => decide (revision < rev)) := by
  cases ws with
  | nil => exact absurd rfl hne
  | cons b t =>
    have hb := hws b (by simp)
    simp only [is_blank, Bool.or_eq_true, beq_iff_eq] at hb
    have h0 : string_at ('<' :: (repo ++ (b :: t) ++ c :: rest)) 0 = '<' := by simp [string_at]
    have h1 : string_at ('<' :: (repo ++ (b :: t) ++ c :: rest)) (repo.length + 1) = b := by
      rw [string_at_cons_succ, List.append_assoc]
      have := string_at_append_right repo (b :: t ++ c :: rest) 0
      simp only [Nat.add_zero] at this
      rw [this]
      simp [string_at]
    have h2 : substr ('<' :: (repo ++ (b :: t) ++ c :: rest)) 1 (repo.length + 1 - 1) = repo := by
      simp [substr]
    have h3 : skip_blanks ('<' :: (repo ++ (b :: t) ++ c :: rest))
        ('<' :: (repo ++ (b :: t) ++ c :: rest)).length (repo.length + 1 + 1) =
        repo.length + 2 + t.length := by
      have := skip_blanks_spec ('<' :: repo ++ [b]) t (c :: rest)
        (fun x hx => hws x (by simp [hx])) (by simpa using hc)
        ('<' :: (repo ++ (b :: t) ++ c :: rest)).length (by simp; omega)
      simp only [List.cons_append, List.append_assoc, List.singleton_append, List.length_cons,
        List.length_append, List.length_singleton, List.nil_append, List.length_nil,
        Nat.zero_add] at this ⊢
      rw [this]
    have h4 : ('<' :: (repo ++ (b :: t) ++ c :: rest)).drop (repo.length + 2 + t.length) =
        c :: rest := by
      have : '<' :: (repo ++ (b :: t) ++ c :: rest) = ('<' :: repo ++ b :: t) ++ (c :: rest) := by
        simp
      rw [this, List.drop_left']
      simp
      omega
    unfold blacklist_line
    simp only [h0, h1, h2, h3, h4, ne_eq, not_true_eq_false, if_false]
    rw [if_neg (by simp), if_neg (by rcases hb with hb | hb <;> simp [hb]),
      if_neg (by simp; omega)]
    cases parse (c :: rest) <;> rfl

theorem blacklist_line_true (parse : List Char → Option Nat) (repo : List Char)
    (revision : Nat) (line : List Char) (h : blacklist_line parse repo revision line = true) :
    ∃ ws c rest, line = '<' :: (repo ++ ws ++ c :: rest) ∧ ws ≠ [] ∧
      (∀ b ∈ ws, is_blank b = true) ∧ is_blank c = false := by
  unfold blacklist_line at h
  simp only [ne_eq, ite_not] at h
  split at h
  swap
  · cases h
  rename_i h0
  split at h
  · cases h
  rename_i hlen
  split at h
  · cases h
  rename_i hbl
  split at h
  swap
  · cases h
  rename_i hsub
  split at h
  · cases h
  rename_i hidx
  cases line with
  | nil => exact absurd h0 (by simp [string_at])
  | cons x l1 =>
    have hx : x = '<' := by simpa [string_at] using h0
    subst hx
    simp only [substr, List.drop_succ_cons, List.drop_zero, Nat.add_sub_cancel] at hsub
    simp only [List.length_cons, Nat.not_le, Nat.add_lt_add_iff_right] at hlen
    have hl1 : l1 = repo ++ l1.drop repo.length := by
      conv_lhs => rw [← List.take_append_drop repo.length l1, hsub]
    cases hl2 : l1.drop repo.length with
    | nil =>
      have := congrArg List.length hl2
      simp at this
      omega
    | cons b l3 =>
      rw [hl2] at hl1
      have hb : ¬ (¬ b = ' ' ∧ ¬ b = '\t') := by
        have h1 : string_at ('<' :: l1) (repo.length + 1) = b := by
          rw [string_at_cons_succ, hl1]
          have := string_at_append_right repo (b :: l3) 0
          simp only [Nat.add_zero] at this
          rw [this]
          simp [string_at]
        rw [h1] at hbl
        exact hbl
      have hbb : is_blank b = true := by
        simp only [is_blank, Bool.or_eq_true, beq_iff_eq]
        by_contra hcon
        exact hb ⟨fun e => hcon (Or.inl e), fun e => hcon (Or.inr e)⟩
      have hl3 : l3 = l3.takeWhile is_blank ++ l3.dropWhile is_blank :=
        (List.takeWhile_append_dropWhile is_blank l3).symm
      have hskip := skip_blanks_spec ('<' :: repo ++ [b]) (l3.takeWhile is_blank)
        (l3.dropWhile is_blank) (fun y hy => List.mem_takeWhile_imp hy)
        (by
          intro c hc
          have := List.head?_dropWhile_not is_blank l3
          rw [Option.mem_def.mp hc] at this
          simpa using this)
        ('<' :: l1).length (by
          rw [hl1]
          have := congrArg List.length hl3
          simp only [List.length_append] at this
          simp
          omega)
      have hline : '<' :: l1 = ('<' :: repo ++ [b]) ++ l3.takeWhile is_blank ++
          l3.dropWhile is_blank := by
        rw [List.append_assoc, ← hl3, hl1]
        simp
      rw [← hline] at hskip
      simp only [List.cons_append, List.length_cons, List.length_append,
        List.length_singleton, List.length_nil, Nat.zero_add] at hskip
      simp only [List.length_cons] at hidx
      rw [hskip] at hidx
      cases hr : l3.dropWhile is_blank with
      | nil =>
        exfalso
        apply hidx
        have := congrArg List.length hline
        rw [hr] at this
        simp at this
        simp
        omega
      | cons c rest =>
        refine ⟨b :: l3.takeWhile is_blank, c, rest, ?_, by simp, ?_, ?_⟩
        · rw [hline, hr]
          simp
        · intro y hy
          rcases List.mem_cons.mp hy with rfl | hy
          · exact hbb
          · exact List.mem_takeWhile_imp hy
        · have := List.head?_dropWhile_not is_blank l3
          rw [hr] at this
          simpa using this

/-- C18: `IsRevisionBlacklisted` returns `true` exactly when some line of the
blacklist consists of `<`, the repository name, one or more spaces or tabs and
text up to the end of the line that parses to a number `N`, and the current
revision is less than `N`; a line that goes on after `<` and the repository
name with a character that is no space or tab, as a line for a repository
whose name starts with this name does, never blacklists. -/
theorem IsRevisionBlacklisted_iff (parse : List Char → Option Nat) (repo : List Char)
    (revision : Nat) (blacklist : List (List Char)) (c : Char) (rest : List Char) :
    (IsRevisionBlacklisted parse repo revision blacklist = true ↔
      ∃ line ∈ blacklist, ∃ N, blacklist_form parse repo N line ∧ revision < N) ∧
    (is_blank c = false →
      blacklist_line parse repo revision ('<' :: (repo ++ c :: rest)) = false) := by
  have line_iff : ∀ line, blacklist_line parse repo revision line = true ↔
      ∃ N, blacklist_form parse repo N line ∧ revision < N := by
    intro line
    constructor
    · intro h
      obtain ⟨ws, c, rest, rfl, hne, hws, hc⟩ := blacklist_line_true parse repo revision line h
      rw [blacklist_line_shape parse repo revision ws c rest hne hws hc] at h
      cases hp : parse (c :: rest) with
      | none => simp [hp] at h
      | some N =>
        simp only [hp, Option.elim, decide_eq_true_eq] at h
        exact ⟨N, ⟨ws, c, rest, rfl, hne, hws, hc, hp⟩, h⟩
    · rintro ⟨N, ⟨ws, c, rest, rfl, hne, hws, hc, hp⟩, hN⟩
      rw [blacklist_line_shape parse repo revision ws c rest hne hws hc, hp]
      simpa using hN
  constructor
  · induction blacklist with
    | nil => simp [IsRevisionBlacklisted]
    | cons line t ih =>
      simp only [IsRevisionBlacklisted, List.mem_cons, exists_eq_or_imp]
      rw [← line_iff line, ← ih]
      by_cases h : blacklist_line parse repo revision line = true <;> simp [h]
  · intro hc
    by_contra hcon
    simp only [Bool.not_eq_false] at hcon
    obtain ⟨ws, c', rest', heq, hne, hws, -⟩ :=
      blacklist_line_true parse repo revision _ hcon
    cases ws with
    | nil => exact hne rfl
    | cons b t =>
      simp only [List.cons.injEq, true_and, List.append_assoc, List.append_cancel_left_eq,
        List.cons_append] at heq
      have := hws b (by simp)
      rw [← heq.1, hc] at this
      cases this

end Blacklist

/-- C18 on examples, for revision 3 of the repository `repo`: the line
`<repo`, space, tab, `5` blacklists it, and a line for `repo2` does not. -/
theorem IsRevisionBlacklisted_iff_witness :
    IsRevisionBlacklisted parse_decimal "repo".data 3
      ['<' :: ("repo".data ++ [' ', '\t'] ++ '5' :: [])] = true ∧
    blacklist_line parse_decimal "repo".data 3 ('<' :: ("repo".data ++ '2' :: " 5".data)) =
      false :=
  ⟨(IsRevisionBlacklisted_iff parse_decimal "repo".data 3
      ['<' :: ("repo".data ++ [' ', '\t'] ++ '5' :: [])] '2' " 5".data).1.mpr
      ⟨_, List.mem_singleton.mpr rfl, 5,
        ⟨[' ', '\t'], '5', [], rfl, by decide, by decide, by decide, by decide⟩, by decide⟩,
   (IsRevisionBlacklisted_iff parse_decimal "repo".data 3
      ['<' :: ("repo".data ++ [' ', '\t'] ++ '5' :: [])] '2' " 5".data).2 (by decide)⟩

end shrinkwrap

namespace shrinkwrap

section Copy

variable {C : Type}

theorem eq_of_returns {α : Type} {x : M C α} {w : World C} {a0 : α} {w0 : World C}
    (h : returns x w (fun a w1 => a = a0 ∧ w1 = w0)) : x w = .ok (a0, w0) := by
  obtain ⟨a, w', e, rfl, rfl⟩ := h
  exact e

theorem copyFile_loop_of_run (cfg : Config) (src_fs dest_fs : fs_traversal C) (src dest : Nat)
    (w w' : World C) (chunks : List (List Nat))
    (h : copy_run cfg src_fs dest_fs src dest w chunks w') (fuel n : Nat)
    (hf : chunks.length ≤ fuel) :
    copyFile_loop cfg src_fs dest_fs src dest fuel n w =
      .ok (some (n + chunk_bytes chunks), w') := by
  induction h generalizing fuel n with
  | last w hread hshort hwrite =>
    cases fuel with
    | zero => simp at hf
    | succ k =>
      apply eq_of_returns
      unfold read_chunk write_chunk at *
      simp only [copyFile_loop, returns_bind, returns_call, returns_ite, returns_pure,
        returns_fault, ne_eq, hread, hwrite, not_true_eq_false, false_implies, true_and,
        not_false_eq_true, true_implies, hshort, chunk_bytes, List.map_cons, List.map_nil,
        List.sum_cons, List.sum_nil, Nat.add_zero, and_self, and_true]
      exact ⟨fun h => by omega, fun _ => trivial⟩
  | more w w' chunks hread hfull hwrite hrest ih =>
    cases fuel with
    | zero => simp at hf
    | succ k =>
      have := ih k (n + (read_chunk cfg src_fs src w).1.2.length)
        (by simp at hf; omega)
      apply eq_of_returns
      unfold read_chunk write_chunk at *
      simp only [copyFile_loop, returns_bind, returns_call, returns_ite, returns_pure,
        returns_fault, ne_eq, hread, hwrite, not_true_eq_false, false_implies, true_and,
        not_false_eq_true, true_implies, hfull, lt_self_iff_false, and_true]
      rw [returns_of_eq _ _ _ _ (hfull ▸ this)]
      simp [chunk_bytes, hfull, Nat.add_assoc]

theorem copy_run_pstats (cfg : Config) (src_fs dest_fs : fs_traversal C) (src dest : Nat)
    (w w' : World C) (chunks : List (List Nat))
    (h : copy_run cfg src_fs dest_fs src dest w chunks w') : w'.pstats = w.pstats := by
  induction h with
  | last w hread hshort hwrite => simp [read_chunk, write_chunk]
  | more w w' chunks hread hfull hwrite hrest ih =>
    rw [ih]
    simp [read_chunk, write_chunk]

theorem copy_run_shape (cfg : Config) (src_fs dest_fs : fs_traversal C) (src dest : Nat)
    (w w' : World C) (chunks : List (List Nat))
    (h : copy_run cfg src_fs dest_fs src dest w chunks w') :
    ∃ init last, chunks = init ++ [last] ∧
      (∀ c ∈ init, c.length = cfg.COPY_BUFFER_SIZE) ∧ last.length < cfg.COPY_BUFFER_SIZE := by
  induction h with
  | last w hread hshort hwrite => exact ⟨[], _, rfl, by simp, hshort⟩
  | more w w' chunks hread hfull hwrite hrest ih =>
    obtain ⟨init, last, rfl, hi, hl⟩ := ih
    refine ⟨_ :: init, last, rfl, ?_, hl⟩
    intro c hc
    rcases List.mem_cons.mp hc with rfl | hc
    · exact hfull
    · exact hi c hc

/-- C15: when both `do_fopen` calls succeed, the reads and writes of the loop
all succeed (`copy_run`: every chunk read is written before the next read,
every chunk but the last fills the buffer, the last is shorter), both
`do_fclose` calls succeed and the fuel covers the number of chunks, then
`copyFile` returns `true`, in the state after the closes, and has added to the
byte counter the number of bytes of the chunks, which are the bytes read and
the bytes written. -/
theorem copyFile_transfers (cfg : Config) (fuel : Nat) (src_fs : fs_traversal C)
    (src_name : Option String) (dest_fs : fs_traversal C) (dest_name : Option String)
    (w w1 w2 w3 : World C) (src dest : Nat) (chunks : List (List Nat))
    (hopen : copyFile_opened src_fs src_name dest_fs dest_name w = some (src, dest, w1))
    (hrun : copy_run cfg src_fs dest_fs src dest w1 chunks w2)
    (hclose : copyFile_closed src_fs dest_fs src dest
      (w2.Xadd Stat.BYTE_COUNT (chunk_bytes chunks)) = some w3)
    (hfuel : chunks.length ≤ fuel) :
    copyFile cfg fuel src_fs src_name dest_fs dest_name w = .ok (true, w3) ∧
    w3.pstats Stat.BYTE_COUNT = w.pstats Stat.BYTE_COUNT + chunk_bytes chunks ∧
    ∃ init last, chunks = init ++ [last] ∧
      (∀ c ∈ init, c.length = cfg.COPY_BUFFER_SIZE) ∧ last.length < cfg.COPY_BUFFER_SIZE := by
  have hloop := copyFile_loop_of_run cfg src_fs dest_fs src dest w1 w2 chunks hrun fuel 0 hfuel
  have hps := copy_run_pstats cfg src_fs dest_fs src dest w1 w2 chunks hrun
  simp only [copyFile_opened] at hopen
  split at hopen
  swap
  · cases hopen
  rename_i ho
  simp only [Option.some.injEq, Prod.mk.injEq] at hopen
  obtain ⟨hs, hd, hw1⟩ := hopen
  subst hs hd hw1
  simp only [copyFile_closed] at hclose
  split at hclose
  swap
  · cases hclose
  rename_i hc
  simp only [Option.some.injEq] at hclose
  subst hclose
  refine ⟨?_, ?_, copy_run_shape cfg src_fs dest_fs _ _ _ w2 chunks hrun⟩
  · apply eq_of_returns
    simp only [copyFile, returns_bind, returns_log, returns_call, returns_ite, returns_pure,
      ne_eq, ho.1, ho.2, not_true_eq_false, false_implies, true_and, not_false_eq_true,
      true_implies]
    rw [returns_of_eq _ _ _ _ hloop]
    simp only [Nat.zero_add, returns_bind, returns_Xadd, returns_call, returns_ite,
      returns_pure, ne_eq, hc.1, hc.2, not_true_eq_false, false_implies, true_and,
      not_false_eq_true, true_implies, and_self]
  · simp only [call_pstats, Xadd_pstats, hps, log_pstats, if_true]

end Copy

theorem some_getD {α : Type} {o : Option α} (h : o.isSome = true) (d : α) :
    o = some (o.getD d) := by
  cases o with
  | none => cases h
  | some a => rfl

/-- C15 on the 5-byte file "hello" with a buffer of 4 bytes: the copy returns
`true`, the destination has received "hello" and the byte counter is 5. -/
theorem copyFile_transfers_witness :
    ∃ w3, hello_copy = .ok (true, w3) ∧ w3.pstats Stat.BYTE_COUNT = 0 + (5 : Nat) ∧
      w3.dest_ctx.written = hello := by
  have hopen := some_getD (o := copyFile_opened (disk_fs Slot.src) (some "a")
    (disk_fs Slot.dest) (some "h1") hello_world) (by decide!) (0, 0, hello_world)
  have hrun := @copy_run.more Disk ⟨spec_all, 0, 4, attr0⟩ (disk_fs Slot.src)
    (disk_fs Slot.dest) 0 0
    ((copyFile_opened (disk_fs Slot.src) (some "a") (disk_fs Slot.dest) (some "h1")
      hello_world).getD (0, 0, hello_world)).2.2 _ _ (by decide!) (by decide!) (by decide!)
    (copy_run.last _ (by decide!) (by decide!) (by decide!))
  have h := copyFile_transfers _ 2 _ _ _ _ hello_world _ _ _ 0 0 _ hopen hrun
    (some_getD (by decide!) hello_world) (by decide!)
  exact ⟨_, h.1, h.2.1, by decide!⟩

end shrinkwrap

namespace shrinkwrap

section GetNext

variable {C : Type}

theorem getNext_skipped_cons (cfg : Config) (fs : Slot) (dir : String) (list : List String)
    (lo hi : Nat) (skipped pre : List Call) (name : String)
    (hget : list.get? lo = some name)
    (hpre : ∀ e ∈ pre, ∃ p r a, e = Call.get_stat fs p r a ∧ r ≠ 0)
    (hname : cfg.spec_tree_.IsMatching (get_full_path dir name) = false ∨
      ∃ r a, r ≠ 0 ∧ Call.get_stat fs (get_full_path dir name) r a ∈ pre)
    (h : getNext_skipped cfg fs dir list (lo + 1) hi skipped) :
    getNext_skipped cfg fs dir list lo hi (pre ++ skipped) := by
  refine ⟨fun j n hlo hhi hn => ?_, fun e he => ?_⟩
  · by_cases hj : j = lo
    · subst hj
      rw [hget] at hn
      cases hn
      rcases hname with h1 | ⟨r, a, hr, hm⟩
      · exact Or.inl h1
      · exact Or.inr ⟨r, a, hr, List.mem_append_left _ hm⟩
    · rcases h.1 j n (by omega) hhi hn with h1 | ⟨r, a, hr, hm⟩
      · exact Or.inl h1
      · exact Or.inr ⟨r, a, hr, List.mem_append_right _ hm⟩
  · rcases List.mem_append.mp he with he | he
    · exact hpre e he
    · exact h.2 e he

theorem getNext_source_returns (cfg : Config) (fs : fs_traversal C) (dir : String)
    (list : List String) (get_hash : Bool) (fuel : Nat) (iter : Int) (st : cvmfs_attr)
    (w : World C) (hloc : (iter + 1).toNat ≤ list.length)
    (hfuel : list.length < fuel + (iter + 1).toNat) :
    returns (getNext cfg fs dir (some list) get_hash true fuel iter st) w
      (getNext_source_post cfg fs.context_ dir list iter w) := by
  induction fuel generalizing iter st w with
  | zero => omega
  | succ n ih =>
    unfold getNext
    simp only [returns_ite, returns_fault]
    refine ⟨fun h => by omega, fun _ => ?_⟩
    cases hget : list.get? (iter + 1).toNat with
    | none =>
      have hlen := List.get?_eq_none.mp hget
      rw [returns_pure]
      refine ⟨(iter + 1).toNat, [], le_rfl, rfl, ⟨fun j n h1 h2 => by omega, by simp⟩,
        Or.inr ⟨by omega, rfl, rfl, by simp, rfl⟩⟩
    | some name =>
      have hlt : (iter + 1).toNat < list.length := by
        by_contra hcon
        rw [List.get?_eq_none.mpr (by omega)] at hget
        cases hget
      have hnext : (((iter + 1).toNat : Int) + 1).toNat = (iter + 1).toNat + 1 := by omega
      simp only [returns_ite]
      refine ⟨fun hf => ?_, fun hf => ?_⟩
      · refine returns_mono (ih _ _ w (by omega) (by omega)) ?_
        rintro g w' ⟨k, skipped, hk, hgi, hsk, hfin⟩
        rw [hnext] at hk hsk
        refine ⟨k, skipped, by omega, hgi, ?_, hfin⟩
        have := getNext_skipped_cons cfg fs.context_ dir list _ k skipped [] name hget
          (by simp) (Or.inl (by simpa using hf)) hsk
        simpa using this
      · simp only [updateStat, returns_bind, returns_call, returns_log, returns_pure,
          returns_ite, returns_Xadd, bind_assoc, pure_bind]
        have htr : (w.call fs.context_ (fs.get_stat (get_full_path dir name)
          cfg.cvmfs_attr_init get_hash)).2.trace = w.trace := by simp
        have hps : (w.call fs.context_ (fs.get_stat (get_full_path dir name)
          cfg.cvmfs_attr_init get_hash)).2.pstats = w.pstats := by simp
        generalize w.call fs.context_ (fs.get_stat (get_full_path dir name)
          cfg.cvmfs_attr_init get_hash) = r at htr hps ⊢
        refine ⟨fun hr => ?_, fun hr => ?_⟩
        · refine returns_mono (ih _ _ _ (by omega) (by omega)) ?_
          rintro g w' ⟨k, skipped, hk, hgi, hsk, hfin⟩
          rw [hnext] at hk hsk
          have hr0 : r.1.1 ≠ 0 := by simpa using hr
          refine ⟨k, Call.get_stat fs.context_ (get_full_path dir name) r.1.1 r.1.2 :: skipped,
            by omega, hgi, ?_, ?_⟩
          · exact getNext_skipped_cons cfg fs.context_ dir list _ k skipped
              [Call.get_stat fs.context_ (get_full_path dir name) r.1.1 r.1.2] name hget
              (fun e he => ⟨_, _, _, List.mem_singleton.mp he, hr0⟩)
              (Or.inr ⟨_, _, hr0, List.mem_singleton.mpr rfl⟩) hsk
          · simp only [log_trace, log_pstats, List.append_assoc,
              List.singleton_append, World.Xadd, htr, hps] at hfin ⊢
            exact hfin
        · have hr0 : r.1.1 = 0 := by simpa using hr
          refine ⟨(iter + 1).toNat, [], le_rfl, rfl, ⟨fun j n h1 h2 => by omega, by simp⟩,
            Or.inl ⟨name, hget, rfl, rfl, by simpa using hf, ?_, ?_⟩⟩
          · simp [hr0, htr]
          · simp [World.Xadd, hps]

/-- C14: on the source side, with the iterator inside the listing and fuel for
the rest of the listing, `getNext` returns, and what it does is
`getNext_source_post`: it skips the names that the spec tree rejects or whose
`get_stat` fails, without touching the counters, up to the first name whose
full path `dir + "/" + name` matches the spec tree and whose `get_stat`
succeeds; it returns `true` with that entry and the source-entries counter
incremented by one, or, when no such name remains, `false` with no entry and
unchanged counters.  Without a listing it returns `false` with no entry. -/
theorem getNext_source (cfg : Config) (fs : fs_traversal C) (dir : String)
    (list : List String) (get_hash : Bool) (fuel : Nat) (iter : Int) (st : cvmfs_attr)
    (w : World C) (hloc : (iter + 1).toNat ≤ list.length)
    (hfuel : list.length < fuel + (iter + 1).toNat) :
    (∃ g w', getNext cfg fs dir (some list) get_hash true fuel iter st w = .ok (g, w') ∧
      getNext_source_post cfg fs.context_ dir list iter w g w') ∧
    getNext cfg fs dir none get_hash true (fuel + 1) iter st w =
      .ok (⟨false, none, (iter + 1).toNat, st⟩, w) :=
  ⟨getNext_source_returns cfg fs dir list get_hash fuel iter st w hloc hfuel, rfl⟩

end GetNext

/-- C14 on the in-memory backend: of the names `x`, `m` and `a`, the spec tree
rejects `/x` and the source has no `/m`. -/
theorem getNext_source_witness :
    (∃ g w', getNext toy_cfg_no_x (toy_fs Slot.src) "" (some ["x", "m", "a"]) true true 4 (-1)
        attr0 (toy_world toy_twins ⟨[], [], []⟩) = .ok (g, w') ∧
      getNext_source_post toy_cfg_no_x Slot.src "" ["x", "m", "a"] (-1)
        (toy_world toy_twins ⟨[], [], []⟩) g w') ∧
    getNext toy_cfg_no_x (toy_fs Slot.src) "" none true true (4 + 1) (-1) attr0
        (toy_world toy_twins ⟨[], [], []⟩) =
      .ok (⟨false, none, ((-1 : Int) + 1).toNat, attr0⟩, toy_world toy_twins ⟨[], [], []⟩) :=
  getNext_source toy_cfg_no_x (toy_fs Slot.src) "" ["x", "m", "a"] true 4 (-1) attr0
    (toy_world toy_twins ⟨[], [], []⟩) (by decide) (by decide)

end shrinkwrap

namespace shrinkwrap

/-- C17 fails on the code: `handle_file` enqueues the job with the source
identifier `NULL` and counts it in `copy_queue`; the worker reads the job and
goes on to the next read without the decrement, so with the pipe empty again
and the worker waiting the counter is still 1. -/
theorem orphan_job_is_never_uncounted :
    Res.result toy_orphan_run = some false ∧
    (Res.world (toy_world toy_one ⟨[], [], []⟩) toy_orphan_run).trace.countP
      Call.is_WritePipe = 1 ∧
    Call.WritePipe ⟨none, some "h1"⟩ ∈
      (Res.world (toy_world toy_one ⟨[], [], []⟩) toy_orphan_run).trace ∧
    (Res.world (toy_world toy_one ⟨[], [], []⟩) toy_orphan_run).pipe_chunks = [] ∧
    (Res.world (toy_world toy_one ⟨[], [], []⟩) toy_orphan_run).copy_queue = 1 := by
  decide!

/-- C20 fails on the code: the source file `/a` has no destination entry of
its name, `touch` does not report its pool entry created, and yet `Sync`
copies it: `handle_file` gets the attributes of the destination entry `/b`,
asks `is_hash_consistent` for them and claims the inode 12 of `/b` in the fsck
lock set. -/
theorem stale_dest_st_decides_copy :
    Res.result toy_stale_run = some true ∧
    Call.touch (reg_attr 1 5 "h1") (-1) ∈
      (Res.world (toy_world toy_one toy_other_damaged) toy_stale_run).trace ∧
    Call.is_hash_consistent (reg_attr 12 5 "h2") false ∈
      (Res.world (toy_world toy_one toy_other_damaged) toy_stale_run).trace ∧
    Call.AddLock 12 true ∈
      (Res.world (toy_world toy_one toy_other_damaged) toy_stale_run).trace ∧
    Call.copyFile (some "h1") (some "h1") ∈
      (Res.world (toy_world toy_one toy_other_damaged) toy_stale_run).trace ∧
    (toy_world toy_one toy_other_damaged).fsck_lock = ⟨[]⟩ ∧
    (Res.world (toy_world toy_one toy_other_damaged) toy_stale_run).fsck_lock = ⟨[12]⟩ := by
  decide!

/-- C11 fails on the code: the `do_unlink` call that the nested `Sync` makes
on `/d/x` fails, the nested `Sync` returns `false`, and the outer `Sync` goes
on to `do_rmdir`, which succeeds on this backend; `Sync` and `SyncFull` return
`true`. -/
theorem nested_failure_is_dropped :
    Res.result (Sync (toy_cfg 0) (toy_fs_lax Slot.src) (toy_fs_lax Slot.dest) 1 "/d" true false
      (toy_world ⟨[], [], []⟩ toy_subtree)) = some false ∧
    Res.result toy_lax_run = some true ∧
    Call.do_unlink "/d/x" (-1) ∈
      (Res.world (toy_world ⟨[], [], []⟩ toy_subtree) toy_lax_run).trace ∧
    Res.result toy_lax_full_run = some true ∧
    Call.do_unlink "/d/x" (-1) ∈
      (Res.world (toy_world ⟨[], [], []⟩ toy_subtree) toy_lax_full_run).trace := by
  decide!

end shrinkwrap

namespace shrinkwrap

section Order

theorem strcmp_chars_total (a b : List Char) : strcmp_chars a b ≤ 0 ∨ strcmp_chars b a ≤ 0 := by
  induction a generalizing b with
  | nil => cases b <;> simp [strcmp_chars]
  | cons x s ih =>
    cases b with
    | nil => simp [strcmp_chars]
    | cons y t =>
      by_cases h : x = y
      · subst h
        simpa [strcmp_chars] using ih t
      · have h' : ¬ y = x := fun e => h e.symm
        simp only [strcmp_chars, h, h', if_false]
        omega

theorem char_eq_of_toNat {x y : Char} (h : (x.toNat : Int) = y.toNat) : x = y := by
  apply Char.ext
  apply UInt32.ext
  have : x.toNat = y.toNat := by exact_mod_cast h
  simpa [Char.toNat, UInt32.toNat] using this

theorem strcmp_chars_antisymm (a b : List Char) (h1 : strcmp_chars a b ≤ 0)
    (h2 : strcmp_chars b a ≤ 0) : a = b := by
  induction a generalizing b with
  | nil => cases b <;> simp_all [strcmp_chars]
  | cons x s ih =>
    cases b with
    | nil => simp [strcmp_chars] at h1
    | cons y t =>
      by_cases h : x = y
      · subst h
        simp only [strcmp_chars, if_true] at h1 h2
        rw [ih t h1 h2]
      · have h' : ¬ y = x := fun e => h e.symm
        simp only [strcmp_chars, h, h', if_false] at h1 h2
        exact absurd (char_eq_of_toNat (by omega)) h

theorem strcmp_chars_trans (a b c : List Char) (h1 : strcmp_chars a b ≤ 0)
    (h2 : strcmp_chars b c ≤ 0) : strcmp_chars a c ≤ 0 := by
  induction a generalizing b c with
  | nil => cases c <;> simp [strcmp_chars]
  | cons x s ih =>
    cases b with
    | nil => simp [strcmp_chars] at h1
    | cons y t =>
      cases c with
      | nil => simp [strcmp_chars] at h2
      | cons z u =>
        by_cases hxy : x = y
        · subst hxy
          by_cases hxz : x = z
          · subst hxz
            simp only [strcmp_chars, if_true] at h1 h2 ⊢
            exact ih t u h1 h2
          · simp only [strcmp_chars, hxz, if_false, if_true] at h1 h2 ⊢
            exact h2
        · by_cases hyz : y = z
          · subst hyz
            simp only [strcmp_chars, hxy, if_false] at h1 ⊢
            exact h1
          · simp only [strcmp_chars, hxy, hyz, if_false] at h1 h2
            by_cases hxz : x = z
            · subst hxz
              exact absurd (char_eq_of_toNat (by omega)) hxy
            · simp only [strcmp_chars, hxz, if_false]
              omega

theorem qsort_perm {a b : List String} (h : a.Perm b) : qsort a = qsort b := by
  haveI : IsTotal String strcmp_list := ⟨fun x y => strcmp_chars_total x.data y.data⟩
  haveI : IsTrans String strcmp_list :=
    ⟨fun x y z h1 h2 => strcmp_chars_trans x.data y.data z.data h1 h2⟩
  haveI : IsAntisymm String strcmp_list :=
    ⟨fun x y h1 h2 => String.ext (strcmp_chars_antisymm x.data y.data h1 h2)⟩
  exact List.eq_of_perm_of_sorted
    ((List.perm_insertionSort _ a).trans (h.trans (List.perm_insertionSort _ b).symm))
    (List.sorted_insertionSort _ a) (List.sorted_insertionSort _ b)

end Order

section Congruence

variable {C : Type}

theorem getNext_list_dir (cfg : Config) (src : fs_traversal C)
    (ld : String → Op C (Option (List String))) (dir : String)
    (dl : Option (List String)) (gh is_src : Bool) (fuel : Nat) (iter : Int)
    (st : cvmfs_attr) :
    getNext cfg { src with list_dir := ld } dir dl gh is_src fuel iter st =
      getNext cfg src dir dl gh is_src fuel iter st := by
  induction fuel generalizing iter st with
  | zero => rfl
  | succ n ih =>
    unfold getNext
    simp only [ih]
    rfl

theorem copyFile_loop_list_dir (cfg : Config) (src dest : fs_traversal C)
    (ld : String → Op C (Option (List String))) (s d : Nat) (fuel n : Nat) :
    copyFile_loop cfg { src with list_dir := ld } dest s d fuel n =
      copyFile_loop cfg src dest s d fuel n := by
  induction fuel generalizing n with
  | zero => rfl
  | succ k ih =>
    unfold copyFile_loop
    simp only [ih]

theorem handle_file_list_dir (cfg : Config) (fuel : Nat) (src dest : fs_traversal C)
    (ld : String → Op C (Option (List String))) (src_st dest_st : cvmfs_attr)
    (entry : String) :
    handle_file cfg fuel { src with list_dir := ld } src_st dest dest_st entry =
      handle_file cfg fuel src src_st dest dest_st entry := by
  unfold handle_file handle_file_copy copyFile
  simp only [copyFile_loop_list_dir]

theorem Sync_src_list_dir (cfg : Config) (fuel : Nat) (src dest : fs_traversal C)
    (ld : String → Op C (Option (List String))) (recursive : Bool) (l : SyncLocals)
    (e : String) :
    Sync_src cfg fuel { src with list_dir := ld } dest recursive l e =
      Sync_src cfg fuel src dest recursive l e := by
  unfold Sync_src
  simp only [handle_file_list_dir]
  rfl

theorem Sync_body_list_dir (cfg : Config) (fuel : Nat) (src dest : fs_traversal C)
    (ld : String → Op C (Option (List String))) (dir : String) (recursive do_fsck : Bool)
    (sd dd : Option (List String)) (nested : String → M C Bool) :
    Sync_body cfg fuel { src with list_dir := ld } dest dir recursive do_fsck sd dd nested =
      Sync_body cfg fuel src dest dir recursive do_fsck sd dd nested := by
  funext l
  unfold Sync_body Sync_next_src
  simp only [Sync_src_list_dir, getNext_list_dir]

theorem same_names_qsort {a b : Option (List String)} (h : same_names a b) :
    a.map qsort = b.map qsort := by
  cases a <;> cases b <;> simp_all [same_names]
  exact qsort_perm h

theorem list_src_dir_some (cfg : Config) (f : fs_traversal C) (dir : String)
    (buf : List String) (h : cfg.spec_tree_.ListDir dir = some buf) :
    list_src_dir cfg f dir = pure (some buf) := by
  unfold list_src_dir
  rw [h]

theorem list_src_dir_none (cfg : Config) (f : fs_traversal C) (dir : String)
    (h : cfg.spec_tree_.ListDir dir = none) (w : World C) :
    list_src_dir cfg f dir w =
      .ok ((w.call f.context_ (f.list_dir dir)).1.map qsort,
        (w.call f.context_ (f.list_dir dir)).2.log
          (Call.list_dir f.context_ dir ((w.call f.context_ (f.list_dir dir)).1.map qsort))) := by
  unfold list_src_dir
  rw [h]
  rfl

theorem list_src_dir_perm (cfg : Config) (src : fs_traversal C)
    (ld : String → Op C (Option (List String)))
    (H : ∀ d c e, same_names (ld d c e).1 (src.list_dir d c e).1 ∧
      (ld d c e).2 = (src.list_dir d c e).2) (dir : String) :
    list_src_dir cfg { src with list_dir := ld } dir = list_src_dir cfg src dir := by
  cases hb : cfg.spec_tree_.ListDir dir with
  | some buf => rw [list_src_dir_some _ _ _ _ hb, list_src_dir_some _ _ _ _ hb]
  | none =>
    funext w
    rw [list_src_dir_none _ _ _ hb, list_src_dir_none _ _ _ hb]
    obtain ⟨h1, h2⟩ := H dir (w.ctx src.context_) w.errno
    have e1 : (w.call src.context_ (ld dir)).1.map qsort =
        (w.call src.context_ (src.list_dir dir)).1.map qsort := same_names_qsort h1
    have e2 : (w.call src.context_ (ld dir)).2 = (w.call src.context_ (src.list_dir dir)).2 := by
      simp only [World.call, h2]
    show Except.ok ((w.call src.context_ (ld dir)).1.map qsort,
      (w.call src.context_ (ld dir)).2.log
        (Call.list_dir src.context_ dir ((w.call src.context_ (ld dir)).1.map qsort))) = _
    rw [e1, e2]

/-- C16, amended: when the source backend is replaced by one whose `list_dir`
gives, for every directory, the same names in another order (and leaves the
context and `errno` the same), every run of `Sync` is the same run: it returns
the same value in the same final state, destination tree and log of calls
included.  This is the order of the listings of the backend, which
`list_src_dir` sorts; the order of a listing of the spec tree is kept as it
is. -/
theorem Sync_listing_order (cfg : Config) (src dest : fs_traversal C)
    (ld : String → Op C (Option (List String)))
    (H : ∀ d c e, same_names (ld d c e).1 (src.list_dir d c e).1 ∧
      (ld d c e).2 = (src.list_dir d c e).2)
    (fuel : Nat) (dir : String) (recursive do_fsck : Bool) (w : World C) :
    Sync cfg { src with list_dir := ld } dest fuel dir recursive do_fsck w =
      Sync cfg src dest fuel dir recursive do_fsck w := by
  have key : ∀ fuel dir recursive do_fsck,
      Sync cfg { src with list_dir := ld } dest fuel dir recursive do_fsck =
        Sync cfg src dest fuel dir recursive do_fsck := by
    intro fuel
    induction fuel with
    | zero => intro _ _ _; rfl
    | succ n ih =>
      intro dir recursive do_fsck
      unfold Sync
      simp only [list_src_dir_perm cfg src ld H, Sync_body_list_dir, ih]
  rw [key]

end Congruence

/-- C16 as stated fails for listings of the spec tree: with the destination in
sync, the listing `a`, `b` leads to no change of the destination, and the
listing `b`, `a` of the same names to the removal and new link of `/a`. -/
theorem listing_order_matters :
    List.Perm ["a", "b"] ["b", "a"] ∧
    Res.result (toy_listing_run ["a", "b"]) = some true ∧
    Res.result (toy_listing_run ["b", "a"]) = some true ∧
    (Res.world (toy_world toy_twins toy_twins_synced)
      (toy_listing_run ["a", "b"])).trace.filter Call.is_mutation = [] ∧
    (Res.world (toy_world toy_twins toy_twins_synced)
      (toy_listing_run ["b", "a"])).trace.filter Call.is_mutation =
      [Call.do_unlink "/a" 0, Call.touch (reg_attr 1 5 "h1") (-1),
       Call.do_link "/a" (some "h1") 0] := by
  refine ⟨List.Perm.swap _ _ _, ?_, ?_, ?_, ?_⟩ <;> decide!

/-- C16, amended, on the in-memory backend with the listings reversed. -/
theorem Sync_listing_order_witness :
    Sync (toy_cfg 0) { toy_fs Slot.src with list_dir := toy_list_reversed } (toy_fs Slot.dest)
        2 "" true false (toy_world toy_twins ⟨[], [], []⟩) =
      Sync (toy_cfg 0) (toy_fs Slot.src) (toy_fs Slot.dest) 2 "" true false
        (toy_world toy_twins ⟨[], [], []⟩) :=
  Sync_listing_order (toy_cfg 0) (toy_fs Slot.src) (toy_fs Slot.dest) toy_list_reversed
    (fun d c e => ⟨by
      show same_names (some _) (some _)
      exact List.reverse_perm _, rfl⟩)
    2 "" true false (toy_world toy_twins ⟨[], [], []⟩)

end shrinkwrap

namespace shrinkwrap

section Bounds

variable {C : Type}

theorem in_bounds_bind {α β : Type} {x : M C α} {f : α → M C β} {w : World C}
    {R : α → Prop} {Q : β → Prop} (hx : in_bounds x w R)
    (hf : ∀ a w1, R a → in_bounds (f a) w1 Q) : in_bounds (x >>= f) w Q := by
  unfold in_bounds at *
  show (match (StateT.bind x f) w with | .ok (a, _) => Q a | .error f => f ≠ _)
  simp only [StateT.bind, bind, Except.bind]
  cases hxw : x w with
  | error e => simpa [hxw] using hx
  | ok p =>
    obtain ⟨a, w1⟩ := p
    rw [hxw] at hx
    exact hf a w1 hx

theorem in_bounds_of_ok {α : Type} {x : M C α} {w : World C} {Q : α → Prop} (a : α)
    (w' : World C) (h : x w = .ok (a, w')) (hq : Q a) : in_bounds x w Q := by
  unfold in_bounds
  rw [h]
  exact hq

theorem in_bounds_pure {α : Type} {a : α} {w : World C} {Q : α → Prop} (h : Q a) :
    in_bounds (pure a : M C α) w Q :=
  in_bounds_of_ok a w rfl h

theorem in_bounds_fault {α : Type} {f : Fault} {w : World C} {Q : α → Prop}
    (h : f ≠ Fault.out_of_bounds) : in_bounds (fault f : M C α) w Q := h

theorem in_bounds_ite {α : Type} {c : Prop} [Decidable c] {x y : M C α} {w : World C}
    {Q : α → Prop} (hx : c → in_bounds x w Q) (hy : ¬c → in_bounds y w Q) :
    in_bounds (if c then x else y) w Q := by
  by_cases h : c
  · simpa [h] using hx h
  · simpa [h] using hy h

theorem in_bounds_mono {α : Type} {x : M C α} {w : World C} {Q Q' : α → Prop}
    (h : in_bounds x w Q) (hq : ∀ a, Q a → Q' a) : in_bounds x w Q' := by
  unfold in_bounds at *
  cases hxw : x w with
  | error e => simpa [hxw] using h
  | ok p =>
    rw [hxw] at h
    exact hq _ h

theorem in_bounds_post {α : Type} {x : M C α} {w : World C} {Q : α → Prop}
    {R : α → World C → Prop} (h : in_bounds x w Q) (hp : post x w R) :
    in_bounds x w (fun a => Q a ∧ ∃ w', R a w') := by
  unfold in_bounds at *
  cases hxw : x w with
  | error e => simpa [hxw] using h
  | ok p =>
    rw [hxw] at h
    exact ⟨h, p.2, hp p.1 p.2 hxw⟩

theorem ne_of_in_bounds {α : Type} {x : M C α} {w : World C} {Q : α → Prop}
    (h : in_bounds x w Q) : x w ≠ .error Fault.out_of_bounds := by
  unfold in_bounds at h
  intro e
  rw [e] at h
  exact h rfl

/-- Computations without a read from a listing. -/
theorem in_bounds_call {α : Type} {p : Slot} {op : Op C α} {w : World C} :
    in_bounds (call p op) w (fun _ => True) :=
  in_bounds_of_ok _ _ rfl trivial

theorem in_bounds_log {e : Call} {w : World C} : in_bounds (log e) w (fun _ => True) :=
  in_bounds_of_ok _ _ rfl trivial

theorem in_bounds_Xadd {c : Stat} {n : Int} {w : World C} :
    in_bounds (Xadd c n) w (fun _ => True) :=
  in_bounds_of_ok _ _ rfl trivial

theorem in_bounds_set_errno {e : Int} {w : World C} :
    in_bounds (set_errno e) w (fun _ => True) :=
  in_bounds_of_ok _ _ rfl trivial

theorem in_bounds_get_errno {w : World C} : in_bounds get_errno w (fun _ => True) :=
  in_bounds_of_ok _ _ rfl trivial

theorem in_bounds_AddLock {i : Nat} {w : World C} : in_bounds (AddLock i) w (fun _ => True) :=
  in_bounds_of_ok _ _ rfl trivial

theorem in_bounds_WritePipe {j : FileCopy} {w : World C} :
    in_bounds (WritePipe j) w (fun _ => True) :=
  in_bounds_of_ok _ _ rfl trivial

theorem in_bounds_copy_queue_add {n : Int} {w : World C} :
    in_bounds (copy_queue_add n) w (fun _ => True) :=
  in_bounds_of_ok _ _ rfl trivial

theorem in_bounds_add_dir_for_sync {d : String} {r : Bool} {w : World C} :
    in_bounds (add_dir_for_sync d r) w (fun _ => True) :=
  in_bounds_of_ok _ _ rfl trivial

theorem in_bounds_seq {α β : Type} {x : M C α} {f : α → M C β} {w : World C}
    (hx : in_bounds x w (fun _ => True))
    (hf : ∀ a w1, in_bounds (f a) w1 (fun _ => True)) :
    in_bounds (x >>= f) w (fun _ => True) :=
  in_bounds_bind hx (fun a w1 _ => hf a w1)

theorem cvmfs_attr_cmp_in_bounds (s d : Option cvmfs_attr) (fs : fs_traversal C) (w : World C) :
    in_bounds (cvmfs_attr_cmp s d fs : M C Bool) w (fun _ => True) := by
  unfold in_bounds
  cases h : (cvmfs_attr_cmp s d fs : M C Bool) w with
  | ok p => trivial
  | error f =>
    simp only [cvmfs_attr_cmp] at h
    repeat' split at h
    all_goals try cases h
    all_goals simp_all [strcmp_ptr]
    all_goals (repeat' split at *)
    all_goals simp_all
    all_goals (intro hf; simp_all)

theorem copyFile_loop_in_bounds (cfg : Config) (src_fs dest_fs : fs_traversal C) (s d : Nat)
    (fuel n : Nat) (w : World C) :
    in_bounds (copyFile_loop cfg src_fs dest_fs s d fuel n) w (fun _ => True) := by
  induction fuel generalizing n w with
  | zero => exact in_bounds_fault (by decide)
  | succ k ih =>
    unfold copyFile_loop
    repeat' (first
      | exact ih _ _
      | exact in_bounds_call
      | exact in_bounds_pure trivial
      | exact in_bounds_fault (by decide)
      | apply in_bounds_seq
      | apply in_bounds_ite
      | intro _)

theorem copyFile_in_bounds (cfg : Config) (fuel : Nat) (src_fs : fs_traversal C)
    (sn : Option String) (dest_fs : fs_traversal C) (dn : Option String) (w : World C) :
    in_bounds (copyFile cfg fuel src_fs sn dest_fs dn) w (fun _ => True) := by
  unfold copyFile
  repeat' (first
    | exact copyFile_loop_in_bounds _ _ _ _ _ _ _ _
    | exact in_bounds_call
    | exact in_bounds_log
    | exact in_bounds_Xadd
    | exact in_bounds_pure trivial
    | apply in_bounds_seq
    | apply in_bounds_ite
    | intro _
    | split)

theorem handle_file_in_bounds (cfg : Config) (fuel : Nat) (src : fs_traversal C)
    (src_st : cvmfs_attr) (dest : fs_traversal C) (dest_st : cvmfs_attr) (entry : String)
    (w : World C) :
    in_bounds (handle_file cfg fuel src src_st dest dest_st entry) w (fun _ => True) := by
  unfold handle_file handle_file_condition handle_file_copy handle_file_link
    should_write_anyway
  repeat' (first
    | exact copyFile_in_bounds _ _ _ _ _ _ _
    | exact in_bounds_call
    | exact in_bounds_log
    | exact in_bounds_Xadd
    | exact in_bounds_set_errno
    | exact in_bounds_AddLock
    | exact in_bounds_WritePipe
    | exact in_bounds_copy_queue_add
    | exact in_bounds_pure trivial
    | exact in_bounds_fault (by decide)
    | apply in_bounds_seq
    | apply in_bounds_ite
    | intro _
    | split)

theorem handle_dir_in_bounds (src : fs_traversal C) (src_st : cvmfs_attr)
    (dest : fs_traversal C) (dest_st : cvmfs_attr) (entry : String) (w : World C) :
    in_bounds (handle_dir src src_st dest dest_st entry) w (fun _ => True) := by
  unfold handle_dir
  repeat' (first
    | exact in_bounds_call
    | exact in_bounds_log
    | exact in_bounds_set_errno
    | exact in_bounds_get_errno
    | exact in_bounds_pure trivial
    | apply in_bounds_seq
    | apply in_bounds_ite
    | intro _)

theorem Sync_equivalent_in_bounds (dest : fs_traversal C) (l : SyncLocals) (w : World C) :
    in_bounds (Sync_equivalent dest l) w (fun _ => True) := by
  unfold Sync_equivalent
  repeat' (first
    | exact cvmfs_attr_cmp_in_bounds _ _ _ _
    | exact in_bounds_call
    | exact in_bounds_log
    | exact in_bounds_pure trivial
    | apply in_bounds_seq
    | apply in_bounds_ite
    | intro _
    | split)

theorem Sync_src_in_bounds (cfg : Config) (fuel : Nat) (src dest : fs_traversal C)
    (recursive : Bool) (l : SyncLocals) (e : String) (w : World C) :
    in_bounds (Sync_src cfg fuel src dest recursive l e) w (fun _ => True) := by
  unfold Sync_src
  repeat' (first
    | exact Sync_equivalent_in_bounds _ _ _
    | exact handle_file_in_bounds _ _ _ _ _ _ _ _
    | exact handle_dir_in_bounds _ _ _ _ _ _
    | exact in_bounds_call
    | exact in_bounds_log
    | exact in_bounds_add_dir_for_sync
    | exact in_bounds_pure trivial
    | apply in_bounds_seq
    | apply in_bounds_ite
    | intro _)

theorem Sync_dest_in_bounds (dest : fs_traversal C) (nested : String → M C Bool)
    (hn : ∀ d w, in_bounds (nested d) w (fun _ => True)) (l : SyncLocals) (e : String)
    (w : World C) :
    in_bounds (Sync_dest dest nested l e) w (fun _ => True) := by
  unfold Sync_dest
  repeat' (first
    | exact hn _ _
    | exact in_bounds_call
    | exact in_bounds_log
    | exact in_bounds_pure trivial
    | apply in_bounds_seq
    | apply in_bounds_ite
    | intro _)

theorem getNext_in_bounds (cfg : Config) (fs : fs_traversal C) (dir : String)
    (dl : Option (List String)) (gh is_src : Bool) (fuel : Nat) (iter : Int)
    (st : cvmfs_attr) (w : World C) (h : next_in_bounds dl iter) :
    in_bounds (getNext cfg fs dir dl gh is_src fuel iter st) w (fun g =>
      iter < g.iter ∧ (g.entry.isSome = true → next_in_bounds dl g.iter)) := by
  induction fuel generalizing iter st w with
  | zero => exact in_bounds_fault (by decide)
  | succ n ih =>
    unfold getNext
    cases dl with
    | none =>
      refine in_bounds_pure ⟨by simp only []; omega, fun _ list hl => ?_⟩
      cases hl
    | some list =>
      have hloc := h list rfl
      refine in_bounds_ite (fun hlt => absurd hlt (by omega)) (fun _ => ?_)
      cases hget : list.get? (iter + 1).toNat with
      | none => exact in_bounds_pure ⟨by simp only []; omega, fun hs => by simp at hs⟩
      | some name =>
        have hlt : (iter + 1).toNat < list.length := by
          by_contra hcon
          rw [List.get?_eq_none.mpr (by omega)] at hget
          cases hget
        have hnext : next_in_bounds (some list) ((iter + 1).toNat : Int) := by
          intro l hl
          cases hl
          omega
        have hrec : ∀ st w, in_bounds
            (getNext cfg fs dir (some list) gh is_src n ((iter + 1).toNat : Int) st) w
            (fun g => iter < g.iter ∧ (g.entry.isSome = true → next_in_bounds (some list) g.iter)) :=
          fun st w => in_bounds_mono (ih _ st w hnext) (fun g hg => ⟨by omega, hg.2⟩)
        simp only []
        refine in_bounds_ite (fun _ => hrec _ _) (fun _ => ?_)
        unfold updateStat
        simp only [bind_assoc, pure_bind]
        refine in_bounds_bind in_bounds_call (fun r w1 _ => ?_)
        refine in_bounds_bind in_bounds_log (fun _ w2 _ => ?_)
        refine in_bounds_ite (fun _ => hrec _ _) (fun _ => ?_)
        refine in_bounds_bind in_bounds_Xadd (fun _ w3 _ => ?_)
        refine in_bounds_bind in_bounds_log (fun _ w4 _ => ?_)
        exact in_bounds_pure ⟨by simp only []; omega, fun _ => hnext⟩

theorem Sync_src_next (cfg : Config) (fuel : Nat) (src dest : fs_traversal C)
    (recursive : Bool) (l : SyncLocals) (e : String) (w : World C) :
    in_bounds (Sync_src cfg fuel src dest recursive l e) w
      (fun step => ∀ l', step = LoopStep.next l' → l' = l) := by
  refine in_bounds_mono (in_bounds_post (Sync_src_in_bounds cfg fuel src dest recursive l e w)
    (Sync_src_done cfg fuel src dest recursive l e w)) ?_
  rintro step ⟨-, w', ev, -, h⟩ l' hl
  subst hl
  have := (h (by simp)).1
  cases this
  rfl

theorem Sync_dest_post_next (dest : fs_traversal C) (nested : String → M C Bool)
    (l : SyncLocals) (e : String) (w : World C) :
    post (Sync_dest dest nested l e) w
      (fun step _ => ∀ l', step = LoopStep.next l' → l' = l) := by
  unfold Sync_dest
  simp only [post_ite, post_bind, post_call, post_log, post_pure]
  refine ⟨fun _ => ⟨fun _ _ h => (by cases h), fun _ _ h => (by cases h; rfl)⟩, fun _ => ?_⟩
  refine ⟨fun _ => ?_, fun _ _ h => (by cases h)⟩
  intro a w1 _
  exact ⟨fun _ _ h => (by cases h), fun _ _ h => (by cases h; rfl)⟩

theorem Sync_dest_next (dest : fs_traversal C) (nested : String → M C Bool)
    (hn : ∀ d w, in_bounds (nested d) w (fun _ => True)) (l : SyncLocals) (e : String)
    (w : World C) :
    in_bounds (Sync_dest dest nested l e) w
      (fun step => ∀ l', step = LoopStep.next l' → l' = l) := by
  refine in_bounds_mono (in_bounds_post (Sync_dest_in_bounds dest nested hn l e w)
    (Sync_dest_post_next dest nested l e w)) ?_
  rintro step ⟨-, w', h⟩
  exact h

end Bounds

end shrinkwrap

namespace shrinkwrap

section Bounds

variable {C : Type}

theorem Sync_next_src_bounds (cfg : Config) (src : fs_traversal C) (dir : String)
    (sd dd : Option (List String)) (l : SyncLocals) (w : World C) (hl : Sync_bounds sd dd l) :
    in_bounds (Sync_next_src cfg src dir sd l) w (fun l1 =>
      l1.cmp = l.cmp ∧ l1.dest_entry = l.dest_entry ∧ l1.dest_iter = l.dest_iter ∧
      (l1.src_entry.isSome = true → next_in_bounds sd l1.src_iter) ∧
      ((l.cmp ≤ 0 ∧ l.src_iter < l1.src_iter) ∨ (0 < l.cmp ∧ l1.src_iter = l.src_iter))) := by
  unfold Sync_next_src
  refine in_bounds_ite (fun hc => ?_) (fun hc => ?_)
  · refine in_bounds_bind (getNext_in_bounds cfg src dir sd true true _ _ _ w
      (hl.1 (Or.inr hc))) (fun g w1 hg => in_bounds_pure ?_)
    exact ⟨rfl, rfl, rfl, hg.2, Or.inl ⟨hc, hg.1⟩⟩
  · exact in_bounds_pure ⟨rfl, rfl, rfl, fun h => hl.1 (Or.inl h), Or.inr ⟨by omega, rfl⟩⟩

theorem Sync_next_dest_bounds (cfg : Config) (dest : fs_traversal C) (dir : String)
    (do_fsck : Bool) (dd : Option (List String)) (l : SyncLocals) (w : World C)
    (hl : l.dest_entry.isSome = true ∨ 0 ≤ l.cmp → next_in_bounds dd l.dest_iter) :
    in_bounds (Sync_next_dest cfg dest dir do_fsck dd l) w (fun l2 =>
      l2.cmp = l.cmp ∧ l2.src_entry = l.src_entry ∧ l2.src_iter = l.src_iter ∧
      (l2.dest_entry.isSome = true → next_in_bounds dd l2.dest_iter) ∧
      ((0 ≤ l.cmp ∧ l.dest_iter < l2.dest_iter) ∨ (l.cmp < 0 ∧ l2.dest_iter = l.dest_iter))) := by
  unfold Sync_next_dest
  refine in_bounds_ite (fun hc => ?_) (fun hc => ?_)
  · refine in_bounds_bind (getNext_in_bounds cfg dest dir dd do_fsck false _ _ _ w
      (hl (Or.inr hc))) (fun g w1 hg => in_bounds_pure ?_)
    exact ⟨rfl, rfl, rfl, hg.2, Or.inl ⟨hc, hg.1⟩⟩
  · refine in_bounds_bind in_bounds_Xadd (fun _ w1 _ => in_bounds_pure ?_)
    exact ⟨rfl, rfl, rfl, fun h => hl (Or.inl h), Or.inr ⟨by omega, rfl⟩⟩

theorem Sync_body_bounds (cfg : Config) (fuel : Nat) (src dest : fs_traversal C) (dir : String)
    (recursive do_fsck : Bool) (sd dd : Option (List String)) (nested : String → M C Bool)
    (hn : ∀ d w, in_bounds (nested d) w (fun _ => True)) (l : SyncLocals) (w : World C)
    (hl : Sync_bounds sd dd l) :
    in_bounds (Sync_body cfg fuel src dest dir recursive do_fsck sd dd nested l) w
      (fun step => ∀ l', step = LoopStep.next l' →
        Sync_bounds sd dd l' ∧ (l.src_iter < l'.src_iter ∨ l.dest_iter < l'.dest_iter)) := by
  unfold Sync_body
  refine in_bounds_bind (Sync_next_src_bounds cfg src dir sd dd l w hl) (fun l1 w1 h1 => ?_)
  obtain ⟨hc1, hde1, hdi1, hs1, hp1⟩ := h1
  refine in_bounds_bind (Sync_next_dest_bounds cfg dest dir do_fsck dd l1 w1
    (by rw [hc1, hde1, hdi1]; exact hl.2)) (fun l2 w2 h2 => ?_)
  obtain ⟨hc2, hse2, hsi2, hd2, hp2⟩ := h2
  have hprog : l.src_iter < l2.src_iter ∨ l.dest_iter < l2.dest_iter := by
    rcases hp1 with ⟨hc, hlt⟩ | ⟨hc, he⟩
    · exact Or.inl (by rw [hsi2]; exact hlt)
    · rcases hp2 with ⟨hc', hlt⟩ | ⟨hc', he'⟩
      · exact Or.inr (by rw [← hdi1]; exact hlt)
      · omega
  have hs2 : l2.src_entry.isSome = true → next_in_bounds sd l2.src_iter := by
    rw [hse2, hsi2]
    exact hs1
  split
  · exact in_bounds_pure (fun l' h => by cases h)
  · rename_i D hs hd
    refine in_bounds_mono (Sync_dest_next dest nested hn _ D w2) (fun step h l' hl' => ?_)
    rw [h l' hl']
    refine ⟨⟨fun hh => ?_, fun _ => hd2 (by simp [hd])⟩, hprog⟩
    rcases hh with hh | hh
    · simp [hs] at hh
    · simp at hh
  · rename_i S hs hd
    refine in_bounds_mono (Sync_src_next cfg fuel src dest recursive _ S w2)
      (fun step h l' hl' => ?_)
    rw [h l' hl']
    refine ⟨⟨fun _ => hs2 (by simp [hs]), fun hh => ?_⟩, hprog⟩
    rcases hh with hh | hh
    · simp [hd] at hh
    · simp at hh
  · rename_i S D hs hd
    refine in_bounds_ite (fun hc => ?_) (fun hc => ?_)
    · refine in_bounds_mono (Sync_src_next cfg fuel src dest recursive _ S w2)
        (fun step h l' hl' => ?_)
      rw [h l' hl']
      exact ⟨⟨fun _ => hs2 (by simp [hs]), fun _ => hd2 (by simp [hd])⟩, hprog⟩
    · refine in_bounds_mono (Sync_dest_next dest nested hn _ D w2) (fun step h l' hl' => ?_)
      rw [h l' hl']
      exact ⟨⟨fun _ => hs2 (by simp [hs]), fun _ => hd2 (by simp [hd])⟩, hprog⟩

theorem Sync_loop_in_bounds (body : SyncLocals → M C LoopStep) (Inv : SyncLocals → Prop)
    (hb : ∀ l w, Inv l → in_bounds (body l) w
      (fun step => ∀ l', step = LoopStep.next l' → Inv l'))
    (n : Nat) (l : SyncLocals) (w : World C) (hl : Inv l) :
    in_bounds (Sync_loop body n l) w (fun _ => True) := by
  induction n generalizing l w with
  | zero => exact in_bounds_fault (by decide)
  | succ k ih =>
    unfold Sync_loop
    refine in_bounds_bind (hb l w hl) (fun step w1 hstep => ?_)
    cases step with
    | done r => exact in_bounds_pure trivial
    | next l' => exact ih l' w1 (hstep l' rfl)

theorem Sync_in_bounds (cfg : Config) (src dest : fs_traversal C) (fuel : Nat) (dir : String)
    (recursive do_fsck : Bool) (w : World C) :
    in_bounds (Sync cfg src dest fuel dir recursive do_fsck) w (fun _ => True) := by
  induction fuel generalizing dir recursive do_fsck w with
  | zero => exact in_bounds_fault (by decide)
  | succ n ih =>
    unfold Sync
    have hlist : in_bounds (list_src_dir cfg src dir) w (fun _ => True) := by
      unfold list_src_dir
      split
      · exact in_bounds_pure trivial
      · exact in_bounds_seq in_bounds_call
          (fun _ _ => in_bounds_seq in_bounds_log (fun _ _ => in_bounds_pure trivial))
    refine in_bounds_seq hlist (fun sd w1 => ?_)
    refine in_bounds_seq in_bounds_call (fun dd w2 => ?_)
    refine in_bounds_seq in_bounds_log (fun _ w3 => ?_)
    refine Sync_loop_in_bounds _ (Sync_bounds sd (dd.map qsort)) (fun l w hl => ?_) _ _ w3 ?_
    · exact in_bounds_mono (Sync_body_bounds cfg n src dest dir recursive do_fsck sd
        (dd.map qsort) _ (fun d w => ih d true false w) l w hl) (fun step h l' hl' => (h l' hl').1)
    · constructor <;> intro _ list _ <;> simp

/-- C19: no run of `Sync` reads behind the terminator of a listing (the fault
`out_of_bounds` of `getNext`), because `getNext` is called on a side only
while the position behind its iterator is inside the listing (`Sync_bounds`);
and every pass through the loop body that goes on to the next pass has moved
the source iterator or the destination iterator forward. -/
theorem merge_walk_bounds (cfg : Config) (src dest : fs_traversal C) (fuel : Nat)
    (dir : String) (recursive do_fsck : Bool) (w : World C)
    (sd dd : Option (List String)) (l l' : SyncLocals) (w1 w2 : World C)
    (hl : Sync_bounds sd dd l)
    (hstep : Sync_body cfg fuel src dest dir recursive do_fsck sd dd
      (fun e => Sync cfg src dest fuel e true false) l w1 = .ok (LoopStep.next l', w2)) :
    Sync cfg src dest fuel dir recursive do_fsck w ≠ .error Fault.out_of_bounds ∧
    Sync_bounds sd dd l' ∧ (l.src_iter < l'.src_iter ∨ l.dest_iter < l'.dest_iter) := by
  refine ⟨ne_of_in_bounds (Sync_in_bounds cfg src dest fuel dir recursive do_fsck w), ?_⟩
  have := Sync_body_bounds cfg fuel src dest dir recursive do_fsck sd dd
    (fun e => Sync cfg src dest fuel e true false)
    (fun d w => Sync_in_bounds cfg src dest fuel d true false w) l w1 hl
  unfold in_bounds at this
  rw [hstep] at this
  exact this l' rfl

theorem step_some {x : Res (LoopStep × World C)}
    (h : (match x with
      | .ok (LoopStep.next _, _) => true
      | _ => false) = true) :
    ∃ l' w2, x = .ok (LoopStep.next l', w2) := by
  split at h
  · rename_i l' w2
    exact ⟨l', w2, rfl⟩
  · cases h

end Bounds

/-- C19 on the in-memory backend: the first pass through the loop for the
source `/a`, `/b` and an empty destination. -/
theorem merge_walk_bounds_witness :
    ∃ l' w2,
      Sync_body (toy_cfg 0) 1 (toy_fs Slot.src) (toy_fs Slot.dest) "" true false
        (some ["a", "b"]) (some [])
        (fun e => Sync (toy_cfg 0) (toy_fs Slot.src) (toy_fs Slot.dest) 1 e true false)
        ⟨0, none, -1, attr0, none, -1, attr0⟩ (toy_world toy_twins ⟨[], [], []⟩) =
        .ok (LoopStep.next l', w2) ∧
      Sync (toy_cfg 0) (toy_fs Slot.src) (toy_fs Slot.dest) 1 "" true false
        (toy_world toy_twins ⟨[], [], []⟩) ≠ .error Fault.out_of_bounds ∧
      Sync_bounds (some ["a", "b"]) (some []) l' ∧
      ((-1 : Int) < l'.src_iter ∨ (-1 : Int) < l'.dest_iter) := by
  obtain ⟨l', w2, h⟩ := step_some (x := Sync_body (toy_cfg 0) 1 (toy_fs Slot.src)
    (toy_fs Slot.dest) "" true false (some ["a", "b"]) (some [])
    (fun e => Sync (toy_cfg 0) (toy_fs Slot.src) (toy_fs Slot.dest) 1 e true false)
    ⟨0, none, -1, attr0, none, -1, attr0⟩ (toy_world toy_twins ⟨[], [], []⟩)) (by decide!)
  refine ⟨l', w2, h, merge_walk_bounds (toy_cfg 0) (toy_fs Slot.src) (toy_fs Slot.dest) 1 ""
    true false (toy_world toy_twins ⟨[], [], []⟩) (some ["a", "b"]) (some [])
    ⟨0, none, -1, attr0, none, -1, attr0⟩ l' _ w2 ?_ h⟩
  constructor <;> intro _ list hl <;> cases hl <;> decide

end shrinkwrap

namespace shrinkwrap

section Prune

variable {C : Type}

end Prune

end shrinkwrap
